import Mathlib

/-!
# dispenso graph core (`dispenso/graph.cpp`): a shallow embedding

Objects live in a pointer heap. Every object kind is addressed by a natural
number (its address) and every C++ field becomes a map from the address of the
owning object to the field's value:

* `Node::numPredecessors_`, `Node::dependents_`, `BiPropNode::biPropSet_`
  are maps indexed by node address;
* a `std::shared_ptr<std::vector<const BiPropNode*>>` is `Option Nat`
  (`none` is `nullptr`), the vector it owns is `World.vec` at that handle, so
  two nodes holding the same handle alias one vector;
* `SubgraphT::nodes_`, `SubgraphT::graph_` are indexed by subgraph address,
  `GraphT::subgraphs_` by graph address.

`size_t` is `Nat` with explicit reduction modulo `2 ^ 64`.  The identity order
on nodes is the order of their addresses.
-/

namespace dispenso

/-! ## Memory -/

/-- Write `v` at address `a` of a field map. -/
def store {α : Type} (f : Nat → α) (a : Nat) (v : α) : Nat → α :=
  fun x => if x = a then v else f x

/-- The pointer heap: one map per C++ field, plus the bump pointer used by
`std::make_shared` to hand out vector handles. -/
structure World where
  /-- `Node::numPredecessors_` by node address. -/
  numPredecessors_ : Nat → Nat
  /-- `Node::dependents_` (a `std::vector<Node*>`) by node address. -/
  dependents_ : Nat → List Nat
  /-- `BiPropNode::biPropSet_` by node address; `none` is `nullptr`. -/
  biPropSet_ : Nat → Option Nat
  /-- The vector owned by each shared handle. -/
  vec : Nat → List Nat
  /-- Next handle `std::make_shared` returns. -/
  nextVec : Nat
  /-- `SubgraphT::nodes_` by subgraph address: the addresses of its nodes. -/
  nodes_ : Nat → List Nat
  /-- `SubgraphT::graph_` by subgraph address. -/
  graph_ : Nat → Nat
  /-- `GraphT::subgraphs_` by graph address: the addresses of its subgraphs. -/
  subgraphs_ : Nat → List Nat

/-! ## `size_t` arithmetic -/

/-- The modulus of `size_t`. -/
def sizeMod : Nat := 2 ^ 64

/-- `constexpr size_t kToDelete = std::numeric_limits<size_t>::max()`. -/
def kToDelete : Nat := 2 ^ 64 - 1

/-- `x++` on a `size_t`. -/
def sizeInc (x : Nat) : Nat := (x + 1) % sizeMod

/-- `x--` on a `size_t`. -/
def sizeDec (x : Nat) : Nat := (x + (sizeMod - 1)) % sizeMod

/-- `x += y` on a `size_t`. -/
def sizeAdd (x y : Nat) : Nat := (x + y) % sizeMod

/-! ## Anonymous namespace: `set_union`, `set_insert` -/

/-- Inner loop of `std::set_union` once the head `x` of the first range is
fixed; `rest` continues with the tail of the first range. -/
def stdSetUnionAux (x : Nat) (rest : List Nat → List Nat) : List Nat → List Nat
  | [] => x :: rest []
  | y :: ys =>
    if y < x then y :: stdSetUnionAux x rest ys
    else if x < y then x :: rest (y :: ys)
    else x :: rest ys

/-- `std::set_union(first1, last1, first2, last2, out)`: the merge of two
ranges that keeps one copy of an element present in both. -/
def stdSetUnion : List Nat → List Nat → List Nat
  | [], ys => ys
  | x :: xs, ys => stdSetUnionAux x (stdSetUnion xs) ys

/-- `std::upper_bound(s.begin(), s.end(), node)` as an index: the first
position holding an element greater than `node` (the library requires the
range to be partitioned with respect to `node`, which a sorted range is). -/
def upper_bound : List Nat → Nat → Nat
  | [], _ => 0
  | x :: xs, node => if node < x then 0 else upper_bound xs node + 1

/-- `set_insert(s, node)` (lines 22-27). -/
def set_insert (s : List Nat) (node : Nat) : List Nat :=
  let it := upper_bound s node
  if it = 0 ∨ s[it - 1]? ≠ some node then s.take it ++ node :: s.drop it else s

/-- `set_union(s1, s2)` (lines 14-20) on the vectors behind the handles `s1`
and `s2`, which may be the same handle: `tmp` copies `s1`, `s1.clear()`
empties the vector (seen through `s2` too when they alias), then
`std::set_union` appends to `s1`. -/
def set_union (w : World) (s1 s2 : Nat) : World :=
  let tmp := w.vec s1
  let w1 := { w with vec := store w.vec s1 [] }
  { w1 with vec := store w1.vec s1 (w1.vec s1 ++ stdSetUnion tmp (w1.vec s2)) }

/-! ## Nodes -/

/-- Modelled from the spec: `Node::dependsOnOneNode` is declared in
`dispenso/graph.h`, which is not part of the sources. Spec 4.1: append a
reference to `self` into `predecessor.dependents`; increment
`self.predecessorCount`. -/
def Node.dependsOnOneNode (w : World) (this node : Nat) : World :=
  let w1 := { w with dependents_ := store w.dependents_ node (w.dependents_ node ++ [this]) }
  { w1 with numPredecessors_ := store w1.numPredecessors_ this (sizeInc (w1.numPredecessors_ this)) }

/-- `BiPropNode::biPropDependsOnOneNode(BiPropNode* node)` (lines 32-49);
`this` is the dependent (self), `node` the predecessor. -/
def BiPropNode.biPropDependsOnOneNode (w : World) (this node : Nat) : World :=
  let w0 := Node.dependsOnOneNode w this node
  match w0.biPropSet_ node, w0.biPropSet_ this with
  | none, none =>
    let h := w0.nextVec
    let w1 := { w0 with nextVec := h + 1, vec := store w0.vec h [],
                        biPropSet_ := store w0.biPropSet_ this (some h) }
    let w2 := { w1 with vec := store w1.vec h (set_insert (w1.vec h) this) }
    let w3 := { w2 with vec := store w2.vec h (set_insert (w2.vec h) node) }
    { w3 with biPropSet_ := store w3.biPropSet_ node (some h) }
  | some hn, some ht =>
    let w1 := set_union w0 ht hn
    { w1 with biPropSet_ := store w1.biPropSet_ node (some ht) }
  | some hn, none =>
    let w1 := { w0 with biPropSet_ := store w0.biPropSet_ this (some hn) }
    { w1 with vec := store w1.vec hn (set_insert (w1.vec hn) this) }
  | none, some ht =>
    let w1 := { w0 with biPropSet_ := store w0.biPropSet_ node (some ht) }
    { w1 with vec := store w1.vec ht (set_insert (w1.vec ht) node) }

/-! ## Subgraphs -/

/-- Modelled from the spec: `removeNodeFromBiPropSet` is declared in
`dispenso/graph.h`, which is not part of the sources. Spec 4.3, phase A:
remove `n` from its propagation group if it has one: if the group would become
empty, drop the handle entirely; otherwise erase `n` from the shared
sequence. For a plain `Node` the handle is always `none`. -/
def SubgraphT.removeNodeFromBiPropSet (w : World) (node : Nat) : World :=
  match w.biPropSet_ node with
  | none => w
  | some h =>
    if (w.vec h).erase node = [] then { w with biPropSet_ := store w.biPropSet_ node none }
    else { w with vec := store w.vec h ((w.vec h).erase node) }

/-- Modelled from the spec: `SubgraphT::addNode` is declared in
`dispenso/graph.h`, which is not part of the sources. Spec 3: a node is
created when added to a subgraph's node collection, with no incoming edge, no
dependent and no group; `addr` is the address the node storage gives it. -/
def SubgraphT.addNode (w : World) (this addr : Nat) : World :=
  { w with nodes_ := store w.nodes_ this (w.nodes_ this ++ [addr]),
           numPredecessors_ := store w.numPredecessors_ addr 0,
           dependents_ := store w.dependents_ addr [],
           biPropSet_ := store w.biPropSet_ addr none }

/-- Line 65, `dependent->numPredecessors_--`. -/
def decrementOne (w : World) (dependent : Nat) : World :=
  { w with numPredecessors_ :=
      store w.numPredecessors_ dependent (sizeDec (w.numPredecessors_ dependent)) }

/-- `SubgraphT<N>::decrementDependentCounters()` (lines 61-69). -/
def SubgraphT.decrementDependentCounters (w : World) (this : Nat) : World :=
  (w.nodes_ this).foldl
    (fun w node =>
      SubgraphT.removeNodeFromBiPropSet ((w.dependents_ node).foldl decrementOne w) node)
    w

/-- Body of the loop of `markNodesWithPredicessors` (lines 75-78) on the pair
of the heap and `numGraphPredecessors`. -/
def markOne (acc : World × Nat) (node : Nat) : World × Nat :=
  if acc.1.numPredecessors_ node ≠ 0 then
    ({ acc.1 with numPredecessors_ := store acc.1.numPredecessors_ node kToDelete },
      sizeAdd acc.2 (acc.1.numPredecessors_ node))
  else acc

/-- `SubgraphT<N>::markNodesWithPredicessors()` (lines 71-81): the heap
afterwards and the returned total. -/
def SubgraphT.markNodesWithPredicessors (w : World) (this : Nat) : World × Nat :=
  (w.nodes_ this).foldl markOne (w, 0)

/-- `std::vector::resize(n)` on a vector of pointers: truncate, or pad with
null pointers. -/
def resize (v : List Nat) (n : Nat) : List Nat :=
  v.take n ++ List.replicate (n - v.length) 0

/-- The loop of lines 92-103 with the `resize` that follows either exit
(lines 97 and 104). State: the vector `dependents`, `num`, `i` and
`numGraphPredecessors`. The result is the resized vector, the counter and
whether the function returned (line 98). `none` is an out-of-range subscript
or exhausted fuel; each iteration lowers `num - i` by one, so `num - i` fuel
is enough. -/
def eraseLoop (w : World) : Nat → List Nat → Nat → Nat → Nat → Option (List Nat × Nat × Bool)
  | 0, dependents, num, i, n =>
    if i < num then none else some (resize dependents num, n, false)
  | fuel + 1, dependents, num, i, n =>
    if i < num then
      match dependents[i]? with
      | none => none
      | some d =>
        if w.numPredecessors_ d = kToDelete then
          match dependents[num - 1]? with
          | none => none
          | some last =>
            if sizeDec n = 0 then some (resize (dependents.set i last) (num - 1), sizeDec n, true)
            else eraseLoop w fuel (dependents.set i last) (num - 1) i (sizeDec n)
        else eraseLoop w fuel dependents num (i + 1) n
    else some (resize dependents num, n, false)

/-- Lines 90-104 for one `node` of a scanned subgraph: the heap, the counter
and whether the function returned. -/
def purgeNode (w : World) (node n : Nat) : Option (World × Nat × Bool) :=
  match eraseLoop w (w.dependents_ node).length (w.dependents_ node)
      (w.dependents_ node).length 0 n with
  | none => none
  | some (dependents, n1, returned) =>
    some ({ w with dependents_ := store w.dependents_ node dependents }, n1, returned)

/-- The loop of line 89 over the nodes of one subgraph. -/
def purgeNodes : World → List Nat → Nat → Option (World × Nat × Bool)
  | w, [], n => some (w, n, false)
  | w, node :: rest, n =>
    match purgeNode w node n with
    | none => none
    | some (w1, n1, true) => some (w1, n1, true)
    | some (w1, n1, false) => purgeNodes w1 rest n1

/-- The loop of line 85 over `graph_->subgraphs_`, skipping `this`. -/
def purgeSubgraphs (this : Nat) : World → List Nat → Nat → Option World
  | w, [], _ => some w
  | w, subgraph :: rest, n =>
    if subgraph = this then purgeSubgraphs this w rest n
    else
      match purgeNodes w (w.nodes_ subgraph) n with
      | none => none
      | some (w1, _, true) => some w1
      | some (w1, n1, false) => purgeSubgraphs this w1 rest n1

/-- `SubgraphT<N>::removePredecessorDependencies(numGraphPredecessors)`
(lines 83-107). -/
def SubgraphT.removePredecessorDependencies (w : World) (this n : Nat) : Option World :=
  purgeSubgraphs this w (w.subgraphs_ (w.graph_ this)) n

/-- `SubgraphT<N>::clear()` (lines 51-59). -/
def SubgraphT.clear (w : World) (this : Nat) : Option World :=
  let w1 := SubgraphT.decrementDependentCounters w this
  let marked := SubgraphT.markNodesWithPredicessors w1 this
  let purged :=
    if marked.2 ≠ 0 then SubgraphT.removePredecessorDependencies marked.1 this marked.2
    else some marked.1
  purged.map fun w3 => { w3 with nodes_ := store w3.nodes_ this [] }

/-! ## Graphs -/

/-- The loop of lines 111-113 and 119-121: `subgraph.graph_ = this`. -/
def setOwner (this : Nat) (w : World) (subgraph : Nat) : World :=
  { w with graph_ := store w.graph_ subgraph this }

/-- `GraphT<N>::GraphT(GraphT<N>&& other)` (lines 109-114). Moving a
`std::deque` hands its elements, at their addresses, to the destination and
leaves the source without elements. -/
def GraphT.moveConstruct (w : World) (this other : Nat) : World :=
  let w1 := { w with subgraphs_ := store (store w.subgraphs_ this (w.subgraphs_ other)) other [] }
  (w1.subgraphs_ this).foldl (setOwner this) w1

/-- `GraphT<N>::operator=(GraphT&& other)` (lines 116-123). -/
def GraphT.moveAssign (w : World) (this other : Nat) : World :=
  let w1 := { w with subgraphs_ := store (store w.subgraphs_ this (w.subgraphs_ other)) other [] }
  (w1.subgraphs_ this).foldl (setOwner this) w1

/-- `GraphT<N>::addSubgraph()` (lines 125-130); `addr` is the address the
deque gives the new element. Returns the heap and the returned pointer. -/
def GraphT.addSubgraph (w : World) (this addr : Nat) : World × Nat :=
  let w1 := { w with nodes_ := store w.nodes_ addr [], graph_ := store w.graph_ addr this }
  let w2 := { w1 with subgraphs_ := store w1.subgraphs_ this (w1.subgraphs_ this ++ [addr]) }
  (w2, (w2.subgraphs_ this).getLastD 0)

/-! ## Vocabulary of the proofs about `clear()` -/

/-- The test of line 93 as a predicate on node addresses. -/
def doomed (c : Nat → Nat) (x : Nat) : Bool := decide (c x = kToDelete)

/-- What one run of the loop of lines 92-103 guarantees, relative to the
window `deps.take num` it starts from. -/
structure EraseSpec (c : Nat → Nat) (window : List Nat) (n : Nat)
    (res : List Nat × Nat × Bool) : Prop where
  kept : ∀ x, doomed c x = false → res.1.count x = window.count x
  removed : res.1.countP (doomed c) + (n - res.2.1) = window.countP (doomed c)
  le : res.2.1 ≤ n
  returned : res.2.2 = true ↔ res.2.1 = 0
  clean : res.2.2 = false → res.1.countP (doomed c) = 0

/-- The nodes of graph `g`: those stored in its subgraphs. -/
def allNodes (w : World) (g : Nat) : List Nat := (w.subgraphs_ g).flatMap w.nodes_

/-- The references held by the dependents lists of the nodes `ms`, in order. -/
def refsOf (deps : Nat → List Nat) (ms : List Nat) : List Nat := ms.flatMap deps

/-- Only `dependents_` differs between the two heaps. -/
structure DepsOnly (w w1 : World) : Prop where
  numPredecessors_ : w1.numPredecessors_ = w.numPredecessors_
  biPropSet_ : w1.biPropSet_ = w.biPropSet_
  vec : w1.vec = w.vec
  nextVec : w1.nextVec = w.nextVec
  nodes_ : w1.nodes_ = w.nodes_
  graph_ : w1.graph_ = w.graph_
  subgraphs_ : w1.subgraphs_ = w.subgraphs_

/-- What a scan of the nodes `ms` (line 89) guarantees. -/
structure ScanSpec (w : World) (ms : List Nat) (n : Nat) (res : World × Nat × Bool) : Prop where
  frame : DepsOnly w res.1
  untouched : ∀ m, m ∉ ms → res.1.dependents_ m = w.dependents_ m
  kept : ∀ m x, doomed w.numPredecessors_ x = false →
    (res.1.dependents_ m).count x = (w.dependents_ m).count x
  removed : (refsOf res.1.dependents_ ms).countP (doomed w.numPredecessors_) + (n - res.2.1)
    = (refsOf w.dependents_ ms).countP (doomed w.numPredecessors_)
  le : res.2.1 ≤ n
  returned : res.2.2 = true ↔ res.2.1 = 0
  clean : res.2.2 = false → (refsOf res.1.dependents_ ms).countP (doomed w.numPredecessors_) = 0

/-- The nodes scanned by `removePredecessorDependencies`: those of the
subgraphs `subs` other than `this`. -/
def scanned (nodes : Nat → List Nat) (this : Nat) (subs : List Nat) : List Nat :=
  (subs.filter fun s => decide (s ≠ this)).flatMap nodes

/-- The graph structure and the dependents lists agree; counters and groups
may differ. -/
structure EdgesSame (w w1 : World) : Prop where
  dependents_ : w1.dependents_ = w.dependents_
  nodes_ : w1.nodes_ = w.nodes_
  graph_ : w1.graph_ = w.graph_
  subgraphs_ : w1.subgraphs_ = w.subgraphs_

/-- Lines 63-68 for the nodes `ns`. -/
def phaseA (w : World) (ns : List Nat) : World :=
  ns.foldl
    (fun w node =>
      SubgraphT.removeNodeFromBiPropSet ((w.dependents_ node).foldl decrementOne w) node)
    w

/-- Only `numPredecessors_` differs between the two heaps. -/
structure CountsOnly (w w1 : World) : Prop where
  edges : EdgesSame w w1
  biPropSet_ : w1.biPropSet_ = w.biPropSet_
  vec : w1.vec = w.vec
  nextVec : w1.nextVec = w.nextVec

/-! ## Well-formed graphs and the edge/count invariant -/

/-- Structural well-formedness of graph `g` in the heap: distinct objects have
distinct addresses, every subgraph of `g` points back at `g`, dependents lists
refer to nodes of the graph, and the dependents vectors fit in a 64-bit
address space (fewer than `2 ^ 64 - 1` entries altogether). -/
structure WellFormed (w : World) (g : Nat) : Prop where
  subgraphs_nodup : (w.subgraphs_ g).Nodup
  owner : ∀ s ∈ w.subgraphs_ g, w.graph_ s = g
  nodes_nodup : (allNodes w g).Nodup
  closed : ∀ d ∈ refsOf w.dependents_ (allNodes w g), d ∈ allNodes w g
  fits : (refsOf w.dependents_ (allNodes w g)).length < kToDelete

/-- The edge/count invariant: the counter of every node of the graph is the
number of occurrences of the node in the dependents lists of the nodes of the
graph, and is not the sentinel. -/
def CountInv (w : World) (g : Nat) : Prop :=
  ∀ n ∈ allNodes w g,
    w.numPredecessors_ n = (refsOf w.dependents_ (allNodes w g)).count n ∧
      w.numPredecessors_ n ≠ kToDelete

/-- Facts about a well-formed graph split at one of its subgraphs `s`. -/
structure Split (w : World) (g s : Nat) : Prop where
  mem : ∀ x, x ∈ allNodes w g ↔ x ∈ w.nodes_ s ∨ x ∈ scanned w.nodes_ s (w.subgraphs_ g)
  nodupS : (w.nodes_ s).Nodup
  nodupO : (scanned w.nodes_ s (w.subgraphs_ g)).Nodup
  disj : ∀ x ∈ w.nodes_ s, x ∉ scanned w.nodes_ s (w.subgraphs_ g)
  count : ∀ x, (refsOf w.dependents_ (allNodes w g)).count x
    = (refsOf w.dependents_ (w.nodes_ s)).count x
      + (refsOf w.dependents_ (scanned w.nodes_ s (w.subgraphs_ g))).count x
  len : (refsOf w.dependents_ (w.nodes_ s)).length
    + (refsOf w.dependents_ (scanned w.nodes_ s (w.subgraphs_ g))).length < kToDelete
  closedS : ∀ x ∈ refsOf w.dependents_ (w.nodes_ s), x ∈ allNodes w g
  closedO : ∀ x ∈ refsOf w.dependents_ (scanned w.nodes_ s (w.subgraphs_ g)), x ∈ allNodes w g

/-- What `clear()` on subgraph `this` of graph `g` leaves, in terms of the
heap `w` it started from. -/
structure ClearSpec (w : World) (g this : Nat) (w1 : World) : Prop where
  subgraphs_ : w1.subgraphs_ = w.subgraphs_
  graph_ : w1.graph_ = w.graph_
  nodes_ : w1.nodes_ = store w.nodes_ this []
  biPropSet_ : w1.biPropSet_ = (phaseA w (w.nodes_ this)).biPropSet_
  vec : w1.vec = (phaseA w (w.nodes_ this)).vec
  nextVec : w1.nextVec = w.nextVec
  counts : ∀ x, x ∉ w.nodes_ this →
    w1.numPredecessors_ x + (refsOf w.dependents_ (w.nodes_ this)).count x
      = w.numPredecessors_ x
  untouched : ∀ m, m ∉ scanned w.nodes_ this (w.subgraphs_ g) →
    w1.dependents_ m = w.dependents_ m
  purged : ∀ m ∈ scanned w.nodes_ this (w.subgraphs_ g),
    (w1.dependents_ m).Perm ((w.dependents_ m).filter fun x => decide (x ∉ w.nodes_ this))

/-! ## Reachable states -/

/-- The states of graph `g` reachable from an empty graph by `addSubgraph`,
node creation, `addDependency`, `addPropagationDependency` and
`Subgraph.clear()`. The calls respect the calling discipline of the spec
(section 7): a new object gets an address no live object of the graph has,
edges are created between nodes of the graph, and a dependents vector only
grows while the vectors fit in the address space. -/
inductive Reachable (g : Nat) : World → Prop
  | empty (w : World) (h : w.subgraphs_ g = []) : Reachable g w
  | addSubgraph (w : World) (addr : Nat) (hr : Reachable g w)
      (hfresh : addr ∉ w.subgraphs_ g) : Reachable g (GraphT.addSubgraph w g addr).1
  | addNode (w : World) (s addr : Nat) (hr : Reachable g w) (hs : s ∈ w.subgraphs_ g)
      (hfresh : addr ∉ allNodes w g) : Reachable g (SubgraphT.addNode w s addr)
  | addDependency (w : World) (self predecessor : Nat) (hr : Reachable g w)
      (hself : self ∈ allNodes w g) (hpred : predecessor ∈ allNodes w g)
      (hfits : (refsOf w.dependents_ (allNodes w g)).length + 1 < kToDelete) :
      Reachable g (Node.dependsOnOneNode w self predecessor)
  | addPropagationDependency (w : World) (self predecessor : Nat) (hr : Reachable g w)
      (hself : self ∈ allNodes w g) (hpred : predecessor ∈ allNodes w g)
      (hfits : (refsOf w.dependents_ (allNodes w g)).length + 1 < kToDelete) :
      Reachable g (BiPropNode.biPropDependsOnOneNode w self predecessor)
  | clear (w w1 : World) (s : Nat) (hr : Reachable g w) (hs : s ∈ w.subgraphs_ g)
      (h : SubgraphT.clear w s = some w1) : Reachable g w1

/-! ## Propagation groups -/

/-- The member sequence of the group of node `n`; empty when `n` has no
group. -/
def groupOf (w : World) (n : Nat) : List Nat :=
  match w.biPropSet_ n with
  | none => []
  | some h => w.vec h

/-- The group of `n`, when present, is strictly sorted and contains `n`. -/
def GroupOk (w : World) (n : Nat) : Prop :=
  ∀ h, w.biPropSet_ n = some h → (w.vec h).Sorted (· < ·) ∧ n ∈ w.vec h

/-- The states reachable from ungrouped propagation nodes by
`addPropagationDependency` calls, with the propagation edges
`(self, predecessor)` created so far, latest first. -/
inductive PropReachable : List (Nat × Nat) → World → Prop
  | start (w : World) (h : ∀ n, w.biPropSet_ n = none) : PropReachable [] w
  | call (edges : List (Nat × Nat)) (w : World) (self predecessor : Nat)
      (hr : PropReachable edges w) :
      PropReachable ((self, predecessor) :: edges)
        (BiPropNode.biPropDependsOnOneNode w self predecessor)

/-- Two nodes are connected by a chain of propagation edges. -/
def Connected (edges : List (Nat × Nat)) : Nat → Nat → Prop :=
  Relation.EqvGen fun a b => (a, b) ∈ edges

/-- Only `graph_` and `subgraphs_` differ between the two heaps. -/
structure NodesSame (w w1 : World) : Prop where
  numPredecessors_ : w1.numPredecessors_ = w.numPredecessors_
  dependents_ : w1.dependents_ = w.dependents_
  biPropSet_ : w1.biPropSet_ = w.biPropSet_
  vec : w1.vec = w.vec
  nodes_ : w1.nodes_ = w.nodes_

/-- The group invariant on the nodes `ns`: the handle of each of them, when
present, was handed out by the allocator, and refers to a strictly sorted
sequence that contains the node. -/
def GroupInv (w : World) (ns : List Nat) : Prop :=
  ∀ n ∈ ns, ∀ h, w.biPropSet_ n = some h →
    h < w.nextVec ∧ (w.vec h).Sorted (· < ·) ∧ n ∈ w.vec h

/-! ## Safety of the decrements of phase A -/

/-- Every `dependent->numPredecessors_--` of the loop of line 64 over the
references `deps` is applied to a counter that is at least 1 at that moment,
and does not produce the sentinel. -/
def decrementsSafe : World → List Nat → Prop
  | _, [] => True
  | w, dependent :: rest =>
    1 ≤ w.numPredecessors_ dependent ∧
      (decrementOne w dependent).numPredecessors_ dependent ≠ kToDelete ∧
      decrementsSafe (decrementOne w dependent) rest

/-- Every decrement of `decrementDependentCounters` over the nodes `ns`
(lines 63-68) is safe in the sense of `decrementsSafe`. -/
def countersSafe : World → List Nat → Prop
  | _, [] => True
  | w, node :: rest =>
    decrementsSafe w (w.dependents_ node) ∧
      countersSafe
        (SubgraphT.removeNodeFromBiPropSet ((w.dependents_ node).foldl decrementOne w) node) rest

/-! ## Phase C and the full unconditional scan -/

/-- Lines 55-57 of `clear()`: phase C, skipped when the total is zero. -/
def phaseC (w : World) (this n : Nat) : Option World :=
  if n ≠ 0 then SubgraphT.removePredecessorDependencies w this n else some w

/-- The full unconditional scan the spec compares phase C with (section 8,
early-exit equivalence), for one dependents vector: the loop of lines 92-103
with the early exit of lines 96-99 disabled, followed by the `resize`. -/
def eraseLoopFull (w : World) : Nat → List Nat → Nat → Nat → Option (List Nat)
  | 0, dependents, num, i => if i < num then none else some (resize dependents num)
  | fuel + 1, dependents, num, i =>
    if i < num then
      match dependents[i]? with
      | none => none
      | some d =>
        if w.numPredecessors_ d = kToDelete then
          match dependents[num - 1]? with
          | none => none
          | some last => eraseLoopFull w fuel (dependents.set i last) (num - 1) i
        else eraseLoopFull w fuel dependents num (i + 1)
    else some (resize dependents num)

/-- The full unconditional scan for one node. -/
def purgeNodeFull (w : World) (node : Nat) : Option World :=
  match eraseLoopFull w (w.dependents_ node).length (w.dependents_ node)
      (w.dependents_ node).length 0 with
  | none => none
  | some dependents => some { w with dependents_ := store w.dependents_ node dependents }

/-- The full unconditional scan over the nodes of one subgraph. -/
def purgeNodesFull : World → List Nat → Option World
  | w, [] => some w
  | w, node :: rest =>
    match purgeNodeFull w node with
    | none => none
    | some w1 => purgeNodesFull w1 rest

/-- The full unconditional scan over every subgraph other than `this`. -/
def purgeSubgraphsFull (this : Nat) : World → List Nat → Option World
  | w, [] => some w
  | w, subgraph :: rest =>
    if subgraph = this then purgeSubgraphsFull this w rest
    else
      match purgeNodesFull w (w.nodes_ subgraph) with
      | none => none
      | some w1 => purgeSubgraphsFull this w1 rest

/-- Phase C with early exit disabled: every other subgraph of the owning graph
and every node of it is visited. -/
def removePredecessorDependenciesFull (w : World) (this : Nat) : Option World :=
  purgeSubgraphsFull this w (w.subgraphs_ (w.graph_ this))

/-! ## Concrete states -/

/-- A heap with no object in it. -/
def emptyWorld : World :=
  ⟨fun _ => 0, fun _ => [], fun _ => none, fun _ => [], 0, fun _ => [], fun _ => 0, fun _ => []⟩

/-- The scenario of spec section 8: graph `0` with subgraphs `S1 = 10` holding
`A = 1`, `B = 2` and `S2 = 20` holding `C = 3`; `B.addDependency(A)`,
`C.addDependency(B)`. -/
def scenario : World :=
  let w1 := (GraphT.addSubgraph emptyWorld 0 10).1
  let w2 := (GraphT.addSubgraph w1 0 20).1
  let w3 := SubgraphT.addNode w2 10 1
  let w4 := SubgraphT.addNode w3 10 2
  let w5 := SubgraphT.addNode w4 20 3
  let w6 := Node.dependsOnOneNode w5 2 1
  Node.dependsOnOneNode w6 3 2

/-- Two groups built from ungrouped nodes: `n1.addPropagationDependency(n2)`
then `n3.addPropagationDependency(n4)`, for the nodes at addresses 1 to 4. -/
def twoGroups : World :=
  BiPropNode.biPropDependsOnOneNode (BiPropNode.biPropDependsOnOneNode emptyWorld 1 2) 3 4

/-- The state after `n1.addPropagationDependency(n2)`,
`n3.addPropagationDependency(n4)` and `n1.addPropagationDependency(n3)`. -/
def mergedGroups : World := BiPropNode.biPropDependsOnOneNode twoGroups 1 3

/-- The scenario of spec section 8 with its three nodes joined in one
propagation group: `B.addPropagationDependency(A)`, then
`C.addPropagationDependency(B)`. -/
def groupScenario : World :=
  BiPropNode.biPropDependsOnOneNode (BiPropNode.biPropDependsOnOneNode scenario 2 1) 3 2

/-- A heap in which the node at address 5 carries the sentinel and every
other counter is 1. -/
def markedWorld : World :=
  { emptyWorld with numPredecessors_ := fun x => if x = 5 then kToDelete else 1 }

/-- A graph `0` with subgraphs `10` holding the nodes 1, 2, 4 and `20` holding
the node 3, after `n1.addPropagationDependency(n2)`,
`n3.addPropagationDependency(n4)` and `n1.addPropagationDependency(n3)`. -/
def staleScenario : World :=
  let w1 := (GraphT.addSubgraph emptyWorld 0 10).1
  let w2 := (GraphT.addSubgraph w1 0 20).1
  let w3 := SubgraphT.addNode w2 10 1
  let w4 := SubgraphT.addNode w3 10 2
  let w5 := SubgraphT.addNode w4 20 3
  let w6 := SubgraphT.addNode w5 10 4
  let w7 := BiPropNode.biPropDependsOnOneNode w6 1 2
  let w8 := BiPropNode.biPropDependsOnOneNode w7 3 4
  BiPropNode.biPropDependsOnOneNode w8 1 3

/-! ## Lemmas -/

/-! ### Memory, `size_t` and list facts -/

@[simp] theorem store_same {α : Type} (f : Nat → α) (a : Nat) (v : α) : store f a v a = v := by
  simp [store]

theorem store_other {α : Type} (f : Nat → α) {a x : Nat} (v : α) (h : x ≠ a) :
    store f a v x = f x := by
  simp [store, h]

theorem sizeDec_pos {x : Nat} (h1 : 1 ≤ x) (h2 : x < sizeMod) : sizeDec x = x - 1 := by
  unfold sizeDec sizeMod at *
  omega

theorem sizeInc_lt {x : Nat} (h : x + 1 < sizeMod) : sizeInc x = x + 1 := by
  unfold sizeInc
  exact Nat.mod_eq_of_lt h

theorem resize_of_le {v : List Nat} {n : Nat} (h : n ≤ v.length) : resize v n = v.take n := by
  simp [resize, Nat.sub_eq_zero_of_le h]

theorem take_succ_of_getElem? {l : List Nat} {i d : Nat} (h : l[i]? = some d) :
    l.take (i + 1) = l.take i ++ [d] := by
  rw [List.take_succ, h]; rfl

theorem take_set_ge (l : List Nat) (i j v : Nat) (h : j ≤ i) :
    (l.set i v).take j = l.take j := by
  induction l generalizing i j with
  | nil => simp
  | cons a l ih =>
    cases j with
    | zero => simp
    | succ j =>
      cases i with
      | zero => omega
      | succ i => simp [ih i j (by omega)]

theorem take_set_perm (l : List Nat) (i num d last : Nat) (hi : i < num) (hn : num ≤ l.length)
    (hd : l[i]? = some d) (hl : l[num - 1]? = some last) :
    (l.take num).Perm (d :: (l.set i last).take (num - 1)) := by
  induction l generalizing i num with
  | nil => simp at hn; omega
  | cons a l ih =>
    obtain ⟨k, rfl⟩ : ∃ k, num = k + 1 := ⟨num - 1, by omega⟩
    simp only [Nat.add_sub_cancel] at hl ⊢
    cases i with
    | zero =>
      simp at hd
      subst hd
      cases k with
      | zero => simp
      | succ k =>
        simp only [List.set_cons_zero, List.take_succ_cons]
        simp only [List.getElem?_cons_succ] at hl
        have h2 : l.take (k + 1) = l.take k ++ [last] := take_succ_of_getElem? hl
        rw [h2]
        refine List.Perm.cons _ ?_
        exact List.perm_append_singleton _ _
    | succ i =>
      cases k with
      | zero => omega
      | succ k =>
        simp only [List.getElem?_cons_succ] at hd hl
        simp only [List.set_cons_succ, List.take_succ_cons]
        have := ih i (k + 1) (by omega) (by simpa using hn) hd (by simpa using hl)
        simp only [Nat.add_sub_cancel] at this
        exact (List.Perm.cons a this).trans (List.Perm.swap _ _ _)

/-! ### The swap-with-last loop (lines 92-103) -/

theorem countP_doomed_of_prefix {c : Nat → Nat} {l : List Nat}
    (h : ∀ x ∈ l, doomed c x = false) : l.countP (doomed c) = 0 := by
  rw [List.countP_eq_zero]
  intro x hx
  simp [h x hx]

theorem eraseLoop_spec (w : World) :
    ∀ (fuel : Nat) (deps : List Nat) (num i n : Nat),
      i ≤ num → num ≤ deps.length → num - i ≤ fuel → 1 ≤ n → n < sizeMod →
      (∀ x ∈ deps.take i, doomed w.numPredecessors_ x = false) →
      ∃ res, eraseLoop w fuel deps num i n = some res ∧
        EraseSpec w.numPredecessors_ (deps.take num) n res := by
  intro fuel
  induction fuel with
  | zero =>
    intro deps num i n hi hnum hfuel hn1 _ hpre
    have hin : i = num := by omega
    subst hin
    refine ⟨(resize deps i, n, false), by simp [eraseLoop], ?_⟩
    rw [resize_of_le hnum]
    exact ⟨fun _ _ => rfl, by simp, Nat.le_refl _, by simp; omega,
      fun _ => countP_doomed_of_prefix hpre⟩
  | succ fuel ih =>
    intro deps num i n hi hnum hfuel hn1 hn2 hpre
    by_cases hlt : i < num
    · obtain ⟨d, hd⟩ : ∃ d, deps[i]? = some d :=
        ⟨deps[i], List.getElem?_eq_getElem (by omega)⟩
      by_cases hdoom : w.numPredecessors_ d = kToDelete
      · obtain ⟨last, hlast⟩ : ∃ last, deps[num - 1]? = some last :=
          ⟨deps[num - 1], List.getElem?_eq_getElem (by omega)⟩
        have hperm := take_set_perm deps i num d last hlt hnum hd hlast
        have hdd : doomed w.numPredecessors_ d = true := by simp [doomed, hdoom]
        have hdec : sizeDec n = n - 1 := sizeDec_pos hn1 hn2
        have hlen : num - 1 ≤ (deps.set i last).length := by simp; omega
        have hcountP : (deps.take num).countP (doomed w.numPredecessors_)
            = ((deps.set i last).take (num - 1)).countP (doomed w.numPredecessors_) + 1 := by
          rw [hperm.countP_eq, List.countP_cons_of_pos _ _ hdd]
        have hcount : ∀ x, doomed w.numPredecessors_ x = false →
            (deps.take num).count x = ((deps.set i last).take (num - 1)).count x := by
          intro x hx
          rw [hperm.count_eq, List.count_cons_of_ne]
          rintro rfl
          simp [hdd] at hx
        by_cases hz : sizeDec n = 0
        · refine ⟨(resize (deps.set i last) (num - 1), sizeDec n, true), ?_, ?_⟩
          · simp [eraseLoop, hlt, hd, hdoom, hlast, hz]
          · rw [resize_of_le hlen]
            refine ⟨fun x hx => (hcount x hx).symm, ?_, ?_, ?_, ?_⟩
            · simp only [hcountP, hz]; omega
            · simp only [hz]; omega
            · simp [hz]
            · simp
        · obtain ⟨res, hres, hspec⟩ := ih (deps.set i last) (num - 1) i (sizeDec n)
            (by omega) hlen (by omega) (by omega) (by omega)
            (by rw [take_set_ge _ _ _ _ (Nat.le_refl i)]; exact hpre)
          refine ⟨res, ?_, ?_⟩
          · simp [eraseLoop, hlt, hd, hdoom, hlast, hz, hres]
          · refine ⟨fun x hx => (hspec.kept x hx).trans (hcount x hx).symm, ?_, ?_,
              hspec.returned, hspec.clean⟩
            · have h1 := hspec.removed
              have h2 := hspec.le
              rw [hcountP]; omega
            · have h2 := hspec.le
              omega
      · obtain ⟨res, hres, hspec⟩ := ih deps num (i + 1) n (by omega) hnum (by omega) hn1 hn2
          (by
            rw [take_succ_of_getElem? hd]
            intro x hx
            rcases List.mem_append.1 hx with hx | hx
            · exact hpre x hx
            · simp at hx; subst hx; simp [doomed, hdoom])
        refine ⟨res, ?_, hspec⟩
        simp [eraseLoop, hlt, hd, hdoom, hres]
    · have hin : i = num := by omega
      subst hin
      refine ⟨(resize deps i, n, false), by simp [eraseLoop], ?_⟩
      rw [resize_of_le hnum]
      exact ⟨fun _ _ => rfl, by simp, Nat.le_refl _, by simp; omega,
        fun _ => countP_doomed_of_prefix hpre⟩

/-! ### The scan of the nodes of a subgraph (line 89) -/

theorem DepsOnly.refl (w : World) : DepsOnly w w := ⟨rfl, rfl, rfl, rfl, rfl, rfl, rfl⟩

theorem DepsOnly.trans {w w1 w2 : World} (h1 : DepsOnly w w1) (h2 : DepsOnly w1 w2) :
    DepsOnly w w2 :=
  ⟨h2.1.trans h1.1, h2.2.trans h1.2, h2.3.trans h1.3, h2.4.trans h1.4, h2.5.trans h1.5,
    h2.6.trans h1.6, h2.7.trans h1.7⟩

theorem refsOf_congr {d1 d2 : Nat → List Nat} {ms : List Nat}
    (h : ∀ m ∈ ms, d1 m = d2 m) : refsOf d1 ms = refsOf d2 ms := by
  induction ms with
  | nil => rfl
  | cons m ms ih =>
    simp only [refsOf, List.flatMap_cons] at ih ⊢
    rw [h m (List.mem_cons_self _ _), ih (fun x hx => h x (List.mem_cons_of_mem _ hx))]

theorem purgeNode_spec (w : World) (m n : Nat) (hn1 : 1 ≤ n) (hn2 : n < sizeMod) :
    ∃ res, purgeNode w m n = some res ∧ ScanSpec w [m] n res := by
  obtain ⟨res, hres, hspec⟩ := eraseLoop_spec w (w.dependents_ m).length (w.dependents_ m)
    (w.dependents_ m).length 0 n (Nat.zero_le _) (Nat.le_refl _) (by omega) hn1 hn2 (by simp)
  obtain ⟨l, n1, r⟩ := res
  rw [List.take_length] at hspec
  refine ⟨({ w with dependents_ := store w.dependents_ m l }, n1, r), ?_, ?_⟩
  · simp [purgeNode, hres]
  · refine ⟨⟨rfl, rfl, rfl, rfl, rfl, rfl, rfl⟩, ?_, ?_, ?_, hspec.le, hspec.returned, ?_⟩
    · intro x hx
      exact store_other _ _ (by simpa using hx)
    · intro x y hy
      by_cases hx : x = m
      · subst hx; simpa using hspec.kept y hy
      · simp [store_other _ _ hx]
    · simpa [refsOf] using hspec.removed
    · simpa [refsOf] using hspec.clean

theorem purgeNodes_spec :
    ∀ (ms : List Nat) (w : World) (n : Nat), ms.Nodup → 1 ≤ n → n < sizeMod →
      ∃ res, purgeNodes w ms n = some res ∧ ScanSpec w ms n res := by
  intro ms
  induction ms with
  | nil =>
    intro w n _ hn1 _
    refine ⟨(w, n, false), rfl, DepsOnly.refl w, fun _ _ => rfl, fun _ _ _ => rfl, by simp [refsOf],
      Nat.le_refl _, by simp; omega, by simp [refsOf]⟩
  | cons m ms ih =>
    intro w n hnd hn1 hn2
    obtain ⟨hm, hnd⟩ := List.nodup_cons.1 hnd
    obtain ⟨⟨w1, n1, r1⟩, hres1, hs1⟩ := purgeNode_spec w m n hn1 hn2
    have hrest : refsOf w1.dependents_ ms = refsOf w.dependents_ ms :=
      refsOf_congr fun x hx => hs1.untouched x (by
        simp only [List.mem_singleton]; rintro rfl; exact hm hx)
    have hsplit : ∀ d : Nat → List Nat, refsOf d (m :: ms) = d m ++ refsOf d ms := fun d => by
      simp [refsOf]
    have hone : ∀ d : Nat → List Nat, refsOf d [m] = d m := fun d => by simp [refsOf]
    have hrem1 := hs1.removed
    have hle1 := hs1.le
    simp only [hone] at hrem1
    cases r1 with
    | true =>
      refine ⟨(w1, n1, true), by simp [purgeNodes, hres1], hs1.frame, ?_, hs1.kept, ?_, hs1.le,
        hs1.returned, by simp⟩
      · intro x hx
        exact hs1.untouched x (by simp only [List.mem_cons, not_or] at hx; simpa using hx.1)
      · simp only [hsplit, hrest, List.countP_append]
        omega
    | false =>
      have hn1' : 1 ≤ n1 := by
        have := hs1.returned
        simp at this
        omega
      obtain ⟨⟨w2, n2, r2⟩, hres2, hs2⟩ := ih w1 n1 hnd hn1' (by simp at hle1; omega)
      have hc : w1.numPredecessors_ = w.numPredecessors_ := hs1.frame.numPredecessors_
      have hm2 : w2.dependents_ m = w1.dependents_ m := hs2.untouched m hm
      have hrem2 := hs2.removed
      have hle2 := hs2.le
      have hclean1 := hs1.clean rfl
      simp only [hone] at hclean1
      simp only [hc] at hrem2
      refine ⟨(w2, n2, r2), by simp [purgeNodes, hres1, hres2], hs1.frame.trans hs2.frame, ?_, ?_,
        ?_, ?_, hs2.returned, ?_⟩
      · intro x hx
        simp only [List.mem_cons, not_or] at hx
        rw [hs2.untouched x hx.2, hs1.untouched x (by simpa using hx.1)]
      · intro x y hy
        rw [hs2.kept x y (by rw [hc]; exact hy), hs1.kept x y hy]
      · simp only [hsplit, List.countP_append, hm2, ← hrest] at *
        omega
      · simp at hle1 hle2 ⊢; omega
      · intro hr
        have := hs2.clean hr
        simp only [hc] at this
        simp only [hsplit, List.countP_append, hm2, hclean1, this]

/-! ### The scan of the other subgraphs (line 85) -/

theorem refsOf_append (d : Nat → List Nat) (a b : List Nat) :
    refsOf d (a ++ b) = refsOf d a ++ refsOf d b := by
  simp [refsOf]

theorem ScanSpec.append_returned {w w1 : World} {a b : List Nat} {n n1 : Nat}
    (hs : ScanSpec w a n (w1, n1, true)) (hdisj : ∀ x ∈ b, x ∉ a) :
    ScanSpec w (a ++ b) n (w1, n1, true) := by
  have hb : refsOf w1.dependents_ b = refsOf w.dependents_ b :=
    refsOf_congr fun x hx => hs.untouched x (hdisj x hx)
  refine ⟨hs.frame, ?_, hs.kept, ?_, hs.le, hs.returned, by simp⟩
  · intro m hm
    exact hs.untouched m fun h => hm (List.mem_append_left _ h)
  · have := hs.removed
    simp only [refsOf_append, List.countP_append, hb] at this ⊢
    omega

theorem ScanSpec.append_continue {w w1 : World} {a b : List Nat} {n n1 : Nat}
    {res : World × Nat × Bool}
    (hs1 : ScanSpec w a n (w1, n1, false)) (hs2 : ScanSpec w1 b n1 res)
    (hdisj : ∀ x ∈ b, x ∉ a) : ScanSpec w (a ++ b) n res := by
  have hc : w1.numPredecessors_ = w.numPredecessors_ := hs1.frame.numPredecessors_
  have hb : refsOf w1.dependents_ b = refsOf w.dependents_ b :=
    refsOf_congr fun x hx => hs1.untouched x (hdisj x hx)
  have ha : refsOf res.1.dependents_ a = refsOf w1.dependents_ a :=
    refsOf_congr fun x hx => hs2.untouched x fun h => hdisj x h hx
  have hrem1 := hs1.removed
  have hle1 := hs1.le
  have hclean1 := hs1.clean rfl
  have hrem2 := hs2.removed
  have hle2 := hs2.le
  simp only [hc] at hrem2
  simp only at hrem1 hle1 hclean1
  refine ⟨hs1.frame.trans hs2.frame, ?_, ?_, ?_, ?_, hs2.returned, ?_⟩
  · intro m hm
    simp only [List.mem_append, not_or] at hm
    rw [hs2.untouched m hm.2, hs1.untouched m hm.1]
  · intro m x hx
    rw [hs2.kept m x (by rw [hc]; exact hx), hs1.kept m x hx]
  · simp only [refsOf_append, List.countP_append, ha, ← hb] at *
    omega
  · omega
  · intro hr
    have := hs2.clean hr
    simp only [hc] at this
    simp only [refsOf_append, List.countP_append, ha, hclean1, this]

/-- A scan started with a counter at least the number of doomed references
leaves none of them. -/
theorem ScanSpec.all_clean {w : World} {ms : List Nat} {n : Nat} {res : World × Nat × Bool}
    (hs : ScanSpec w ms n res)
    (hexact : (refsOf w.dependents_ ms).countP (doomed w.numPredecessors_) ≤ n) :
    (refsOf res.1.dependents_ ms).countP (doomed w.numPredecessors_) = 0 := by
  cases hr : res.2.2 with
  | false => exact hs.clean hr
  | true =>
    have h0 := hs.returned.1 hr
    have := hs.removed
    omega

theorem purgeSubgraphs_spec (this : Nat) :
    ∀ (subs : List Nat) (w : World) (n : Nat), (scanned w.nodes_ this subs).Nodup →
      1 ≤ n → n < sizeMod →
      ∃ w1 n1 r, purgeSubgraphs this w subs n = some w1 ∧
        ScanSpec w (scanned w.nodes_ this subs) n (w1, n1, r) := by
  intro subs
  induction subs with
  | nil =>
    intro w n _ hn1 _
    exact ⟨w, n, false, rfl, DepsOnly.refl w, fun _ _ => rfl, fun _ _ _ => rfl,
      by simp [scanned, refsOf], Nat.le_refl _, by simp; omega, by simp [scanned, refsOf]⟩
  | cons s subs ih =>
    intro w n hnd hn1 hn2
    by_cases hs : s = this
    · have hsc : scanned w.nodes_ this (s :: subs) = scanned w.nodes_ this subs := by
        simp [scanned, hs]
      rw [hsc] at hnd ⊢
      obtain ⟨w1, n1, r, h1, h2⟩ := ih w n hnd hn1 hn2
      exact ⟨w1, n1, r, by simp [purgeSubgraphs, hs, h1], h2⟩
    · have hsc : scanned w.nodes_ this (s :: subs) = w.nodes_ s ++ scanned w.nodes_ this subs := by
        simp [scanned, hs]
      rw [hsc] at hnd ⊢
      obtain ⟨hnd1, hnd2, hdisj⟩ := List.nodup_append.1 hnd
      have hdisj' : ∀ x ∈ scanned w.nodes_ this subs, x ∉ w.nodes_ s :=
        fun x hx hx' => hdisj hx' hx
      obtain ⟨⟨w1, n1, r1⟩, hres1, hs1⟩ := purgeNodes_spec (w.nodes_ s) w n hnd1 hn1 hn2
      cases r1 with
      | true =>
        exact ⟨w1, n1, true, by simp [purgeSubgraphs, hs, hres1], hs1.append_returned hdisj'⟩
      | false =>
        have hn1' : 1 ≤ n1 := by
          have := hs1.returned
          simp at this
          omega
        have hle1 := hs1.le
        have hnodes : w1.nodes_ = w.nodes_ := hs1.frame.nodes_
        obtain ⟨w2, n2, r2, hres2, hs2⟩ := ih w1 n1 (by rw [hnodes]; exact hnd2) hn1'
          (by simp at hle1; omega)
        rw [hnodes] at hs2
        exact ⟨w2, n2, r2, by simp [purgeSubgraphs, hs, hres1, hres2],
          hs1.append_continue hs2 hdisj'⟩

/-! ### Phase A: `decrementDependentCounters` -/

theorem EdgesSame.same (w : World) : EdgesSame w w := ⟨rfl, rfl, rfl, rfl⟩

theorem EdgesSame.andThen {w w1 w2 : World} (h1 : EdgesSame w w1) (h2 : EdgesSame w1 w2) :
    EdgesSame w w2 :=
  ⟨h2.1.trans h1.1, h2.2.trans h1.2, h2.3.trans h1.3, h2.4.trans h1.4⟩

theorem foldl_decrementOne_edges (L : List Nat) (w : World) :
    EdgesSame w (L.foldl decrementOne w) ∧ (L.foldl decrementOne w).biPropSet_ = w.biPropSet_ ∧
      (L.foldl decrementOne w).vec = w.vec ∧ (L.foldl decrementOne w).nextVec = w.nextVec := by
  induction L generalizing w with
  | nil => exact ⟨EdgesSame.same w, rfl, rfl, rfl⟩
  | cons d L ih =>
    obtain ⟨h1, h2, h3, h4⟩ := ih (decrementOne w d)
    simp only [List.foldl_cons]
    exact ⟨@EdgesSame.andThen w (decrementOne w d) _ ⟨rfl, rfl, rfl, rfl⟩ h1, h2, h3, h4⟩

theorem foldl_decrementOne_count (L : List Nat) (w : World)
    (h : ∀ x ∈ L, L.count x ≤ w.numPredecessors_ x ∧ w.numPredecessors_ x < sizeMod) (x : Nat) :
    (L.foldl decrementOne w).numPredecessors_ x + L.count x = w.numPredecessors_ x := by
  induction L generalizing w with
  | nil => simp
  | cons d L ih =>
    have hd := h d (List.mem_cons_self _ _)
    simp only [List.count_cons_self] at hd
    have hdec : (decrementOne w d).numPredecessors_ d = w.numPredecessors_ d - 1 := by
      simp only [decrementOne, store_same]
      exact sizeDec_pos (by omega) hd.2
    have hoth : ∀ y, y ≠ d → (decrementOne w d).numPredecessors_ y = w.numPredecessors_ y :=
      fun y hy => by simp only [decrementOne]; exact store_other _ _ hy
    have hpre : ∀ y ∈ L, L.count y ≤ (decrementOne w d).numPredecessors_ y ∧
        (decrementOne w d).numPredecessors_ y < sizeMod := by
      intro y hy
      have := h y (List.mem_cons_of_mem _ hy)
      by_cases hyd : y = d
      · subst hyd
        simp only [List.count_cons_self] at this
        rw [hdec]; omega
      · rw [hoth y hyd]
        rw [List.count_cons_of_ne hyd] at this
        exact this
    have := ih (decrementOne w d) hpre
    simp only [List.foldl_cons]
    by_cases hxd : x = d
    · subst hxd
      simp only [List.count_cons_self]
      rw [hdec] at this; omega
    · rw [List.count_cons_of_ne hxd, this, hoth x hxd]

theorem removeNodeFromBiPropSet_edges (w : World) (n : Nat) :
    EdgesSame w (SubgraphT.removeNodeFromBiPropSet w n) ∧
      (SubgraphT.removeNodeFromBiPropSet w n).numPredecessors_ = w.numPredecessors_ ∧
      (SubgraphT.removeNodeFromBiPropSet w n).nextVec = w.nextVec := by
  unfold SubgraphT.removeNodeFromBiPropSet
  cases w.biPropSet_ n with
  | none => exact ⟨EdgesSame.same w, rfl, rfl⟩
  | some h =>
    simp only
    split
    · exact ⟨⟨rfl, rfl, rfl, rfl⟩, rfl, rfl⟩
    · exact ⟨⟨rfl, rfl, rfl, rfl⟩, rfl, rfl⟩

theorem decrementDependentCounters_eq (w : World) (this : Nat) :
    SubgraphT.decrementDependentCounters w this = phaseA w (w.nodes_ this) := rfl

theorem phaseA_edges (ns : List Nat) (w : World) :
    EdgesSame w (phaseA w ns) ∧ (phaseA w ns).nextVec = w.nextVec := by
  induction ns generalizing w with
  | nil => exact ⟨EdgesSame.same w, rfl⟩
  | cons n ns ih =>
    have h1 := foldl_decrementOne_edges (w.dependents_ n) w
    have h2 := removeNodeFromBiPropSet_edges ((w.dependents_ n).foldl decrementOne w) n
    have h3 := ih (SubgraphT.removeNodeFromBiPropSet ((w.dependents_ n).foldl decrementOne w) n)
    exact ⟨(h1.1.andThen h2.1).andThen h3.1, h3.2.trans (h2.2.2.trans h1.2.2.2)⟩

theorem phaseA_count (ns : List Nat) (w : World)
    (h : ∀ x ∈ refsOf w.dependents_ ns,
      (refsOf w.dependents_ ns).count x ≤ w.numPredecessors_ x ∧ w.numPredecessors_ x < sizeMod)
    (x : Nat) :
    (phaseA w ns).numPredecessors_ x + (refsOf w.dependents_ ns).count x
      = w.numPredecessors_ x := by
  induction ns generalizing w with
  | nil => simp [phaseA, refsOf]
  | cons n ns ih =>
    have hsplit : refsOf w.dependents_ (n :: ns) = w.dependents_ n ++ refsOf w.dependents_ ns := by
      simp [refsOf]
    rw [hsplit] at h ⊢
    have hfirst : ∀ y, ((w.dependents_ n).foldl decrementOne w).numPredecessors_ y
        + (w.dependents_ n).count y = w.numPredecessors_ y := by
      apply foldl_decrementOne_count
      intro y hy
      have := h y (List.mem_append_left _ hy)
      rw [List.count_append] at this
      exact ⟨by omega, this.2⟩
    have he1 := foldl_decrementOne_edges (w.dependents_ n) w
    have he2 := removeNodeFromBiPropSet_edges ((w.dependents_ n).foldl decrementOne w) n
    have hdeps : (SubgraphT.removeNodeFromBiPropSet
        ((w.dependents_ n).foldl decrementOne w) n).dependents_ = w.dependents_ :=
      he2.1.dependents_.trans he1.1.dependents_
    have hrec := ih (SubgraphT.removeNodeFromBiPropSet ((w.dependents_ n).foldl decrementOne w) n)
      (by
        rw [hdeps, he2.2.1]
        intro y hy
        have := h y (List.mem_append_right _ hy)
        have hf := hfirst y
        rw [List.count_append] at this
        exact ⟨by omega, by omega⟩)
    rw [hdeps, he2.2.1] at hrec
    have hf := hfirst x
    rw [List.count_append]
    show (phaseA (SubgraphT.removeNodeFromBiPropSet
      ((w.dependents_ n).foldl decrementOne w) n) ns).numPredecessors_ x + _ = _
    omega

/-! ### Phase B: `markNodesWithPredicessors` -/

theorem markOne_frame (acc : World × Nat) (n : Nat) : CountsOnly acc.1 (markOne acc n).1 := by
  unfold markOne
  split
  · exact ⟨⟨rfl, rfl, rfl, rfl⟩, rfl, rfl, rfl⟩
  · exact ⟨⟨rfl, rfl, rfl, rfl⟩, rfl, rfl, rfl⟩

theorem foldl_markOne_frame (ns : List Nat) (acc : World × Nat) :
    CountsOnly acc.1 (ns.foldl markOne acc).1 := by
  induction ns generalizing acc with
  | nil => exact ⟨EdgesSame.same _, rfl, rfl, rfl⟩
  | cons n ns ih =>
    have h1 := markOne_frame acc n
    have h2 := ih (markOne acc n)
    simp only [List.foldl_cons]
    exact ⟨h1.edges.andThen h2.edges, h2.biPropSet_.trans h1.biPropSet_, h2.vec.trans h1.vec,
      h2.nextVec.trans h1.nextVec⟩

theorem markOne_count (acc : World × Nat) (n x : Nat) :
    (markOne acc n).1.numPredecessors_ x
      = if x = n ∧ acc.1.numPredecessors_ x ≠ 0 then kToDelete else acc.1.numPredecessors_ x := by
  unfold markOne
  by_cases hx : x = n
  · subst hx
    by_cases h0 : acc.1.numPredecessors_ x = 0
    · simp [h0]
    · simp [h0]
  · by_cases h0 : acc.1.numPredecessors_ n = 0
    · simp [h0, hx]
    · simp [h0, hx, store_other _ _ hx]

theorem markOne_total (acc : World × Nat) (n : Nat) :
    (markOne acc n).2 % sizeMod = (acc.2 + acc.1.numPredecessors_ n) % sizeMod := by
  unfold markOne
  by_cases h0 : acc.1.numPredecessors_ n = 0
  · simp [h0]
  · simp [h0, sizeAdd]

theorem markOne_lt (acc : World × Nat) (n : Nat) (h : acc.2 < sizeMod) :
    (markOne acc n).2 < sizeMod := by
  unfold markOne
  split
  · exact Nat.mod_lt _ (by unfold sizeMod; omega)
  · exact h

theorem foldl_markOne_count (ns : List Nat) (hnd : ns.Nodup) (acc : World × Nat) (x : Nat) :
    (ns.foldl markOne acc).1.numPredecessors_ x
      = if x ∈ ns ∧ acc.1.numPredecessors_ x ≠ 0 then kToDelete
        else acc.1.numPredecessors_ x := by
  induction ns generalizing acc with
  | nil => simp
  | cons n ns ih =>
    obtain ⟨hn, hnd⟩ := List.nodup_cons.1 hnd
    simp only [List.foldl_cons]
    rw [ih hnd, markOne_count]
    by_cases hx : x = n
    · subst hx
      by_cases h0 : acc.1.numPredecessors_ x = 0
      · simp [h0, hn]
      · simp [h0, hn]
    · simp [hx]

theorem foldl_markOne_total (ns : List Nat) (hnd : ns.Nodup) (acc : World × Nat) :
    (ns.foldl markOne acc).2 % sizeMod
      = (acc.2 + (ns.map acc.1.numPredecessors_).sum) % sizeMod := by
  induction ns generalizing acc with
  | nil => simp
  | cons n ns ih =>
    obtain ⟨hn, hnd⟩ := List.nodup_cons.1 hnd
    simp only [List.foldl_cons, List.map_cons, List.sum_cons]
    rw [ih hnd]
    have hmap : ns.map (markOne acc n).1.numPredecessors_ = ns.map acc.1.numPredecessors_ := by
      apply List.map_congr_left
      intro x hx
      rw [markOne_count]
      have : x ≠ n := by rintro rfl; exact hn hx
      simp [this]
    rw [hmap, Nat.add_mod, markOne_total, ← Nat.add_mod]
    congr 1
    omega

theorem foldl_markOne_lt (ns : List Nat) (acc : World × Nat) (h : acc.2 < sizeMod) :
    (ns.foldl markOne acc).2 < sizeMod := by
  induction ns generalizing acc with
  | nil => exact h
  | cons n ns ih => exact ih _ (markOne_lt acc n h)

/-- For a duplicate-free `ns`, summing the occurrences of each of its members
in `l` counts the entries of `l` that lie in `ns`. -/
theorem sum_count_eq_countP (ns : List Nat) (hnd : ns.Nodup) (l : List Nat) :
    (ns.map fun n => l.count n).sum = l.countP fun e => decide (e ∈ ns) := by
  induction l with
  | nil => simp
  | cons e l ih =>
    have hstep : (ns.map fun n => (e :: l).count n).sum
        = (ns.map fun n => l.count n).sum + ns.count e := by
      clear ih
      induction ns with
      | nil => simp
      | cons a ns ih2 =>
        obtain ⟨_, hnd'⟩ := List.nodup_cons.1 hnd
        simp only [List.map_cons, List.sum_cons, ih2 hnd']
        by_cases hae : e = a
        · subst hae; simp; omega
        · rw [List.count_cons_of_ne (Ne.symm hae), List.count_cons_of_ne hae]; omega
    rw [hstep, ih]
    by_cases he : e ∈ ns
    · rw [List.count_eq_one_of_mem hnd he, List.countP_cons_of_pos _ _ (by simpa using he)]
    · rw [List.count_eq_zero_of_not_mem he, List.countP_cons_of_neg _ _ (by simpa using he),
        Nat.add_zero]

/-! ### A graph split at the cleared subgraph -/

theorem flatMap_perm_split {f : Nat → List Nat} (s : Nat) :
    ∀ (subs : List Nat), subs.Nodup → s ∈ subs →
      (subs.flatMap f).Perm (f s ++ (subs.filter fun t => decide (t ≠ s)).flatMap f) := by
  intro subs
  induction subs with
  | nil => intro _ h; simp at h
  | cons a subs ih =>
    intro hnd hs
    obtain ⟨ha, hnd'⟩ := List.nodup_cons.1 hnd
    by_cases has : a = s
    · subst has
      have hfil : (subs.filter fun t => decide (t ≠ a)) = subs := by
        rw [List.filter_eq_self]
        intro t ht
        have : t ≠ a := by rintro rfl; exact ha ht
        simpa using this
      rw [List.filter_cons_of_neg (by simp), hfil, List.flatMap_cons]
    · have hs' : s ∈ subs := by
        rcases List.mem_cons.1 hs with h | h
        · exact absurd h.symm has
        · exact h
      have := ih hnd' hs'
      rw [List.filter_cons_of_pos (by simpa using has), List.flatMap_cons, List.flatMap_cons]
      exact (List.Perm.append_left (f a) this).trans (List.perm_append_comm_assoc _ _ _)

theorem allNodes_perm {w : World} {g s : Nat} (hwf : WellFormed w g) (hs : s ∈ w.subgraphs_ g) :
    (allNodes w g).Perm (w.nodes_ s ++ scanned w.nodes_ s (w.subgraphs_ g)) :=
  flatMap_perm_split s _ hwf.subgraphs_nodup hs

theorem refsOf_perm {d : Nat → List Nat} {a b : List Nat} (h : a.Perm b) :
    (refsOf d a).Perm (refsOf d b) :=
  List.Perm.flatMap_right d h

theorem mem_refsOf {d : Nat → List Nat} {ms : List Nat} {x : Nat} :
    x ∈ refsOf d ms ↔ ∃ m ∈ ms, x ∈ d m := by
  simp [refsOf, List.mem_flatMap]

/-! ### What phases A and B establish under the edge/count invariant -/

theorem kToDelete_lt : kToDelete < sizeMod := by
  unfold kToDelete sizeMod; omega

theorem split_of_wellFormed {w : World} {g s : Nat} (hwf : WellFormed w g)
    (hs : s ∈ w.subgraphs_ g) : Split w g s := by
  have hperm := allNodes_perm hwf hs
  have hnd := hperm.nodup_iff.1 hwf.nodes_nodup
  obtain ⟨hndS, hndO, hdisj⟩ := List.nodup_append.1 hnd
  have hrperm : (refsOf w.dependents_ (allNodes w g)).Perm
      (refsOf w.dependents_ (w.nodes_ s)
        ++ refsOf w.dependents_ (scanned w.nodes_ s (w.subgraphs_ g))) := by
    have := refsOf_perm (d := w.dependents_) hperm
    rwa [refsOf_append] at this
  refine ⟨fun x => by rw [hperm.mem_iff, List.mem_append], hndS, hndO,
    fun x hx hx' => hdisj hx hx', fun x => by rw [hrperm.count_eq, List.count_append], ?_, ?_, ?_⟩
  · have h1 := hrperm.length_eq
    have h2 := hwf.fits
    rw [List.length_append] at h1
    omega
  · intro x hx
    exact hwf.closed x (hrperm.mem_iff.2 (List.mem_append_left _ hx))
  · intro x hx
    exact hwf.closed x (hrperm.mem_iff.2 (List.mem_append_right _ hx))

/-- After phase A the counter of a node of the graph is the number of
references to it held outside the cleared subgraph. -/
theorem phaseA_inv {w : World} {g s : Nat} (hwf : WellFormed w g) (hinv : CountInv w g)
    (hs : s ∈ w.subgraphs_ g) :
    (∀ x, (phaseA w (w.nodes_ s)).numPredecessors_ x
        + (refsOf w.dependents_ (w.nodes_ s)).count x = w.numPredecessors_ x) ∧
      ∀ x ∈ allNodes w g, (phaseA w (w.nodes_ s)).numPredecessors_ x
        = (refsOf w.dependents_ (scanned w.nodes_ s (w.subgraphs_ g))).count x := by
  have sp := split_of_wellFormed hwf hs
  have hA : ∀ x, (phaseA w (w.nodes_ s)).numPredecessors_ x
      + (refsOf w.dependents_ (w.nodes_ s)).count x = w.numPredecessors_ x := by
    apply phaseA_count
    intro x hx
    have hx' := sp.closedS x hx
    have h1 := (hinv x hx').1
    have h2 := sp.count x
    have h3 := List.count_le_length x (refsOf w.dependents_ (allNodes w g))
    have h4 := hwf.fits
    have h5 := kToDelete_lt
    exact ⟨by omega, by omega⟩
  refine ⟨hA, fun x hx => ?_⟩
  have h1 := (hinv x hx).1
  have h2 := sp.count x
  have h3 := hA x
  omega

/-- After phase B the returned total is the number of doomed references held
by the other subgraphs, and those are the references into the cleared
subgraph. -/
theorem mark_inv {w wA : World} {g s : Nat} (hwf : WellFormed w g) (hs : s ∈ w.subgraphs_ g)
    (hA : ∀ x ∈ allNodes w g, wA.numPredecessors_ x
      = (refsOf w.dependents_ (scanned w.nodes_ s (w.subgraphs_ g))).count x) :
    (∀ x ∈ refsOf w.dependents_ (scanned w.nodes_ s (w.subgraphs_ g)),
        doomed ((w.nodes_ s).foldl markOne (wA, 0)).1.numPredecessors_ x
          = decide (x ∈ w.nodes_ s)) ∧
      ((w.nodes_ s).foldl markOne (wA, 0)).2
        = (refsOf w.dependents_ (scanned w.nodes_ s (w.subgraphs_ g))).countP
            (doomed ((w.nodes_ s).foldl markOne (wA, 0)).1.numPredecessors_) ∧
      ((w.nodes_ s).foldl markOne (wA, 0)).2 < sizeMod := by
  have sp := split_of_wellFormed hwf hs
  have hK := kToDelete_lt
  have hdoom : ∀ x ∈ refsOf w.dependents_ (scanned w.nodes_ s (w.subgraphs_ g)),
      doomed ((w.nodes_ s).foldl markOne (wA, 0)).1.numPredecessors_ x
        = decide (x ∈ w.nodes_ s) := by
    intro x hx
    have hxall := sp.closedO x hx
    have hc := hA x hxall
    have hpos : 0 < (refsOf w.dependents_ (scanned w.nodes_ s (w.subgraphs_ g))).count x :=
      List.count_pos_iff.2 hx
    have hle := List.count_le_length x
      (refsOf w.dependents_ (scanned w.nodes_ s (w.subgraphs_ g)))
    have hlen := sp.len
    unfold doomed
    rw [foldl_markOne_count _ sp.nodupS]
    by_cases hxs : x ∈ w.nodes_ s
    · have : wA.numPredecessors_ x ≠ 0 := by omega
      simp [hxs, this]
    · have : wA.numPredecessors_ x ≠ kToDelete := by omega
      simp [hxs, this]
  have hlt := foldl_markOne_lt (w.nodes_ s) (wA, 0) (by unfold sizeMod; omega)
  refine ⟨hdoom, ?_, hlt⟩
  have htot := foldl_markOne_total (w.nodes_ s) sp.nodupS (wA, 0)
  have hmap : (w.nodes_ s).map wA.numPredecessors_ = (w.nodes_ s).map fun n =>
      (refsOf w.dependents_ (scanned w.nodes_ s (w.subgraphs_ g))).count n := by
    apply List.map_congr_left
    intro x hx
    exact hA x ((sp.mem x).2 (Or.inl hx))
  simp only [Nat.zero_add] at htot
  rw [hmap, sum_count_eq_countP _ sp.nodupS] at htot
  have hcongr : (refsOf w.dependents_ (scanned w.nodes_ s (w.subgraphs_ g))).countP
      (doomed ((w.nodes_ s).foldl markOne (wA, 0)).1.numPredecessors_)
      = (refsOf w.dependents_ (scanned w.nodes_ s (w.subgraphs_ g))).countP
        fun e => decide (e ∈ w.nodes_ s) := by
    apply List.countP_congr
    intro x hx
    rw [hdoom x hx]
  rw [hcongr]
  have hle := List.countP_le_length (fun e => decide (e ∈ w.nodes_ s))
    (l := refsOf w.dependents_ (scanned w.nodes_ s (w.subgraphs_ g)))
  have hlen := sp.len
  rw [Nat.mod_eq_of_lt hlt, Nat.mod_eq_of_lt (by omega)] at htot
  exact htot

/-! ### `clear()` as a whole -/

theorem purged_perm {c : Nat → Nat} {ns l l1 : List Nat}
    (hdoom : ∀ x ∈ l, doomed c x = decide (x ∈ ns))
    (hkept : ∀ x, doomed c x = false → l1.count x = l.count x)
    (hclean : ∀ x ∈ l1, doomed c x = false) :
    l1.Perm (l.filter fun x => decide (x ∉ ns)) := by
  rw [List.perm_iff_count]
  intro x
  by_cases hx1 : x ∈ l1
  · have hd := hclean x hx1
    have hk := hkept x hd
    have hxl : x ∈ l := by
      apply List.count_pos_iff.1
      rw [← hk]
      exact List.count_pos_iff.2 hx1
    have hxn : x ∉ ns := by
      have := hdoom x hxl
      rw [hd] at this
      simpa using this.symm
    rw [hk, List.count_filter (by simpa using hxn)]
  · rw [List.count_eq_zero_of_not_mem hx1]
    symm
    apply List.count_eq_zero_of_not_mem
    intro hmem
    obtain ⟨hxl, hxn⟩ := List.mem_filter.1 hmem
    have hd : doomed c x = false := by
      rw [hdoom x hxl]
      simpa using hxn
    have hk := hkept x hd
    exact hx1 (List.count_pos_iff.1 (by rw [hk]; exact List.count_pos_iff.2 hxl))

theorem clear_spec {w : World} {g s : Nat} (hwf : WellFormed w g) (hinv : CountInv w g)
    (hs : s ∈ w.subgraphs_ g) : ∃ w1, SubgraphT.clear w s = some w1 ∧ ClearSpec w g s w1 := by
  have sp := split_of_wellFormed hwf hs
  obtain ⟨hAcount, hAall⟩ := phaseA_inv hwf hinv hs
  obtain ⟨hAe, hAnext⟩ := phaseA_edges (w.nodes_ s) w
  have hmk := @mark_inv w (phaseA w (w.nodes_ s)) g s hwf hs hAall
  have hBf := foldl_markOne_frame (w.nodes_ s) (phaseA w (w.nodes_ s), 0)
  have hBc := fun x => foldl_markOne_count (w.nodes_ s) sp.nodupS (phaseA w (w.nodes_ s), 0) x
  have hclear : SubgraphT.clear w s
      = (if ((w.nodes_ s).foldl markOne (phaseA w (w.nodes_ s), 0)).2 ≠ 0 then
          purgeSubgraphs s ((w.nodes_ s).foldl markOne (phaseA w (w.nodes_ s), 0)).1
            (w.subgraphs_ g) ((w.nodes_ s).foldl markOne (phaseA w (w.nodes_ s), 0)).2
        else some ((w.nodes_ s).foldl markOne (phaseA w (w.nodes_ s), 0)).1).map
          fun w3 => { w3 with nodes_ := store w3.nodes_ s [] } := by
    unfold SubgraphT.clear SubgraphT.markNodesWithPredicessors
      SubgraphT.removePredecessorDependencies
    simp only [decrementDependentCounters_eq, hAe.nodes_]
    rw [hBf.edges.graph_, hBf.edges.subgraphs_, hAe.graph_, hAe.subgraphs_, hwf.owner s hs]
  generalize (w.nodes_ s).foldl markOne (phaseA w (w.nodes_ s), 0) = mk at hmk hBf hBc hclear
  obtain ⟨wB, p⟩ := mk
  simp only at hmk hBf hBc hclear
  obtain ⟨hdoom, hp, hplt⟩ := hmk
  have hBdeps : wB.dependents_ = w.dependents_ := hBf.edges.dependents_.trans hAe.dependents_
  have hBnodes : wB.nodes_ = w.nodes_ := hBf.edges.nodes_.trans hAe.nodes_
  -- the heap after the purge
  have h3 : ∃ w3, (if p ≠ 0 then purgeSubgraphs s wB (w.subgraphs_ g) p else some wB) = some w3 ∧
      DepsOnly wB w3 ∧
      (∀ m, m ∉ scanned w.nodes_ s (w.subgraphs_ g) → w3.dependents_ m = w.dependents_ m) ∧
      (∀ m x, doomed wB.numPredecessors_ x = false →
        (w3.dependents_ m).count x = (w.dependents_ m).count x) ∧
      (refsOf w3.dependents_ (scanned w.nodes_ s (w.subgraphs_ g))).countP
        (doomed wB.numPredecessors_) = 0 := by
    by_cases hp0 : p = 0
    · refine ⟨wB, by simp [hp0], DepsOnly.refl wB, fun m _ => by rw [hBdeps],
        fun m x _ => by rw [hBdeps], ?_⟩
      rw [hBdeps, ← hp, hp0]
    · obtain ⟨w3, n1, r, hres, hspec⟩ := purgeSubgraphs_spec s (w.subgraphs_ g) wB p
        (by rw [hBnodes]; exact sp.nodupO) (by omega) hplt
      rw [hBnodes] at hspec
      have hclean := hspec.all_clean (by rw [hBdeps, ← hp])
      refine ⟨w3, by simp [hp0, hres], hspec.frame, ?_, ?_, hclean⟩
      · intro m hm
        rw [← hBdeps]
        exact hspec.untouched m hm
      · intro m x hx
        rw [← hBdeps]
        exact hspec.kept m x hx
  obtain ⟨w3, hw3, hframe, huntouched, hkept, hclean⟩ := h3
  refine ⟨{ w3 with nodes_ := store w3.nodes_ s [] }, by rw [hclear, hw3]; rfl, ?_⟩
  refine ⟨?_, ?_, ?_, ?_, ?_, ?_, ?_, huntouched, ?_⟩
  · exact hframe.subgraphs_.trans (hBf.edges.subgraphs_.trans hAe.subgraphs_)
  · exact hframe.graph_.trans (hBf.edges.graph_.trans hAe.graph_)
  · show store w3.nodes_ s [] = store w.nodes_ s []
    rw [hframe.nodes_, hBnodes]
  · exact hframe.biPropSet_.trans hBf.biPropSet_
  · exact hframe.vec.trans hBf.vec
  · exact hframe.nextVec.trans (hBf.nextVec.trans hAnext)
  · intro x hx
    show w3.numPredecessors_ x + _ = _
    rw [hframe.numPredecessors_, hBc x]
    simp only [hx, false_and, if_false]
    exact hAcount x
  · intro m hm
    apply purged_perm (c := wB.numPredecessors_)
    · intro x hx
      exact hdoom x (mem_refsOf.2 ⟨m, hm, hx⟩)
    · exact hkept m
    · intro x hx
      have := List.countP_eq_zero.1 hclean x (mem_refsOf.2 ⟨m, hm, hx⟩)
      simpa using this

/-! ### The scenario of spec section 8 -/

theorem mem_scanned {nodes : Nat → List Nat} {this x : Nat} {subs : List Nat} :
    x ∈ scanned nodes this subs ↔ ∃ t ∈ subs, t ≠ this ∧ x ∈ nodes t := by
  simp only [scanned, List.mem_flatMap, List.mem_filter, decide_eq_true_eq]
  constructor
  · rintro ⟨t, ⟨h1, h2⟩, h3⟩; exact ⟨t, h1, h2, h3⟩
  · rintro ⟨t, h1, h2, h3⟩; exact ⟨t, ⟨h1, h2⟩, h3⟩

theorem ClearSpec.nodes_other {w w1 : World} {g s t : Nat} (h : ClearSpec w g s w1)
    (ht : t ≠ s) : w1.nodes_ t = w.nodes_ t := by
  rw [h.nodes_]; exact store_other _ _ ht

theorem scenario_wellFormed : WellFormed scenario 0 :=
  ⟨by decide, by decide, by decide, by decide, by decide⟩

theorem scenario_countInv : CountInv scenario 0 := by
  unfold CountInv; decide

/-! ### Preservation of well-formedness and of the edge/count invariant -/

theorem countInv_of_eq {w : World} {g : Nat} (hwf : WellFormed w g)
    (h : ∀ n ∈ allNodes w g,
      w.numPredecessors_ n = (refsOf w.dependents_ (allNodes w g)).count n) :
    CountInv w g := by
  intro n hn
  refine ⟨h n hn, ?_⟩
  have h1 := List.count_le_length n (refsOf w.dependents_ (allNodes w g))
  have h2 := hwf.fits
  have h3 := h n hn
  omega

theorem wellFormed_congr {w w1 : World} {g : Nat} (hd : w1.dependents_ = w.dependents_)
    (hn : w1.nodes_ = w.nodes_) (hg : w1.graph_ = w.graph_) (hs : w1.subgraphs_ = w.subgraphs_)
    (hwf : WellFormed w g) : WellFormed w1 g := by
  have hall : allNodes w1 g = allNodes w g := by unfold allNodes; rw [hn, hs]
  exact ⟨by rw [hs]; exact hwf.subgraphs_nodup, by rw [hs, hg]; exact hwf.owner,
    by rw [hall]; exact hwf.nodes_nodup, by rw [hall, hd]; exact hwf.closed,
    by rw [hall, hd]; exact hwf.fits⟩

theorem countInv_congr {w w1 : World} {g : Nat} (hc : w1.numPredecessors_ = w.numPredecessors_)
    (hd : w1.dependents_ = w.dependents_) (hn : w1.nodes_ = w.nodes_)
    (hs : w1.subgraphs_ = w.subgraphs_) (hinv : CountInv w g) : CountInv w1 g := by
  have hall : allNodes w1 g = allNodes w g := by unfold allNodes; rw [hn, hs]
  unfold CountInv
  rw [hall, hc, hd]
  exact hinv

/-! ### The empty graph -/

theorem inv_empty {w : World} {g : Nat} (h : w.subgraphs_ g = []) :
    WellFormed w g ∧ CountInv w g := by
  have hall : allNodes w g = [] := by simp [allNodes, h]
  refine ⟨⟨by simp [h], by simp [h], by simp [hall], by simp [hall, refsOf], ?_⟩, ?_⟩
  · simp [hall, refsOf, kToDelete]
  · intro n hn; simp [hall] at hn

/-! ### `addSubgraph` -/

theorem allNodes_addSubgraph {w : World} {g addr : Nat} (hfresh : addr ∉ w.subgraphs_ g) :
    allNodes (GraphT.addSubgraph w g addr).1 g = allNodes w g := by
  simp only [allNodes, GraphT.addSubgraph, store_same, List.flatMap_append, List.flatMap_cons,
    List.flatMap_nil, List.append_nil]
  apply List.flatMap_congr
  intro t ht
  exact store_other _ _ (by rintro rfl; exact hfresh ht)

theorem inv_addSubgraph {w : World} {g addr : Nat} (hfresh : addr ∉ w.subgraphs_ g)
    (hwf : WellFormed w g) (hinv : CountInv w g) :
    WellFormed (GraphT.addSubgraph w g addr).1 g ∧ CountInv (GraphT.addSubgraph w g addr).1 g := by
  have hall := allNodes_addSubgraph (w := w) hfresh
  have hd : (GraphT.addSubgraph w g addr).1.dependents_ = w.dependents_ := rfl
  have hc : (GraphT.addSubgraph w g addr).1.numPredecessors_ = w.numPredecessors_ := rfl
  refine ⟨⟨?_, ?_, by rw [hall]; exact hwf.nodes_nodup, by rw [hall, hd]; exact hwf.closed,
    by rw [hall, hd]; exact hwf.fits⟩, ?_⟩
  · simp only [GraphT.addSubgraph, store_same]
    exact List.Nodup.append hwf.subgraphs_nodup (List.nodup_singleton _)
      (by simpa using hfresh)
  · intro t ht
    simp only [GraphT.addSubgraph, store_same, List.mem_append, List.mem_singleton] at ht ⊢
    by_cases hta : t = addr
    · subst hta; simp
    · rw [store_other _ _ hta]
      rcases ht with ht | ht
      · exact hwf.owner t ht
      · exact absurd ht hta
  · unfold CountInv
    rw [hall, hc, hd]
    exact hinv

/-! ### Node creation -/

theorem scanned_store (nodes : Nat → List Nat) (s : Nat) (l : List Nat) (subs : List Nat) :
    scanned (store nodes s l) s subs = scanned nodes s subs := by
  unfold scanned
  apply List.flatMap_congr
  intro t ht
  have := (List.mem_filter.1 ht).2
  exact store_other _ _ (by simpa using this)

theorem allNodes_addNode {w : World} {g s addr : Nat} (hwf : WellFormed w g)
    (hs : s ∈ w.subgraphs_ g) :
    (allNodes (SubgraphT.addNode w s addr) g).Perm (addr :: allNodes w g) := by
  have h1 : (allNodes (SubgraphT.addNode w s addr) g).Perm
      ((w.nodes_ s ++ [addr]) ++ scanned w.nodes_ s (w.subgraphs_ g)) := by
    have := flatMap_perm_split (f := store w.nodes_ s (w.nodes_ s ++ [addr])) s
      (w.subgraphs_ g) hwf.subgraphs_nodup hs
    rw [store_same] at this
    have hsc := scanned_store w.nodes_ s (w.nodes_ s ++ [addr]) (w.subgraphs_ g)
    unfold scanned at hsc
    rw [hsc] at this
    exact this
  have h2 := allNodes_perm hwf hs
  refine h1.trans ?_
  refine List.Perm.trans ?_ (List.Perm.cons addr h2.symm)
  rw [List.append_assoc]
  refine List.Perm.trans List.perm_append_comm ?_
  simp only [List.append_assoc, List.singleton_append]
  exact List.Perm.cons _ List.perm_append_comm

theorem refsOf_addNode {w : World} {g s addr : Nat} (hwf : WellFormed w g)
    (hs : s ∈ w.subgraphs_ g) (hfresh : addr ∉ allNodes w g) :
    (refsOf (SubgraphT.addNode w s addr).dependents_ (allNodes (SubgraphT.addNode w s addr) g)).Perm
      (refsOf w.dependents_ (allNodes w g)) := by
  refine (refsOf_perm (allNodes_addNode hwf hs)).trans ?_
  have h1 : refsOf (SubgraphT.addNode w s addr).dependents_ (addr :: allNodes w g)
      = refsOf (SubgraphT.addNode w s addr).dependents_ (allNodes w g) := by
    simp [refsOf, SubgraphT.addNode]
  rw [h1]
  rw [@refsOf_congr _ w.dependents_]
  intro m hm
  exact store_other _ _ (by rintro rfl; exact hfresh hm)

theorem inv_addNode {w : World} {g s addr : Nat} (hs : s ∈ w.subgraphs_ g)
    (hfresh : addr ∉ allNodes w g) (hwf : WellFormed w g) (hinv : CountInv w g) :
    WellFormed (SubgraphT.addNode w s addr) g ∧ CountInv (SubgraphT.addNode w s addr) g := by
  have hall := @allNodes_addNode w g s addr hwf hs
  have hrefs := refsOf_addNode hwf hs hfresh
  have hwf1 : WellFormed (SubgraphT.addNode w s addr) g := by
    refine ⟨hwf.subgraphs_nodup, hwf.owner, ?_, ?_, ?_⟩
    · exact hall.nodup_iff.2 (List.nodup_cons.2 ⟨hfresh, hwf.nodes_nodup⟩)
    · intro d hd
      exact hall.mem_iff.2 (List.mem_cons_of_mem _ (hwf.closed d (hrefs.mem_iff.1 hd)))
    · rw [hrefs.length_eq]; exact hwf.fits
  refine ⟨hwf1, countInv_of_eq hwf1 fun n hn => ?_⟩
  rw [hrefs.count_eq]
  rcases List.mem_cons.1 (hall.mem_iff.1 hn) with h | h
  · subst h
    have : n ∉ refsOf w.dependents_ (allNodes w g) := fun h => hfresh (hwf.closed n h)
    rw [List.count_eq_zero_of_not_mem this]
    simp [SubgraphT.addNode]
  · have hne : n ≠ addr := by rintro rfl; exact hfresh h
    have : (SubgraphT.addNode w s addr).numPredecessors_ n = w.numPredecessors_ n :=
      store_other _ _ hne
    rw [this]
    exact (hinv n h).1

/-! ### Edge creation -/

theorem refsOf_dependsOnOneNode {w : World} {ms : List Nat} {self predecessor : Nat}
    (hnd : ms.Nodup) (hp : predecessor ∈ ms) :
    (refsOf (Node.dependsOnOneNode w self predecessor).dependents_ ms).Perm
      (self :: refsOf w.dependents_ ms) := by
  have hperm := List.perm_cons_erase hp
  have hnd' : (predecessor :: ms.erase predecessor).Nodup := hperm.nodup_iff.1 hnd
  have hnot : predecessor ∉ ms.erase predecessor := (List.nodup_cons.1 hnd').1
  refine (refsOf_perm hperm).trans ?_
  refine List.Perm.trans ?_ (List.Perm.cons self (refsOf_perm hperm).symm)
  have hrest : refsOf (Node.dependsOnOneNode w self predecessor).dependents_
      (ms.erase predecessor) = refsOf w.dependents_ (ms.erase predecessor) :=
    refsOf_congr fun m hm => store_other _ _ (by rintro rfl; exact hnot hm)
  have hsplit : ∀ d : Nat → List Nat, refsOf d (predecessor :: ms.erase predecessor)
      = d predecessor ++ refsOf d (ms.erase predecessor) := fun d => by simp [refsOf]
  rw [hsplit, hsplit, hrest]
  simp only [Node.dependsOnOneNode, store_same, List.append_assoc, List.singleton_append]
  exact List.perm_middle

theorem inv_dependsOnOneNode {w : World} {g self predecessor : Nat}
    (hpred : predecessor ∈ allNodes w g) (hself : self ∈ allNodes w g)
    (hfits : (refsOf w.dependents_ (allNodes w g)).length + 1 < kToDelete)
    (hwf : WellFormed w g) (hinv : CountInv w g) :
    WellFormed (Node.dependsOnOneNode w self predecessor) g ∧
      CountInv (Node.dependsOnOneNode w self predecessor) g := by
  have hall : allNodes (Node.dependsOnOneNode w self predecessor) g = allNodes w g := rfl
  have hrefs := @refsOf_dependsOnOneNode w _ self predecessor hwf.nodes_nodup hpred
  have hwf1 : WellFormed (Node.dependsOnOneNode w self predecessor) g := by
    refine ⟨hwf.subgraphs_nodup, hwf.owner, hwf.nodes_nodup, ?_, ?_⟩
    · intro d hd
      rw [hall] at hd ⊢
      rcases List.mem_cons.1 (hrefs.mem_iff.1 hd) with h | h
      · subst h; exact hself
      · exact hwf.closed d h
    · rw [hall, hrefs.length_eq, List.length_cons]; exact hfits
  refine ⟨hwf1, countInv_of_eq hwf1 fun n hn => ?_⟩
  rw [hall] at hn ⊢
  rw [hrefs.count_eq]
  have hold := (hinv n hn).1
  by_cases hns : n = self
  · subst hns
    have hle := List.count_le_length n (refsOf w.dependents_ (allNodes w g))
    have hK := kToDelete_lt
    simp only [Node.dependsOnOneNode, store_same, List.count_cons_self]
    rw [sizeInc_lt (by omega), hold]
  · rw [List.count_cons_of_ne hns, ← hold]
    exact store_other _ _ hns

theorem biPropDependsOnOneNode_edges (w : World) (this node : Nat) :
    (BiPropNode.biPropDependsOnOneNode w this node).numPredecessors_
        = (Node.dependsOnOneNode w this node).numPredecessors_ ∧
      EdgesSame (Node.dependsOnOneNode w this node)
        (BiPropNode.biPropDependsOnOneNode w this node) := by
  unfold BiPropNode.biPropDependsOnOneNode
  simp only
  split
  · exact ⟨rfl, rfl, rfl, rfl, rfl⟩
  · exact ⟨rfl, rfl, rfl, rfl, rfl⟩
  · exact ⟨rfl, rfl, rfl, rfl, rfl⟩
  · exact ⟨rfl, rfl, rfl, rfl, rfl⟩

theorem inv_biPropDependsOnOneNode {w : World} {g self predecessor : Nat}
    (hpred : predecessor ∈ allNodes w g) (hself : self ∈ allNodes w g)
    (hfits : (refsOf w.dependents_ (allNodes w g)).length + 1 < kToDelete)
    (hwf : WellFormed w g) (hinv : CountInv w g) :
    WellFormed (BiPropNode.biPropDependsOnOneNode w self predecessor) g ∧
      CountInv (BiPropNode.biPropDependsOnOneNode w self predecessor) g := by
  obtain ⟨h1, h2⟩ := inv_dependsOnOneNode hpred hself hfits hwf hinv
  obtain ⟨hc, he⟩ := biPropDependsOnOneNode_edges w self predecessor
  exact ⟨wellFormed_congr he.dependents_ he.nodes_ he.graph_ he.subgraphs_ h1,
    countInv_congr hc he.dependents_ he.nodes_ he.subgraphs_ h2⟩

/-! ### `clear()` -/

theorem count_refsOf_congr {d1 d2 : Nat → List Nat} {ms : List Nat} {n : Nat}
    (h : ∀ m ∈ ms, (d1 m).count n = (d2 m).count n) :
    (refsOf d1 ms).count n = (refsOf d2 ms).count n := by
  induction ms with
  | nil => rfl
  | cons m ms ih =>
    simp only [refsOf, List.flatMap_cons, List.count_append] at ih ⊢
    rw [h m (List.mem_cons_self _ _), ih fun x hx => h x (List.mem_cons_of_mem _ hx)]

theorem length_refsOf_le {d1 d2 : Nat → List Nat} {ms : List Nat}
    (h : ∀ m ∈ ms, (d1 m).length ≤ (d2 m).length) :
    (refsOf d1 ms).length ≤ (refsOf d2 ms).length := by
  induction ms with
  | nil => simp [refsOf]
  | cons m ms ih =>
    simp only [refsOf, List.flatMap_cons, List.length_append] at ih ⊢
    have h1 := h m (List.mem_cons_self _ _)
    have h2 := ih fun x hx => h x (List.mem_cons_of_mem _ hx)
    omega

theorem allNodes_clear {w w1 : World} {g s : Nat} (hwf : WellFormed w g)
    (hs : s ∈ w.subgraphs_ g) (hspec : ClearSpec w g s w1) :
    (allNodes w1 g).Perm (scanned w.nodes_ s (w.subgraphs_ g)) := by
  have := flatMap_perm_split (f := store w.nodes_ s []) s (w.subgraphs_ g)
    hwf.subgraphs_nodup hs
  rw [store_same, List.nil_append] at this
  have hsc := scanned_store w.nodes_ s [] (w.subgraphs_ g)
  unfold scanned at hsc
  rw [hsc] at this
  unfold allNodes
  rw [hspec.subgraphs_, hspec.nodes_]
  exact this

theorem inv_clear {w w1 : World} {g s : Nat} (hwf : WellFormed w g) (hinv : CountInv w g)
    (hs : s ∈ w.subgraphs_ g) (hspec : ClearSpec w g s w1) :
    WellFormed w1 g ∧ CountInv w1 g := by
  have sp := split_of_wellFormed hwf hs
  have hall := allNodes_clear hwf hs hspec
  have hrefs : (refsOf w1.dependents_ (allNodes w1 g)).Perm
      (refsOf w1.dependents_ (scanned w.nodes_ s (w.subgraphs_ g))) := refsOf_perm hall
  have hlen : (refsOf w1.dependents_ (scanned w.nodes_ s (w.subgraphs_ g))).length
      ≤ (refsOf w.dependents_ (scanned w.nodes_ s (w.subgraphs_ g))).length := by
    apply length_refsOf_le
    intro m hm
    rw [(hspec.purged m hm).length_eq]
    exact List.length_filter_le _ _
  have hwf1 : WellFormed w1 g := by
    refine ⟨by rw [hspec.subgraphs_]; exact hwf.subgraphs_nodup,
      by rw [hspec.subgraphs_, hspec.graph_]; exact hwf.owner,
      hall.nodup_iff.2 sp.nodupO, ?_, ?_⟩
    · intro d hd
      obtain ⟨m, hm, hdm⟩ := mem_refsOf.1 (hrefs.mem_iff.1 hd)
      obtain ⟨hd1, hd2⟩ := List.mem_filter.1 ((hspec.purged m hm).mem_iff.1 hdm)
      have hdall := sp.closedO d (mem_refsOf.2 ⟨m, hm, hd1⟩)
      rcases (sp.mem d).1 hdall with h | h
      · simp at hd2; exact absurd h hd2
      · exact hall.mem_iff.2 h
    · rw [hrefs.length_eq]
      have := sp.len
      omega
  refine ⟨hwf1, countInv_of_eq hwf1 fun n hn => ?_⟩
  have hn' := hall.mem_iff.1 hn
  have hns : n ∉ w.nodes_ s := fun h => sp.disj n h hn'
  have hcnt : (refsOf w1.dependents_ (scanned w.nodes_ s (w.subgraphs_ g))).count n
      = (refsOf w.dependents_ (scanned w.nodes_ s (w.subgraphs_ g))).count n := by
    apply count_refsOf_congr
    intro m hm
    rw [(hspec.purged m hm).count_eq, List.count_filter (by simpa using hns)]
  rw [hrefs.count_eq, hcnt]
  have h1 := hspec.counts n hns
  have h2 := (hinv n ((sp.mem n).2 (Or.inr hn'))).1
  have h3 := sp.count n
  omega

theorem reachable_inv {g : Nat} {w : World} (h : Reachable g w) :
    WellFormed w g ∧ CountInv w g := by
  induction h with
  | empty w h => exact inv_empty h
  | addSubgraph w addr _ hfresh ih => exact inv_addSubgraph hfresh ih.1 ih.2
  | addNode w s addr _ hs hfresh ih => exact inv_addNode hs hfresh ih.1 ih.2
  | addDependency w self predecessor _ hself hpred hfits ih =>
    exact inv_dependsOnOneNode hpred hself hfits ih.1 ih.2
  | addPropagationDependency w self predecessor _ hself hpred hfits ih =>
    exact inv_biPropDependsOnOneNode hpred hself hfits ih.1 ih.2
  | clear w w1 s _ hs hclear ih =>
    obtain ⟨w2, h2, hspec⟩ := clear_spec ih.1 ih.2 hs
    rw [hclear] at h2
    cases h2
    exact inv_clear ih.1 ih.2 hs hspec

/-- In a reachable state `clear()` returns on every subgraph of the graph. -/
theorem reachable_clear_returns {g s : Nat} {w : World} (h : Reachable g w)
    (hs : s ∈ w.subgraphs_ g) : ∃ w1, SubgraphT.clear w s = some w1 := by
  obtain ⟨hwf, hinv⟩ := reachable_inv h
  obtain ⟨w1, h1, _⟩ := clear_spec hwf hinv hs
  exact ⟨w1, h1⟩

theorem scenario_reachable : Reachable 0 scenario := by
  unfold scenario
  refine Reachable.addDependency _ 3 2 (Reachable.addDependency _ 2 1
    (Reachable.addNode _ 20 3 (Reachable.addNode _ 10 2 (Reachable.addNode _ 10 1
      (Reachable.addSubgraph _ 20 (Reachable.addSubgraph _ 10 (Reachable.empty _ rfl) ?_) ?_)
      ?_ ?_) ?_ ?_) ?_ ?_) ?_ ?_ ?_) ?_ ?_ ?_
  all_goals decide

/-! ### `std::set_union` -/

theorem stdSetUnion_nil_left (ys : List Nat) : stdSetUnion [] ys = ys := rfl

theorem stdSetUnion_nil_right (xs : List Nat) : stdSetUnion xs [] = xs := by
  induction xs with
  | nil => rfl
  | cons x xs ih =>
    show x :: stdSetUnion xs [] = x :: xs
    rw [ih]

theorem stdSetUnion_cons_cons (x y : Nat) (xs ys : List Nat) :
    stdSetUnion (x :: xs) (y :: ys)
      = if y < x then y :: stdSetUnion (x :: xs) ys
        else if x < y then x :: stdSetUnion xs (y :: ys)
        else x :: stdSetUnion xs ys := rfl

theorem mem_stdSetUnion (v : Nat) (xs ys : List Nat) :
    v ∈ stdSetUnion xs ys ↔ v ∈ xs ∨ v ∈ ys := by
  induction xs generalizing ys with
  | nil => simp [stdSetUnion_nil_left]
  | cons x xs ihx =>
    induction ys with
    | nil => simp [stdSetUnion_nil_right]
    | cons y ys ihy =>
      rw [stdSetUnion_cons_cons]
      by_cases h1 : y < x
      · simp only [h1, if_true, List.mem_cons, ihy]
        tauto
      · by_cases h2 : x < y
        · simp only [h1, h2, if_true, if_false, List.mem_cons, ihx]
          tauto
        · have hxy : x = y := by omega
          subst hxy
          simp only [h1, if_false, List.mem_cons, ihx]
          tauto

theorem sorted_stdSetUnion (xs ys : List Nat) (hx : xs.Sorted (· < ·)) (hy : ys.Sorted (· < ·)) :
    (stdSetUnion xs ys).Sorted (· < ·) := by
  induction xs generalizing ys with
  | nil => simpa [stdSetUnion_nil_left] using hy
  | cons x xs ihx =>
    induction ys with
    | nil => simpa [stdSetUnion_nil_right] using hx
    | cons y ys ihy =>
      have hx1 := List.sorted_cons.1 hx
      have hy1 := List.sorted_cons.1 hy
      rw [stdSetUnion_cons_cons]
      by_cases h1 : y < x
      · simp only [h1, if_true]
        refine List.sorted_cons.2 ⟨fun b hb => ?_, ihy hy1.2⟩
        rcases (mem_stdSetUnion b (x :: xs) ys).1 hb with hb | hb
        · rcases List.mem_cons.1 hb with hb | hb
          · omega
          · have := hx1.1 b hb; omega
        · exact hy1.1 b hb
      · by_cases h2 : x < y
        · simp only [h1, h2, if_true, if_false]
          refine List.sorted_cons.2 ⟨fun b hb => ?_, ihx (y :: ys) hx1.2 hy⟩
          rcases (mem_stdSetUnion b xs (y :: ys)).1 hb with hb | hb
          · exact hx1.1 b hb
          · rcases List.mem_cons.1 hb with hb | hb
            · omega
            · have := hy1.1 b hb; omega
        · have hxy : x = y := by omega
          subst hxy
          simp only [h1, if_false]
          refine List.sorted_cons.2 ⟨fun b hb => ?_, ihx ys hx1.2 hy1.2⟩
          rcases (mem_stdSetUnion b xs ys).1 hb with hb | hb
          · exact hx1.1 b hb
          · exact hy1.1 b hb

/-! ### `set_insert` -/

theorem upper_bound_eq_zero {s : List Nat} {v : Nat} (hs : s.Sorted (· < ·))
    (h : upper_bound s v = 0) : ∀ y ∈ s, v < y := by
  cases s with
  | nil => simp
  | cons x xs =>
    have hx := List.sorted_cons.1 hs
    by_cases hvx : v < x
    · intro y hy
      rcases List.mem_cons.1 hy with hy | hy
      · omega
      · have := hx.1 y hy; omega
    · simp [upper_bound, hvx] at h

theorem set_insert_nil (v : Nat) : set_insert [] v = [v] := by
  simp [set_insert, upper_bound]

theorem set_insert_cons (x v : Nat) (xs : List Nat) :
    set_insert (x :: xs) v
      = if v < x then v :: x :: xs
        else if upper_bound xs v = 0 then (if x = v then x :: xs else x :: v :: xs)
        else x :: set_insert xs v := by
  by_cases hvx : v < x
  · simp [set_insert, upper_bound, hvx]
  · by_cases h0 : upper_bound xs v = 0
    · by_cases hxv : x = v
      · simp [set_insert, upper_bound, hvx, h0, hxv]
      · simp [set_insert, upper_bound, hvx, h0, hxv]
    · obtain ⟨k, hk⟩ : ∃ k, upper_bound xs v = k + 1 := ⟨upper_bound xs v - 1, by omega⟩
      simp only [set_insert, upper_bound, hvx, if_false, hk, Nat.add_sub_cancel,
        List.getElem?_cons_succ, List.take_succ_cons, List.drop_succ_cons, h0]
      simp only [Nat.add_eq_zero, one_ne_zero, and_false, false_or, List.cons_append]
      split <;> rfl

theorem mem_set_insert (v w : Nat) (s : List Nat) :
    w ∈ set_insert s v ↔ w = v ∨ w ∈ s := by
  induction s with
  | nil => simp [set_insert_nil]
  | cons x xs ih =>
    rw [set_insert_cons]
    by_cases hvx : v < x
    · simp [hvx]
    · by_cases h0 : upper_bound xs v = 0
      · by_cases hxv : x = v
        · subst hxv; simp [h0]
        · simp only [hvx, h0, hxv, if_true, if_false, List.mem_cons]; tauto
      · simp only [hvx, h0, if_false, List.mem_cons, ih]; tauto

theorem sorted_set_insert (v : Nat) (s : List Nat) (hs : s.Sorted (· < ·)) :
    (set_insert s v).Sorted (· < ·) := by
  induction s with
  | nil => simp [set_insert_nil]
  | cons x xs ih =>
    have hx := List.sorted_cons.1 hs
    rw [set_insert_cons]
    by_cases hvx : v < x
    · simp only [hvx, if_true]
      refine List.sorted_cons.2 ⟨fun b hb => ?_, hs⟩
      rcases List.mem_cons.1 hb with hb | hb
      · omega
      · have := hx.1 b hb; omega
    · by_cases h0 : upper_bound xs v = 0
      · by_cases hxv : x = v
        · simpa [hvx, h0, hxv] using hs
        · simp only [hvx, h0, hxv, if_true, if_false]
          have hlt := upper_bound_eq_zero hx.2 h0
          refine List.sorted_cons.2 ⟨fun b hb => ?_, List.sorted_cons.2 ⟨hlt, hx.2⟩⟩
          rcases List.mem_cons.1 hb with hb | hb
          · omega
          · exact hx.1 b hb
      · simp only [hvx, h0, if_false]
        refine List.sorted_cons.2 ⟨fun b hb => ?_, ih hx.2⟩
        rcases (mem_set_insert v b xs).1 hb with hb | hb
        · subst hb
          cases xs with
          | nil => simp [upper_bound] at h0
          | cons y ys =>
            have hy : ¬ b < y := by
              intro hby
              simp [upper_bound, hby] at h0
            have := hx.1 y (List.mem_cons_self _ _)
            omega
        · exact hx.1 b hb

/-! ### The four cases of `biPropDependsOnOneNode` -/

theorem biProp_neither {w : World} {this node : Nat} (hn : w.biPropSet_ node = none)
    (ht : w.biPropSet_ this = none) :
    (∀ n, (BiPropNode.biPropDependsOnOneNode w this node).biPropSet_ n
        = if n = this ∨ n = node then some w.nextVec else w.biPropSet_ n) ∧
      (∀ k, (BiPropNode.biPropDependsOnOneNode w this node).vec k
        = if k = w.nextVec then set_insert (set_insert [] this) node else w.vec k) ∧
      (BiPropNode.biPropDependsOnOneNode w this node).nextVec = w.nextVec + 1 := by
  have h1 : (Node.dependsOnOneNode w this node).biPropSet_ = w.biPropSet_ := rfl
  refine ⟨fun n => ?_, fun k => ?_, ?_⟩
  · simp only [BiPropNode.biPropDependsOnOneNode, h1, hn, ht]
    by_cases h2 : n = node
    · simp [store, h2, Node.dependsOnOneNode]
    · by_cases h3 : n = this
      · simp [store, h2, h3, Node.dependsOnOneNode]
      · simp [store, h2, h3, Node.dependsOnOneNode]
  · simp only [BiPropNode.biPropDependsOnOneNode, h1, hn, ht]
    by_cases h2 : k = w.nextVec
    · simp [store, h2, Node.dependsOnOneNode]
    · simp [store, h2, Node.dependsOnOneNode]
  · simp only [BiPropNode.biPropDependsOnOneNode, h1, hn, ht]
    rfl

theorem biProp_both {w : World} {this node hn ht : Nat} (h1 : w.biPropSet_ node = some hn)
    (h2 : w.biPropSet_ this = some ht) :
    (∀ n, (BiPropNode.biPropDependsOnOneNode w this node).biPropSet_ n
        = if n = node then some ht else w.biPropSet_ n) ∧
      (∀ k, (BiPropNode.biPropDependsOnOneNode w this node).vec k
        = if k = ht then stdSetUnion (w.vec ht) (if hn = ht then [] else w.vec hn)
          else w.vec k) ∧
      (BiPropNode.biPropDependsOnOneNode w this node).nextVec = w.nextVec := by
  have h0 : (Node.dependsOnOneNode w this node).biPropSet_ = w.biPropSet_ := rfl
  refine ⟨fun n => ?_, fun k => ?_, ?_⟩
  · simp only [BiPropNode.biPropDependsOnOneNode, h0, h1, h2]
    by_cases h3 : n = node
    · simp [store, h3]
    · simp [store, h3, set_union, Node.dependsOnOneNode]
  · simp only [BiPropNode.biPropDependsOnOneNode, h0, h1, h2]
    by_cases h3 : k = ht
    · simp [store, h3, set_union, Node.dependsOnOneNode]
    · simp [store, h3, set_union, Node.dependsOnOneNode]
  · simp only [BiPropNode.biPropDependsOnOneNode, h0, h1, h2]
    rfl

theorem biProp_self_ungrouped {w : World} {this node hn : Nat}
    (h1 : w.biPropSet_ node = some hn) (h2 : w.biPropSet_ this = none) :
    (∀ n, (BiPropNode.biPropDependsOnOneNode w this node).biPropSet_ n
        = if n = this then some hn else w.biPropSet_ n) ∧
      (∀ k, (BiPropNode.biPropDependsOnOneNode w this node).vec k
        = if k = hn then set_insert (w.vec hn) this else w.vec k) ∧
      (BiPropNode.biPropDependsOnOneNode w this node).nextVec = w.nextVec := by
  have h0 : (Node.dependsOnOneNode w this node).biPropSet_ = w.biPropSet_ := rfl
  refine ⟨fun n => ?_, fun k => ?_, ?_⟩
  · simp only [BiPropNode.biPropDependsOnOneNode, h0, h1, h2]
    by_cases h3 : n = this
    · simp [store, h3]
    · simp [store, h3, Node.dependsOnOneNode]
  · simp only [BiPropNode.biPropDependsOnOneNode, h0, h1, h2]
    by_cases h3 : k = hn
    · simp [store, h3, Node.dependsOnOneNode]
    · simp [store, h3, Node.dependsOnOneNode]
  · simp only [BiPropNode.biPropDependsOnOneNode, h0, h1, h2]
    rfl

theorem biProp_predecessor_ungrouped {w : World} {this node ht : Nat}
    (h1 : w.biPropSet_ node = none) (h2 : w.biPropSet_ this = some ht) :
    (∀ n, (BiPropNode.biPropDependsOnOneNode w this node).biPropSet_ n
        = if n = node then some ht else w.biPropSet_ n) ∧
      (∀ k, (BiPropNode.biPropDependsOnOneNode w this node).vec k
        = if k = ht then set_insert (w.vec ht) node else w.vec k) ∧
      (BiPropNode.biPropDependsOnOneNode w this node).nextVec = w.nextVec := by
  have h0 : (Node.dependsOnOneNode w this node).biPropSet_ = w.biPropSet_ := rfl
  refine ⟨fun n => ?_, fun k => ?_, ?_⟩
  · simp only [BiPropNode.biPropDependsOnOneNode, h0, h1, h2]
    by_cases h3 : n = node
    · simp [store, h3]
    · simp [store, h3, Node.dependsOnOneNode]
  · simp only [BiPropNode.biPropDependsOnOneNode, h0, h1, h2]
    by_cases h3 : k = ht
    · simp [store, h3, Node.dependsOnOneNode]
    · simp [store, h3, Node.dependsOnOneNode]
  · simp only [BiPropNode.biPropDependsOnOneNode, h0, h1, h2]
    rfl

/-! ### Concrete group states -/

theorem twoGroups_groupOk_one : GroupOk twoGroups 1 := by
  intro h hh
  have e : twoGroups.biPropSet_ 1 = some 0 := by decide
  rw [e] at hh
  cases hh
  decide

theorem twoGroups_groupOk_three : GroupOk twoGroups 3 := by
  intro h hh
  have e : twoGroups.biPropSet_ 3 = some 1 := by decide
  rw [e] at hh
  cases hh
  decide

/-- The group both nodes hold after `biPropDependsOnOneNode`, in all four
cases. -/
theorem biProp_merged (w : World) (self predecessor : Nat)
    (hs : GroupOk w self) (hp : GroupOk w predecessor) :
    ∃ h, (BiPropNode.biPropDependsOnOneNode w self predecessor).biPropSet_ self = some h ∧
      (BiPropNode.biPropDependsOnOneNode w self predecessor).biPropSet_ predecessor = some h ∧
      ((BiPropNode.biPropDependsOnOneNode w self predecessor).vec h).Sorted (· < ·) ∧
      ∀ x, x ∈ (BiPropNode.biPropDependsOnOneNode w self predecessor).vec h ↔
        x = self ∨ x = predecessor ∨ x ∈ groupOf w self ∨ x ∈ groupOf w predecessor := by
  cases hbp : w.biPropSet_ predecessor with
  | none =>
    cases hbs : w.biPropSet_ self with
    | none =>
      obtain ⟨h1, h2, _⟩ := biProp_neither hbp hbs
      refine ⟨w.nextVec, by simp [h1], by simp [h1], ?_, fun x => ?_⟩
      · rw [h2]
        simp only [if_true]
        exact sorted_set_insert _ _ (sorted_set_insert _ _ List.sorted_nil)
      · rw [h2]
        simp only [if_true, mem_set_insert, groupOf, hbp, hbs, List.not_mem_nil, or_false]
        tauto
    | some ht =>
      obtain ⟨h1, h2, _⟩ := biProp_predecessor_ungrouped hbp hbs
      obtain ⟨hsorted, hmem⟩ := hs ht hbs
      refine ⟨ht, ?_, by simp [h1], ?_, fun x => ?_⟩
      · rw [h1]; split
        · rfl
        · exact hbs
      · rw [h2]
        simp only [if_true]
        exact sorted_set_insert _ _ hsorted
      · rw [h2]
        simp only [if_true, mem_set_insert, groupOf, hbp, hbs, List.not_mem_nil, or_false]
        constructor
        · rintro (h | h)
          · exact Or.inr (Or.inl h)
          · exact Or.inr (Or.inr h)
        · rintro (h | h | h)
          · subst h; exact Or.inr hmem
          · exact Or.inl h
          · exact Or.inr h
  | some hn =>
    obtain ⟨hpsorted, hpmem⟩ := hp hn hbp
    cases hbs : w.biPropSet_ self with
    | none =>
      obtain ⟨h1, h2, _⟩ := biProp_self_ungrouped hbp hbs
      refine ⟨hn, by simp [h1], ?_, ?_, fun x => ?_⟩
      · rw [h1]; split
        · rfl
        · exact hbp
      · rw [h2]
        simp only [if_true]
        exact sorted_set_insert _ _ hpsorted
      · rw [h2]
        simp only [if_true, mem_set_insert, groupOf, hbp, hbs, List.not_mem_nil, false_or]
        constructor
        · rintro (h | h)
          · exact Or.inl h
          · exact Or.inr (Or.inr h)
        · rintro (h | h | h)
          · exact Or.inl h
          · subst h; exact Or.inr hpmem
          · exact Or.inr h
    | some ht =>
      obtain ⟨h1, h2, _⟩ := biProp_both hbp hbs
      obtain ⟨hsorted, hmem⟩ := hs ht hbs
      refine ⟨ht, ?_, by simp [h1], ?_, fun x => ?_⟩
      · rw [h1]; split
        · rfl
        · exact hbs
      · rw [h2]
        simp only [if_true]
        apply sorted_stdSetUnion _ _ hsorted
        split
        · exact List.sorted_nil
        · exact hpsorted
      · rw [h2]
        simp only [if_true, mem_stdSetUnion, groupOf, hbp, hbs]
        by_cases hh : hn = ht
        · subst hh
          simp only [if_true, List.not_mem_nil, or_false]
          constructor
          · intro h; exact Or.inr (Or.inr (Or.inl h))
          · rintro (h | h | h | h)
            · subst h; exact hmem
            · subst h; exact hpmem
            · exact h
            · exact h
        · simp only [hh, if_false]
          constructor
          · rintro (h | h)
            · exact Or.inr (Or.inr (Or.inl h))
            · exact Or.inr (Or.inr (Or.inr h))
          · rintro (h | h | h | h)
            · subst h; exact Or.inl hmem
            · subst h; exact Or.inr hpmem
            · exact Or.inl h
            · exact Or.inr h

/-! ### Three nodes -/

theorem upper_bound_le (s : List Nat) (v : Nat) : upper_bound s v ≤ s.length := by
  induction s with
  | nil => simp [upper_bound]
  | cons x xs ih =>
    simp only [upper_bound, List.length_cons]
    split
    · omega
    · omega

theorem length_set_insert_of_not_mem {s : List Nat} {v : Nat} (h : v ∉ s) :
    (set_insert s v).length = s.length + 1 := by
  have hle := upper_bound_le s v
  have hins : upper_bound s v = 0 ∨ s[upper_bound s v - 1]? ≠ some v := by
    by_cases h0 : upper_bound s v = 0
    · exact Or.inl h0
    · refine Or.inr fun hget => h ?_
      exact List.mem_iff_getElem?.2 ⟨_, hget⟩
  simp only [set_insert, hins, if_true, List.length_append, List.length_cons, List.length_take,
    List.length_drop]
  omega

/-- The group three ungrouped nodes end up in after `a` and `b` are joined
and then the third node `t` is joined to one of them. -/
theorem three_nodes_aux (w : World) (a b c d : Nat)
    (ha : w.biPropSet_ a = none) (hb : w.biPropSet_ b = none)
    (hcn : w.biPropSet_ c = none) (hdn : w.biPropSet_ d = none)
    (hcd : (c ≠ a ∧ c ≠ b ∧ (d = a ∨ d = b)) ∨ (d ≠ a ∧ d ≠ b ∧ (c = a ∨ c = b))) :
    ∃ t, ((t = c ∧ c ≠ a ∧ c ≠ b) ∨ (t = d ∧ d ≠ a ∧ d ≠ b)) ∧
      (BiPropNode.biPropDependsOnOneNode (BiPropNode.biPropDependsOnOneNode w a b) c d).biPropSet_ a
        = some w.nextVec ∧
      (BiPropNode.biPropDependsOnOneNode (BiPropNode.biPropDependsOnOneNode w a b) c d).biPropSet_ b
        = some w.nextVec ∧
      (BiPropNode.biPropDependsOnOneNode (BiPropNode.biPropDependsOnOneNode w a b) c d).biPropSet_ t
        = some w.nextVec ∧
      (BiPropNode.biPropDependsOnOneNode (BiPropNode.biPropDependsOnOneNode w a b) c d).vec
          w.nextVec
        = set_insert (set_insert (set_insert [] a) b) t := by
  obtain ⟨h1, h2, _⟩ := biProp_neither hb ha
  rcases hcd with ⟨hca, hcb, hd⟩ | ⟨hda, hdb, hc'⟩
  · -- `c` is the third node: self is ungrouped, the predecessor grouped
    have hd1 : (BiPropNode.biPropDependsOnOneNode w a b).biPropSet_ d = some w.nextVec := by
      rw [h1]; rcases hd with hd | hd <;> simp [hd]
    have hc1 : (BiPropNode.biPropDependsOnOneNode w a b).biPropSet_ c = none := by
      rw [h1]; simp [hca, hcb, hcn]
    obtain ⟨k1, k2, _⟩ := biProp_self_ungrouped hd1 hc1
    refine ⟨c, Or.inl ⟨rfl, hca, hcb⟩, ?_, ?_, ?_, ?_⟩
    · rw [k1, h1]; simp [Ne.symm hca]
    · rw [k1, h1]; simp [Ne.symm hcb]
    · rw [k1]; simp
    · rw [k2, h2]; simp
  · -- `d` is the third node: the predecessor is ungrouped, self grouped
    have hc1 : (BiPropNode.biPropDependsOnOneNode w a b).biPropSet_ c = some w.nextVec := by
      rw [h1]; rcases hc' with hc' | hc' <;> simp [hc']
    have hd1 : (BiPropNode.biPropDependsOnOneNode w a b).biPropSet_ d = none := by
      rw [h1]; simp [hda, hdb, hdn]
    obtain ⟨k1, k2, _⟩ := biProp_predecessor_ungrouped hd1 hc1
    refine ⟨d, Or.inr ⟨rfl, hda, hdb⟩, ?_, ?_, ?_, ?_⟩
    · rw [k1, h1]; simp [Ne.symm hda]
    · rw [k1, h1]; simp [Ne.symm hdb]
    · rw [k1]; simp
    · rw [k2, h2]; simp

theorem pairs_of_three {x y z a b c d : Nat}
    (ha : a = x ∨ a = y ∨ a = z) (hb : b = x ∨ b = y ∨ b = z) (hab : a ≠ b)
    (hc : c = x ∨ c = y ∨ c = z) (hd : d = x ∨ d = y ∨ d = z) (hcd : c ≠ d)
    (hnew : ¬ ((c = a ∧ d = b) ∨ (c = b ∧ d = a))) :
    (c ≠ a ∧ c ≠ b ∧ (d = a ∨ d = b)) ∨ (d ≠ a ∧ d ≠ b ∧ (c = a ∨ c = b)) := by
  omega

theorem cover_of_three {x y z a b t n : Nat}
    (ha : a = x ∨ a = y ∨ a = z) (hb : b = x ∨ b = y ∨ b = z) (ht : t = x ∨ t = y ∨ t = z)
    (hab : a ≠ b) (hta : t ≠ a) (htb : t ≠ b) :
    (n = x ∨ n = y ∨ n = z) ↔ (n = t ∨ n = b ∨ n = a) := by
  omega

/-! ### Graph moves -/

theorem foldl_setOwner (this : Nat) (l : List Nat) (w : World) :
    NodesSame w (l.foldl (setOwner this) w) ∧
      (l.foldl (setOwner this) w).subgraphs_ = w.subgraphs_ ∧
      ∀ s, (l.foldl (setOwner this) w).graph_ s = if s ∈ l then this else w.graph_ s := by
  induction l generalizing w with
  | nil => exact ⟨⟨rfl, rfl, rfl, rfl, rfl⟩, rfl, fun s => by simp⟩
  | cons a l ih =>
    obtain ⟨h1, h2, h3⟩ := ih (setOwner this w a)
    refine ⟨⟨h1.1, h1.2, h1.3, h1.4, h1.5⟩, h2, fun s => ?_⟩
    simp only [List.foldl_cons, h3, List.mem_cons]
    by_cases hs : s ∈ l
    · simp [hs]
    · by_cases hsa : s = a
      · subst hsa; simp [hs, setOwner]
      · simp [hs, hsa, setOwner, store_other _ _ hsa]

theorem moveConstruct_spec (w : World) (this other : Nat) (hne : this ≠ other) :
    (GraphT.moveConstruct w this other).subgraphs_ this = w.subgraphs_ other ∧
      NodesSame w (GraphT.moveConstruct w this other) ∧
      ∀ s ∈ (GraphT.moveConstruct w this other).subgraphs_ this,
        (GraphT.moveConstruct w this other).graph_ s = this := by
  unfold GraphT.moveConstruct
  simp only
  have hsub : store (store w.subgraphs_ this (w.subgraphs_ other)) other [] this
      = w.subgraphs_ other := by
    rw [store_other _ _ hne, store_same]
  rw [hsub]
  obtain ⟨h1, h2, h3⟩ := foldl_setOwner this (w.subgraphs_ other)
    { w with subgraphs_ := store (store w.subgraphs_ this (w.subgraphs_ other)) other [] }
  refine ⟨by rw [h2]; exact hsub, ⟨h1.1, h1.2, h1.3, h1.4, h1.5⟩, fun s hs => ?_⟩
  rw [h2] at hs
  simp only at hs
  rw [hsub] at hs
  rw [h3]
  simp [hs]

/-! ### The group invariant -/

theorem groupInv_congr {w w1 : World} {ns ms : List Nat} (hb : w1.biPropSet_ = w.biPropSet_)
    (hv : w1.vec = w.vec) (hn : w1.nextVec = w.nextVec) (hsub : ∀ n ∈ ms, n ∈ ns)
    (h : GroupInv w ns) : GroupInv w1 ms := by
  intro n hnm k hk
  rw [hb] at hk
  rw [hv, hn]
  exact h n (hsub n hnm) k hk

theorem groupInv_biProp {w : World} {ns : List Nat} {self predecessor : Nat}
    (hself : self ∈ ns) (hpred : predecessor ∈ ns) (h : GroupInv w ns) :
    GroupInv (BiPropNode.biPropDependsOnOneNode w self predecessor) ns := by
  intro n hn k hk
  cases hbp : w.biPropSet_ predecessor with
  | none =>
    cases hbs : w.biPropSet_ self with
    | none =>
      obtain ⟨h1, h2, h3⟩ := biProp_neither hbp hbs
      rw [h1] at hk
      rw [h2, h3]
      by_cases hcase : n = self ∨ n = predecessor
      · simp only [hcase, if_true, Option.some.injEq] at hk
        subst hk
        simp only [if_true, mem_set_insert, List.not_mem_nil, or_false]
        exact ⟨by omega, sorted_set_insert _ _ (sorted_set_insert _ _ List.sorted_nil),
          by tauto⟩
      · simp only [hcase, if_false] at hk
        obtain ⟨k1, k2, k3⟩ := h n hn k hk
        have : k ≠ w.nextVec := by omega
        simp only [this, if_false]
        exact ⟨by omega, k2, k3⟩
    | some ht =>
      obtain ⟨h1, h2, h3⟩ := biProp_predecessor_ungrouped hbp hbs
      obtain ⟨s1, s2, s3⟩ := h self hself ht hbs
      rw [h1] at hk
      rw [h2, h3]
      by_cases hcase : n = predecessor
      · simp only [hcase, if_true, Option.some.injEq] at hk
        subst hk
        simp only [if_true, mem_set_insert]
        exact ⟨s1, sorted_set_insert _ _ s2, Or.inl hcase⟩
      · simp only [hcase, if_false] at hk
        obtain ⟨k1, k2, k3⟩ := h n hn k hk
        by_cases hkt : k = ht
        · subst hkt
          simp only [if_true, mem_set_insert]
          exact ⟨k1, sorted_set_insert _ _ k2, Or.inr k3⟩
        · simp only [hkt, if_false]
          exact ⟨k1, k2, k3⟩
  | some hn' =>
    obtain ⟨p1, p2, p3⟩ := h predecessor hpred hn' hbp
    cases hbs : w.biPropSet_ self with
    | none =>
      obtain ⟨h1, h2, h3⟩ := biProp_self_ungrouped hbp hbs
      rw [h1] at hk
      rw [h2, h3]
      by_cases hcase : n = self
      · simp only [hcase, if_true, Option.some.injEq] at hk
        subst hk
        simp only [if_true, mem_set_insert]
        exact ⟨p1, sorted_set_insert _ _ p2, Or.inl hcase⟩
      · simp only [hcase, if_false] at hk
        obtain ⟨k1, k2, k3⟩ := h n hn k hk
        by_cases hkt : k = hn'
        · subst hkt
          simp only [if_true, mem_set_insert]
          exact ⟨k1, sorted_set_insert _ _ k2, Or.inr k3⟩
        · simp only [hkt, if_false]
          exact ⟨k1, k2, k3⟩
    | some ht =>
      obtain ⟨h1, h2, h3⟩ := biProp_both hbp hbs
      obtain ⟨s1, s2, s3⟩ := h self hself ht hbs
      have hsortedU : (stdSetUnion (w.vec ht) (if hn' = ht then [] else w.vec hn')).Sorted
          (· < ·) := by
        apply sorted_stdSetUnion _ _ s2
        split
        · exact List.sorted_nil
        · exact p2
      rw [h1] at hk
      rw [h2, h3]
      by_cases hcase : n = predecessor
      · simp only [hcase, if_true, Option.some.injEq] at hk
        subst hk
        simp only [if_true, mem_stdSetUnion]
        refine ⟨s1, hsortedU, ?_⟩
        by_cases hh : hn' = ht
        · subst hh; rw [hcase]; exact Or.inl p3
        · simp only [hh, if_false]; rw [hcase]; exact Or.inr p3
      · simp only [hcase, if_false] at hk
        obtain ⟨k1, k2, k3⟩ := h n hn k hk
        by_cases hkt : k = ht
        · subst hkt
          simp only [if_true, mem_stdSetUnion]
          exact ⟨k1, hsortedU, Or.inl k3⟩
        · simp only [hkt, if_false]
          exact ⟨k1, k2, k3⟩

theorem groupInv_removeNode {w : World} {ns : List Nat} {m : Nat} (hm : m ∉ ns)
    (h : GroupInv w ns) : GroupInv (SubgraphT.removeNodeFromBiPropSet w m) ns := by
  intro n hn k hk
  have hnm : n ≠ m := by rintro rfl; exact hm hn
  unfold SubgraphT.removeNodeFromBiPropSet at hk ⊢
  cases hbm : w.biPropSet_ m with
  | none =>
    simp only [hbm] at hk ⊢
    exact h n hn k hk
  | some hm' =>
    simp only [hbm] at hk ⊢
    by_cases hempty : (w.vec hm').erase m = []
    · simp only [hempty, if_true] at hk ⊢
      rw [store_other _ _ hnm] at hk
      exact h n hn k hk
    · simp only [hempty, if_false] at hk ⊢
      obtain ⟨k1, k2, k3⟩ := h n hn k hk
      by_cases hkm : k = hm'
      · subst hkm
        rw [store_same]
        exact ⟨k1, k2.sublist (List.erase_sublist m (w.vec k)),
          (List.mem_erase_of_ne hnm).2 k3⟩
      · rw [store_other _ _ hkm]
        exact ⟨k1, k2, k3⟩

theorem groupInv_phaseA {ns : List Nat} (ms : List Nat) (w : World)
    (hdisj : ∀ m ∈ ms, m ∉ ns) (h : GroupInv w ns) : GroupInv (phaseA w ms) ns := by
  induction ms generalizing w with
  | nil => exact h
  | cons m ms ih =>
    have he := foldl_decrementOne_edges (w.dependents_ m) w
    have h1 : GroupInv ((w.dependents_ m).foldl decrementOne w) ns :=
      groupInv_congr he.2.1 he.2.2.1 he.2.2.2 (fun _ hn => hn) h
    have h2 := groupInv_removeNode (hdisj m (List.mem_cons_self _ _)) h1
    exact ih _ (fun x hx => hdisj x (List.mem_cons_of_mem _ hx)) h2

theorem reachable_groupInv {g : Nat} {w : World} (h : Reachable g w) :
    GroupInv w (allNodes w g) := by
  induction h with
  | empty w h =>
    intro n hn
    simp [allNodes, h] at hn
  | addSubgraph w addr _ hfresh ih =>
    rw [allNodes_addSubgraph hfresh]
    exact groupInv_congr rfl rfl rfl (fun _ hn => hn) ih
  | addNode w s addr hr hs hfresh ih =>
    have hwf := (reachable_inv hr).1
    have hall := @allNodes_addNode w g s addr hwf hs
    intro n hn k hk
    rcases List.mem_cons.1 (hall.mem_iff.1 hn) with hna | hna
    · subst hna
      simp [SubgraphT.addNode] at hk
    · have hne : n ≠ addr := by rintro rfl; exact hfresh hna
      have hbp : (SubgraphT.addNode w s addr).biPropSet_ n = w.biPropSet_ n :=
        store_other _ _ hne
      rw [hbp] at hk
      exact ih n hna k hk
  | addDependency w self predecessor _ hself hpred hfits ih =>
    exact groupInv_congr rfl rfl rfl (fun _ hn => hn) ih
  | addPropagationDependency w self predecessor _ hself hpred hfits ih =>
    have hall : allNodes (BiPropNode.biPropDependsOnOneNode w self predecessor) g
        = allNodes w g := by
      have he := (biPropDependsOnOneNode_edges w self predecessor).2
      unfold allNodes
      rw [he.nodes_, he.subgraphs_]
      rfl
    rw [hall]
    exact groupInv_biProp hself hpred ih
  | clear w w1 s hr hs hclear ih =>
    obtain ⟨hwf, hinv⟩ := reachable_inv hr
    obtain ⟨w2, h2, hspec⟩ := clear_spec hwf hinv hs
    rw [hclear] at h2
    cases h2
    have sp := split_of_wellFormed hwf hs
    have hall := allNodes_clear hwf hs hspec
    have hothers : GroupInv w (scanned w.nodes_ s (w.subgraphs_ g)) :=
      fun n hn => ih n ((sp.mem n).2 (Or.inr hn))
    have hA := groupInv_phaseA (w.nodes_ s) w (fun m hm => sp.disj m hm) hothers
    exact groupInv_congr hspec.biPropSet_ hspec.vec
      (hspec.nextVec.trans (phaseA_edges (w.nodes_ s) w).2.symm)
      (fun n hn => hall.mem_iff.1 hn) hA

theorem groupScenario_reachable : Reachable 0 groupScenario :=
  Reachable.addPropagationDependency _ 3 2
    (Reachable.addPropagationDependency _ 2 1 scenario_reachable (by decide) (by decide)
      (by decide))
    (by decide) (by decide) (by decide)

/-! ### `addSubgraph` as an operation -/

/-! ### More on `set_insert` -/

theorem set_insert_of_mem {s : List Nat} {v : Nat} (hs : s.Sorted (· < ·)) (hv : v ∈ s) :
    set_insert s v = s := by
  induction s with
  | nil => simp at hv
  | cons x xs ih =>
    have hx := List.sorted_cons.1 hs
    rw [set_insert_cons]
    by_cases hvx : v < x
    · exfalso
      rcases List.mem_cons.1 hv with h | h
      · omega
      · have := hx.1 v h; omega
    · by_cases h0 : upper_bound xs v = 0
      · have hlt := upper_bound_eq_zero hx.2 h0
        have hxv : x = v := by
          rcases List.mem_cons.1 hv with h | h
          · exact h.symm
          · have := hlt v h; omega
        simp [hvx, h0, hxv]
      · simp only [hvx, h0, if_false]
        have hv' : v ∈ xs := by
          rcases List.mem_cons.1 hv with h | h
          · exfalso
            cases xs with
            | nil => simp [upper_bound] at h0
            | cons y ys =>
              have hy : ¬ v < y := by
                intro hvy
                simp [upper_bound, hvy] at h0
              have := hx.1 y (List.mem_cons_self _ _)
              omega
          · exact h
        rw [ih hx.2 hv']

theorem sublist_set_insert (s : List Nat) (v : Nat) : s.Sublist (set_insert s v) := by
  unfold set_insert
  simp only
  split
  · have h1 : s = s.take (upper_bound s v) ++ s.drop (upper_bound s v) :=
      (List.take_append_drop _ _).symm
    conv_lhs => rw [h1]
    exact List.Sublist.append (List.Sublist.refl _) (List.sublist_cons_self _ _)
  · exact List.Sublist.refl _

/-! ### Totality and bounds of the swap-with-last loop -/

theorem eraseLoop_fuel_succ (w : World) :
    ∀ (fuel : Nat) (deps : List Nat) (num i n : Nat) (res : List Nat × Nat × Bool),
      eraseLoop w fuel deps num i n = some res →
      eraseLoop w (fuel + 1) deps num i n = some res := by
  intro fuel
  induction fuel with
  | zero =>
    intro deps num i n res h
    by_cases hlt : i < num
    · simp [eraseLoop, hlt] at h
    · simpa [eraseLoop, hlt] using h
  | succ fuel ih =>
    intro deps num i n res h
    by_cases hlt : i < num
    · cases hd : deps[i]? with
      | none => simp [eraseLoop, hlt, hd] at h
      | some d =>
        by_cases hdoom : w.numPredecessors_ d = kToDelete
        · cases hlast : deps[num - 1]? with
          | none => simp [eraseLoop, hlt, hd, hdoom, hlast] at h
          | some last =>
            by_cases hz : sizeDec n = 0
            · rw [eraseLoop] at h ⊢
              simp only [hlt, if_true, hd, hdoom, hlast, hz] at h ⊢
              exact h
            · rw [eraseLoop] at h ⊢
              simp only [hlt, if_true, hd, hdoom, hlast, hz, if_false] at h ⊢
              exact ih _ _ _ _ _ h
        · rw [eraseLoop] at h ⊢
          simp only [hlt, if_true, hd, hdoom, if_false] at h ⊢
          exact ih _ _ _ _ _ h
    · rw [eraseLoop] at h ⊢
      simp only [hlt, if_false] at h ⊢
      exact h

theorem eraseLoop_fuel_le (w : World) (deps : List Nat) (num i n : Nat)
    (res : List Nat × Nat × Bool) (fuel extra : Nat)
    (h : eraseLoop w fuel deps num i n = some res) :
    eraseLoop w (fuel + extra) deps num i n = some res := by
  induction extra with
  | zero => exact h
  | succ k ih => exact eraseLoop_fuel_succ w _ _ _ _ _ _ ih

theorem length_resize_of_le {v : List Nat} {n : Nat} (h : n ≤ v.length) :
    (resize v n).length = n := by
  rw [resize_of_le h, List.length_take]
  omega

theorem eraseLoop_length (w : World) :
    ∀ (fuel : Nat) (deps : List Nat) (num i n : Nat) (res : List Nat × Nat × Bool),
      num ≤ deps.length → eraseLoop w fuel deps num i n = some res → res.1.length ≤ num := by
  intro fuel
  induction fuel with
  | zero =>
    intro deps num i n res hnum h
    simp only [eraseLoop] at h
    split at h
    · cases h
    · cases h
      exact Nat.le_of_eq (length_resize_of_le hnum)
  | succ fuel ih =>
    intro deps num i n res hnum h
    simp only [eraseLoop] at h
    split at h
    · split at h
      · cases h
      · split at h
        · split at h
          · cases h
          · next last _ =>
            have hlen : num - 1 ≤ (deps.set i last).length := by
              rw [List.length_set]; omega
            split at h
            · cases h
              rw [length_resize_of_le hlen]
              omega
            · have := ih _ _ _ _ _ hlen h
              omega
        · exact ih _ _ _ _ _ hnum h
    · cases h
      exact Nat.le_of_eq (length_resize_of_le hnum)

/-! ### Phases A and B under their source names -/

theorem marked_eq (w : World) (s : Nat) :
    SubgraphT.markNodesWithPredicessors (SubgraphT.decrementDependentCounters w s) s
      = (w.nodes_ s).foldl markOne (phaseA w (w.nodes_ s), 0) := by
  unfold SubgraphT.markNodesWithPredicessors
  rw [decrementDependentCounters_eq, (phaseA_edges (w.nodes_ s) w).1.nodes_]

theorem marked_edges (w : World) (s : Nat) :
    (SubgraphT.markNodesWithPredicessors (SubgraphT.decrementDependentCounters w s) s).1.dependents_
        = w.dependents_ ∧
      (SubgraphT.markNodesWithPredicessors (SubgraphT.decrementDependentCounters w s) s).1.nodes_
        = w.nodes_ ∧
      (SubgraphT.markNodesWithPredicessors (SubgraphT.decrementDependentCounters w s) s).1.graph_
        = w.graph_ ∧
      (SubgraphT.markNodesWithPredicessors
        (SubgraphT.decrementDependentCounters w s) s).1.subgraphs_ = w.subgraphs_ := by
  rw [marked_eq]
  have hA := (phaseA_edges (w.nodes_ s) w).1
  have hB := (foldl_markOne_frame (w.nodes_ s) (phaseA w (w.nodes_ s), 0)).edges
  exact ⟨hB.dependents_.trans hA.dependents_, hB.nodes_.trans hA.nodes_,
    hB.graph_.trans hA.graph_, hB.subgraphs_.trans hA.subgraphs_⟩

/-- Lines 53-58 with the heap and total of phases A and B named. -/
theorem clear_unfold {w : World} {g s : Nat} (hwf : WellFormed w g) (hs : s ∈ w.subgraphs_ g) :
    SubgraphT.clear w s
      = (if (SubgraphT.markNodesWithPredicessors
              (SubgraphT.decrementDependentCounters w s) s).2 ≠ 0 then
          purgeSubgraphs s
            (SubgraphT.markNodesWithPredicessors (SubgraphT.decrementDependentCounters w s) s).1
            (w.subgraphs_ g)
            (SubgraphT.markNodesWithPredicessors (SubgraphT.decrementDependentCounters w s) s).2
        else some
          (SubgraphT.markNodesWithPredicessors
            (SubgraphT.decrementDependentCounters w s) s).1).map
          fun w3 => { w3 with nodes_ := store w3.nodes_ s [] } := by
  obtain ⟨_, _, h3, h4⟩ := marked_edges w s
  unfold SubgraphT.clear SubgraphT.removePredecessorDependencies
  simp only
  rw [h3, h4, hwf.owner s hs]

/-- What phases A and B leave under the edge/count invariant, under the
source names of the two functions. -/
theorem marked_inv {w : World} {g s : Nat} (hwf : WellFormed w g) (hinv : CountInv w g)
    (hs : s ∈ w.subgraphs_ g) :
    (∀ x ∈ refsOf w.dependents_ (scanned w.nodes_ s (w.subgraphs_ g)),
        doomed (SubgraphT.markNodesWithPredicessors
          (SubgraphT.decrementDependentCounters w s) s).1.numPredecessors_ x
          = decide (x ∈ w.nodes_ s)) ∧
      (SubgraphT.markNodesWithPredicessors (SubgraphT.decrementDependentCounters w s) s).2
        = (refsOf w.dependents_ (scanned w.nodes_ s (w.subgraphs_ g))).countP
            (doomed (SubgraphT.markNodesWithPredicessors
              (SubgraphT.decrementDependentCounters w s) s).1.numPredecessors_) ∧
      (SubgraphT.markNodesWithPredicessors (SubgraphT.decrementDependentCounters w s) s).2
        < sizeMod := by
  rw [marked_eq]
  exact @mark_inv w (phaseA w (w.nodes_ s)) g s hwf hs (phaseA_inv hwf hinv hs).2

/-! ### No underflow in phase A -/

theorem decrementsSafe_of (L : List Nat) (w : World)
    (h : ∀ x ∈ L, L.count x ≤ w.numPredecessors_ x ∧ w.numPredecessors_ x < sizeMod) :
    decrementsSafe w L := by
  induction L generalizing w with
  | nil => trivial
  | cons d L ih =>
    have hd := h d (List.mem_cons_self _ _)
    simp only [List.count_cons_self] at hd
    have hK := kToDelete_lt
    have hdec : (decrementOne w d).numPredecessors_ d = w.numPredecessors_ d - 1 := by
      simp only [decrementOne, store_same]
      exact sizeDec_pos (by omega) hd.2
    have hoth : ∀ y, y ≠ d → (decrementOne w d).numPredecessors_ y = w.numPredecessors_ y :=
      fun y hy => by simp only [decrementOne]; exact store_other _ _ hy
    refine ⟨by omega, ?_, ih _ ?_⟩
    · rw [hdec]
      unfold kToDelete sizeMod at *
      omega
    · intro y hy
      have := h y (List.mem_cons_of_mem _ hy)
      by_cases hyd : y = d
      · subst hyd
        simp only [List.count_cons_self] at this
        rw [hdec]; omega
      · rw [hoth y hyd]
        rw [List.count_cons_of_ne hyd] at this
        exact this

theorem countersSafe_of (ns : List Nat) (w : World)
    (h : ∀ x ∈ refsOf w.dependents_ ns,
      (refsOf w.dependents_ ns).count x ≤ w.numPredecessors_ x ∧ w.numPredecessors_ x < sizeMod) :
    countersSafe w ns := by
  induction ns generalizing w with
  | nil => trivial
  | cons n ns ih =>
    have hsplit : refsOf w.dependents_ (n :: ns) = w.dependents_ n ++ refsOf w.dependents_ ns := by
      simp [refsOf]
    rw [hsplit] at h
    have hpre : ∀ y ∈ w.dependents_ n, (w.dependents_ n).count y ≤ w.numPredecessors_ y ∧
        w.numPredecessors_ y < sizeMod := by
      intro y hy
      have := h y (List.mem_append_left _ hy)
      rw [List.count_append] at this
      exact ⟨by omega, this.2⟩
    have hfirst := foldl_decrementOne_count (w.dependents_ n) w hpre
    have he1 := foldl_decrementOne_edges (w.dependents_ n) w
    have he2 := removeNodeFromBiPropSet_edges ((w.dependents_ n).foldl decrementOne w) n
    have hdeps : (SubgraphT.removeNodeFromBiPropSet
        ((w.dependents_ n).foldl decrementOne w) n).dependents_ = w.dependents_ :=
      he2.1.dependents_.trans he1.1.dependents_
    refine ⟨decrementsSafe_of _ _ hpre, ih _ ?_⟩
    rw [hdeps, he2.2.1]
    intro y hy
    have := h y (List.mem_append_right _ hy)
    have hf := hfirst y
    rw [List.count_append] at this
    exact ⟨by omega, by omega⟩

/-! ### A list without doomed references is left as it is -/

theorem store_self {α : Type} (f : Nat → α) (a : Nat) : store f a (f a) = f := by
  funext x
  by_cases h : x = a
  · rw [h, store_same]
  · exact store_other _ _ h

theorem mem_take_of_getElem? {l : List Nat} {i num d : Nat} (hi : i < num)
    (hd : l[i]? = some d) : d ∈ l.take num := by
  apply List.mem_iff_getElem?.2
  exact ⟨i, by rw [List.getElem?_take_of_lt hi]; exact hd⟩

theorem eraseLoop_clean (w : World) :
    ∀ (fuel : Nat) (deps : List Nat) (num i n : Nat),
      i ≤ num → num ≤ deps.length → num - i ≤ fuel →
      (∀ x ∈ deps.take num, doomed w.numPredecessors_ x = false) →
      eraseLoop w fuel deps num i n = some (deps.take num, n, false) := by
  intro fuel
  induction fuel with
  | zero =>
    intro deps num i n hi hnum hfuel _
    have hin : ¬ i < num := by omega
    simp [eraseLoop, hin, resize_of_le hnum]
  | succ fuel ih =>
    intro deps num i n hi hnum hfuel hclean
    by_cases hlt : i < num
    · obtain ⟨d, hd⟩ : ∃ d, deps[i]? = some d :=
        ⟨deps[i], List.getElem?_eq_getElem (by omega)⟩
      have hnd : ¬ w.numPredecessors_ d = kToDelete := by
        have := hclean d (mem_take_of_getElem? hlt hd)
        simpa [doomed] using this
      rw [eraseLoop]
      simp only [hlt, if_true, hd, hnd, if_false]
      exact ih deps num (i + 1) n (by omega) hnum (by omega) hclean
    · rw [eraseLoop]
      simp [hlt, resize_of_le hnum]

theorem purgeNode_clean (w : World) (m n : Nat)
    (h : ∀ x ∈ w.dependents_ m, doomed w.numPredecessors_ x = false) :
    purgeNode w m n = some (w, n, false) := by
  have := eraseLoop_clean w (w.dependents_ m).length (w.dependents_ m) (w.dependents_ m).length
    0 n (Nat.zero_le _) (Nat.le_refl _) (by omega) (by rw [List.take_length]; exact h)
  rw [List.take_length] at this
  unfold purgeNode
  rw [this]
  simp only [store_self]

theorem purgeNode_shape {w : World} {m n : Nat} {res : World × Nat × Bool}
    (h : purgeNode w m n = some res) :
    res.1.numPredecessors_ = w.numPredecessors_ ∧ res.1.nodes_ = w.nodes_ ∧
      ∀ x, x ≠ m → res.1.dependents_ x = w.dependents_ x := by
  unfold purgeNode at h
  split at h
  · cases h
  · cases h
    exact ⟨rfl, rfl, fun x hx => store_other _ _ hx⟩

theorem purgeNode_identical {w : World} {a n : Nat} {res : World × Nat × Bool}
    (h : purgeNode w a n = some res) (m : Nat)
    (hm : ∀ x ∈ w.dependents_ m, doomed w.numPredecessors_ x = false) :
    res.1.dependents_ m = w.dependents_ m := by
  by_cases hma : m = a
  · subst hma
    rw [purgeNode_clean w m n hm] at h
    cases h
    rfl
  · exact (purgeNode_shape h).2.2 m hma

theorem purgeNodes_identical :
    ∀ (ms : List Nat) (w : World) (n : Nat) (res : World × Nat × Bool),
      purgeNodes w ms n = some res →
      res.1.numPredecessors_ = w.numPredecessors_ ∧ res.1.nodes_ = w.nodes_ ∧
        ∀ m, (∀ x ∈ w.dependents_ m, doomed w.numPredecessors_ x = false) →
          res.1.dependents_ m = w.dependents_ m := by
  intro ms
  induction ms with
  | nil =>
    intro w n res h
    simp only [purgeNodes] at h
    cases h
    exact ⟨rfl, rfl, fun _ _ => rfl⟩
  | cons a ms ih =>
    intro w n res h
    rw [purgeNodes] at h
    cases h1 : purgeNode w a n with
    | none => simp [h1] at h
    | some r1 =>
      obtain ⟨w1, n1, b1⟩ := r1
      have hshape := purgeNode_shape h1
      have hid := purgeNode_identical h1
      cases b1 with
      | true =>
        simp only [h1] at h
        cases h
        exact ⟨hshape.1, hshape.2.1, hid⟩
      | false =>
        simp only [h1] at h
        obtain ⟨k1, k2, k3⟩ := ih w1 n1 res h
        simp only at hshape hid
        refine ⟨k1.trans hshape.1, k2.trans hshape.2.1, fun m hm => ?_⟩
        rw [k3 m (by rw [hid m hm, hshape.1]; exact hm), hid m hm]

theorem purgeSubgraphs_identical (this : Nat) :
    ∀ (subs : List Nat) (w : World) (n : Nat) (w1 : World),
      purgeSubgraphs this w subs n = some w1 →
      ∀ m, (∀ x ∈ w.dependents_ m, doomed w.numPredecessors_ x = false) →
        w1.dependents_ m = w.dependents_ m := by
  intro subs
  induction subs with
  | nil =>
    intro w n w1 h m _
    simp only [purgeSubgraphs] at h
    cases h
    rfl
  | cons s subs ih =>
    intro w n w1 h m hm
    rw [purgeSubgraphs] at h
    by_cases hs : s = this
    · simp only [hs, if_true] at h
      exact ih w n w1 h m hm
    · simp only [hs, if_false] at h
      cases h1 : purgeNodes w (w.nodes_ s) n with
      | none => simp [h1] at h
      | some r1 =>
        obtain ⟨w2, n2, b2⟩ := r1
        obtain ⟨k1, _, k3⟩ := purgeNodes_identical _ _ _ _ h1
        simp only at k1 k3
        cases b2 with
        | true =>
          simp only [h1] at h
          cases h
          exact k3 m hm
        | false =>
          simp only [h1] at h
          rw [ih w2 n2 w1 h m (by rw [k3 m hm, k1]; exact hm), k3 m hm]

/-! ### The early exit against the full scan -/

theorem eraseLoopFull_clean (w : World) :
    ∀ (fuel : Nat) (deps : List Nat) (num i : Nat),
      i ≤ num → num ≤ deps.length → num - i ≤ fuel →
      (∀ x ∈ deps.take num, doomed w.numPredecessors_ x = false) →
      eraseLoopFull w fuel deps num i = some (deps.take num) := by
  intro fuel
  induction fuel with
  | zero =>
    intro deps num i hi hnum hfuel _
    have hin : ¬ i < num := by omega
    simp [eraseLoopFull, hin, resize_of_le hnum]
  | succ fuel ih =>
    intro deps num i hi hnum hfuel hclean
    by_cases hlt : i < num
    · obtain ⟨d, hd⟩ : ∃ d, deps[i]? = some d :=
        ⟨deps[i], List.getElem?_eq_getElem (by omega)⟩
      have hnd : ¬ w.numPredecessors_ d = kToDelete := by
        have := hclean d (mem_take_of_getElem? hlt hd)
        simpa [doomed] using this
      rw [eraseLoopFull]
      simp only [hlt, if_true, hd, hnd, if_false]
      exact ih deps num (i + 1) (by omega) hnum (by omega) hclean
    · rw [eraseLoopFull]
      simp [hlt, resize_of_le hnum]

theorem eraseLoop_full_agree (w : World) :
    ∀ (fuel : Nat) (deps : List Nat) (num i n : Nat),
      i ≤ num → num ≤ deps.length → num - i ≤ fuel → 1 ≤ n → n < sizeMod →
      (∀ x ∈ deps.take i, doomed w.numPredecessors_ x = false) →
      (deps.take num).countP (doomed w.numPredecessors_) ≤ n →
      ∃ res, eraseLoop w fuel deps num i n = some res ∧
        eraseLoopFull w fuel deps num i = some res.1 := by
  intro fuel
  induction fuel with
  | zero =>
    intro deps num i n hi hnum hfuel _ _ _ _
    have hin : ¬ i < num := by omega
    exact ⟨(resize deps num, n, false), by simp [eraseLoop, hin], by simp [eraseLoopFull, hin]⟩
  | succ fuel ih =>
    intro deps num i n hi hnum hfuel hn1 hn2 hpre hle
    by_cases hlt : i < num
    · obtain ⟨d, hd⟩ : ∃ d, deps[i]? = some d :=
        ⟨deps[i], List.getElem?_eq_getElem (by omega)⟩
      by_cases hdoom : w.numPredecessors_ d = kToDelete
      · obtain ⟨last, hlast⟩ : ∃ last, deps[num - 1]? = some last :=
          ⟨deps[num - 1], List.getElem?_eq_getElem (by omega)⟩
        have hperm := take_set_perm deps i num d last hlt hnum hd hlast
        have hdd : doomed w.numPredecessors_ d = true := by simp [doomed, hdoom]
        have hdec : sizeDec n = n - 1 := sizeDec_pos hn1 hn2
        have hlen : num - 1 ≤ (deps.set i last).length := by simp; omega
        have hcountP : (deps.take num).countP (doomed w.numPredecessors_)
            = ((deps.set i last).take (num - 1)).countP (doomed w.numPredecessors_) + 1 := by
          rw [hperm.countP_eq, List.countP_cons_of_pos _ _ hdd]
        by_cases hz : sizeDec n = 0
        · refine ⟨(resize (deps.set i last) (num - 1), sizeDec n, true), ?_, ?_⟩
          · rw [eraseLoop]
            simp only [hlt, if_true, hd, hdoom, hlast, hz]
          · rw [eraseLoopFull]
            simp only [hlt, if_true, hd, hdoom, hlast]
            rw [resize_of_le hlen]
            apply eraseLoopFull_clean w fuel _ _ _ (by omega) hlen (by omega)
            have h0 : ((deps.set i last).take (num - 1)).countP (doomed w.numPredecessors_)
                = 0 := by omega
            intro x hx
            have := List.countP_eq_zero.1 h0 x hx
            simpa using this
        · obtain ⟨res, h1, h2⟩ := ih (deps.set i last) (num - 1) i (sizeDec n)
            (by omega) hlen (by omega) (by omega) (by omega)
            (by rw [take_set_ge _ _ _ _ (Nat.le_refl i)]; exact hpre) (by omega)
          refine ⟨res, ?_, ?_⟩
          · rw [eraseLoop]
            simp only [hlt, if_true, hd, hdoom, hlast, hz, if_false]
            exact h1
          · rw [eraseLoopFull]
            simp only [hlt, if_true, hd, hdoom, hlast]
            exact h2
      · obtain ⟨res, h1, h2⟩ := ih deps num (i + 1) n (by omega) hnum (by omega) hn1 hn2
          (by
            rw [take_succ_of_getElem? hd]
            intro x hx
            rcases List.mem_append.1 hx with hx | hx
            · exact hpre x hx
            · simp at hx; subst hx; simp [doomed, hdoom]) hle
        refine ⟨res, ?_, ?_⟩
        · rw [eraseLoop]
          simp only [hlt, if_true, hd, hdoom, if_false]
          exact h1
        · rw [eraseLoopFull]
          simp only [hlt, if_true, hd, hdoom, if_false]
          exact h2
    · exact ⟨(resize deps num, n, false), by rw [eraseLoop]; simp [hlt],
        by rw [eraseLoopFull]; simp [hlt]⟩

theorem purgeNodeFull_clean (w : World) (m : Nat)
    (h : ∀ x ∈ w.dependents_ m, doomed w.numPredecessors_ x = false) :
    purgeNodeFull w m = some w := by
  have := eraseLoopFull_clean w (w.dependents_ m).length (w.dependents_ m)
    (w.dependents_ m).length 0 (Nat.zero_le _) (Nat.le_refl _) (by omega)
    (by rw [List.take_length]; exact h)
  rw [List.take_length] at this
  unfold purgeNodeFull
  rw [this]
  simp only [store_self]

theorem purgeNode_full_agree (w : World) (m n : Nat) (hn1 : 1 ≤ n) (hn2 : n < sizeMod)
    (hle : (w.dependents_ m).countP (doomed w.numPredecessors_) ≤ n) :
    ∃ res, purgeNode w m n = some res ∧ purgeNodeFull w m = some res.1 := by
  obtain ⟨⟨l, n1, r⟩, h1, h2⟩ := eraseLoop_full_agree w (w.dependents_ m).length
    (w.dependents_ m) (w.dependents_ m).length 0 n (Nat.zero_le _) (Nat.le_refl _) (by omega)
    hn1 hn2 (by simp) (by rw [List.take_length]; exact hle)
  refine ⟨({ w with dependents_ := store w.dependents_ m l }, n1, r), ?_, ?_⟩
  · simp [purgeNode, h1]
  · simp only at h2
    simp [purgeNodeFull, h2]

theorem purgeNodesFull_clean :
    ∀ (ms : List Nat) (w : World),
      (refsOf w.dependents_ ms).countP (doomed w.numPredecessors_) = 0 →
      purgeNodesFull w ms = some w := by
  intro ms
  induction ms with
  | nil => intro w _; rfl
  | cons m ms ih =>
    intro w h
    have hsplit : refsOf w.dependents_ (m :: ms) = w.dependents_ m ++ refsOf w.dependents_ ms := by
      simp [refsOf]
    rw [hsplit, List.countP_append] at h
    have hm : ∀ x ∈ w.dependents_ m, doomed w.numPredecessors_ x = false := by
      intro x hx
      have h0 : (w.dependents_ m).countP (doomed w.numPredecessors_) = 0 := by omega
      have := List.countP_eq_zero.1 h0 x hx
      simpa using this
    rw [purgeNodesFull, purgeNodeFull_clean w m hm]
    exact ih w (by omega)

theorem purgeNodes_full_agree :
    ∀ (ms : List Nat) (w : World) (n : Nat), ms.Nodup → 1 ≤ n → n < sizeMod →
      (refsOf w.dependents_ ms).countP (doomed w.numPredecessors_) ≤ n →
      ∃ res, purgeNodes w ms n = some res ∧ purgeNodesFull w ms = some res.1 ∧
        ScanSpec w ms n res := by
  intro ms
  induction ms with
  | nil =>
    intro w n hnd hn1 hn2 _
    obtain ⟨res, h1, h2⟩ := purgeNodes_spec [] w n hnd hn1 hn2
    have : res = (w, n, false) := by
      simp only [purgeNodes] at h1
      cases h1; rfl
    subst this
    exact ⟨_, h1, rfl, h2⟩
  | cons m ms ih =>
    intro w n hnd hn1 hn2 hle
    obtain ⟨res, hres, hspec⟩ := purgeNodes_spec (m :: ms) w n hnd hn1 hn2
    refine ⟨res, hres, ?_, hspec⟩
    obtain ⟨hm, hnd'⟩ := List.nodup_cons.1 hnd
    have hsplit : ∀ d : Nat → List Nat, refsOf d (m :: ms) = d m ++ refsOf d ms := fun d => by
      simp [refsOf]
    rw [hsplit, List.countP_append] at hle
    obtain ⟨⟨w1, n1, r1⟩, k1, k2⟩ := purgeNode_full_agree w m n hn1 hn2 (by omega)
    obtain ⟨⟨w1', n1', r1'⟩, k1', hs1⟩ := purgeNode_spec w m n hn1 hn2
    rw [k1] at k1'
    cases k1'
    have hrest : refsOf w1.dependents_ ms = refsOf w.dependents_ ms :=
      refsOf_congr fun x hx => hs1.untouched x (by
        simp only [List.mem_singleton]; rintro rfl; exact hm hx)
    have hc : w1.numPredecessors_ = w.numPredecessors_ := hs1.frame.numPredecessors_
    have hrem := hs1.removed
    have hle1 := hs1.le
    have hret := hs1.returned
    simp only [refsOf, List.flatMap_cons, List.flatMap_nil, List.append_nil] at hrem
    simp only at hle1 hret k2
    rw [purgeNodesFull, k2]
    rw [purgeNodes, k1] at hres
    cases r1 with
    | true =>
      simp only at hres
      cases hres
      have hn0 : n1 = 0 := hret.1 rfl
      apply purgeNodesFull_clean
      rw [hrest, hc]
      omega
    | false =>
      simp only at hres
      have hn1' : 1 ≤ n1 := by
        have : n1 ≠ 0 := fun h => by simpa using hret.2 h
        omega
      obtain ⟨res2, j1, j2, _⟩ := ih w1 n1 hnd' hn1' (by omega) (by rw [hrest, hc]; omega)
      rw [j1] at hres
      cases hres
      exact j2

theorem purgeSubgraphsFull_clean (this : Nat) :
    ∀ (subs : List Nat) (w : World),
      (refsOf w.dependents_ (scanned w.nodes_ this subs)).countP (doomed w.numPredecessors_) = 0 →
      purgeSubgraphsFull this w subs = some w := by
  intro subs
  induction subs with
  | nil => intro w _; rfl
  | cons s subs ih =>
    intro w h
    by_cases hs : s = this
    · have hsc : scanned w.nodes_ this (s :: subs) = scanned w.nodes_ this subs := by
        simp [scanned, hs]
      rw [hsc] at h
      rw [purgeSubgraphsFull]
      simp only [hs, if_true]
      exact ih w h
    · have hsc : scanned w.nodes_ this (s :: subs) = w.nodes_ s ++ scanned w.nodes_ this subs := by
        simp [scanned, hs]
      rw [hsc, refsOf_append, List.countP_append] at h
      rw [purgeSubgraphsFull]
      simp only [hs, if_false]
      rw [purgeNodesFull_clean (w.nodes_ s) w (by omega)]
      exact ih w (by omega)

theorem purgeSubgraphs_full_agree (this : Nat) :
    ∀ (subs : List Nat) (w : World) (n : Nat), (scanned w.nodes_ this subs).Nodup →
      1 ≤ n → n < sizeMod →
      (refsOf w.dependents_ (scanned w.nodes_ this subs)).countP (doomed w.numPredecessors_) ≤ n →
      ∃ w1, purgeSubgraphs this w subs n = some w1 ∧
        purgeSubgraphsFull this w subs = some w1 := by
  intro subs
  induction subs with
  | nil => intro w n _ _ _ _; exact ⟨w, rfl, rfl⟩
  | cons s subs ih =>
    intro w n hnd hn1 hn2 hle
    by_cases hs : s = this
    · have hsc : scanned w.nodes_ this (s :: subs) = scanned w.nodes_ this subs := by
        simp [scanned, hs]
      rw [hsc] at hnd hle
      obtain ⟨w1, h1, h2⟩ := ih w n hnd hn1 hn2 hle
      refine ⟨w1, ?_, ?_⟩
      · rw [purgeSubgraphs]; simp only [hs, if_true]; exact h1
      · rw [purgeSubgraphsFull]; simp only [hs, if_true]; exact h2
    · have hsc : scanned w.nodes_ this (s :: subs) = w.nodes_ s ++ scanned w.nodes_ this subs := by
        simp [scanned, hs]
      rw [hsc] at hnd hle
      rw [refsOf_append, List.countP_append] at hle
      obtain ⟨hnd1, hnd2, hdisj⟩ := List.nodup_append.1 hnd
      obtain ⟨⟨w1, n1, r1⟩, k1, k2, hs1⟩ :=
        purgeNodes_full_agree (w.nodes_ s) w n hnd1 hn1 hn2 (by omega)
      have hrest : refsOf w1.dependents_ (scanned w.nodes_ this subs)
          = refsOf w.dependents_ (scanned w.nodes_ this subs) :=
        refsOf_congr fun x hx => hs1.untouched x fun hx' => hdisj hx' hx
      have hc : w1.numPredecessors_ = w.numPredecessors_ := hs1.frame.numPredecessors_
      have hnodes : w1.nodes_ = w.nodes_ := hs1.frame.nodes_
      have hrem := hs1.removed
      have hle1 := hs1.le
      have hret := hs1.returned
      simp only at hrem hle1 hret k2
      cases r1 with
      | true =>
        have hn0 : n1 = 0 := hret.1 rfl
        refine ⟨w1, ?_, ?_⟩
        · rw [purgeSubgraphs]; simp only [hs, if_false, k1]
        · rw [purgeSubgraphsFull]; simp only [hs, if_false, k2]
          apply purgeSubgraphsFull_clean
          rw [hnodes, hrest, hc]
          omega
      | false =>
        have hn1' : 1 ≤ n1 := by
          have : n1 ≠ 0 := fun h => by simpa using hret.2 h
          omega
        obtain ⟨w2, j1, j2⟩ := ih w1 n1 (by rw [hnodes]; exact hnd2) hn1' (by omega)
          (by rw [hnodes, hrest, hc]; omega)
        refine ⟨w2, ?_, ?_⟩
        · rw [purgeSubgraphs]; simp only [hs, if_false, k1]; exact j1
        · rw [purgeSubgraphsFull]; simp only [hs, if_false, k2]; exact j2

/-! ### Which storage a merge keeps, and symmetry of the merged contents -/

theorem sorted_ext {l1 l2 : List Nat} (h1 : l1.Sorted (· < ·)) (h2 : l2.Sorted (· < ·))
    (hmem : ∀ x, x ∈ l1 ↔ x ∈ l2) : l1 = l2 :=
  List.eq_of_perm_of_sorted ((List.perm_ext_iff_of_nodup h1.nodup h2.nodup).2 hmem) h1 h2

theorem groupOf_of_handle {w : World} {n h : Nat} (hn : w.biPropSet_ n = some h) :
    groupOf w n = w.vec h := by
  simp [groupOf, hn]

/-! ### Group detach during `clear()` -/

theorem staleScenario_reachable : Reachable 0 staleScenario := by
  unfold staleScenario
  refine Reachable.addPropagationDependency _ 1 3 (Reachable.addPropagationDependency _ 3 4
    (Reachable.addPropagationDependency _ 1 2 (Reachable.addNode _ 10 4
      (Reachable.addNode _ 20 3 (Reachable.addNode _ 10 2 (Reachable.addNode _ 10 1
        (Reachable.addSubgraph _ 20 (Reachable.addSubgraph _ 10 (Reachable.empty _ rfl) ?_) ?_)
        ?_ ?_) ?_ ?_) ?_ ?_) ?_ ?_) ?_ ?_ ?_) ?_ ?_ ?_) ?_ ?_ ?_
  all_goals decide

theorem removeNode_vec_sublist (w : World) (x k : Nat) :
    ((SubgraphT.removeNodeFromBiPropSet w x).vec k).Sublist (w.vec k) := by
  unfold SubgraphT.removeNodeFromBiPropSet
  cases w.biPropSet_ x with
  | none => exact List.Sublist.refl _
  | some h =>
    simp only
    split
    · exact List.Sublist.refl _
    · by_cases hk : k = h
      · subst hk
        show (store w.vec k ((w.vec k).erase x) k).Sublist (w.vec k)
        rw [store_same]
        exact List.erase_sublist _ _
      · show (store w.vec h ((w.vec h).erase x) k).Sublist (w.vec k)
        rw [store_other _ _ hk]

theorem removeNode_handle_other (w : World) {x y : Nat} (h : y ≠ x) :
    (SubgraphT.removeNodeFromBiPropSet w x).biPropSet_ y = w.biPropSet_ y := by
  unfold SubgraphT.removeNodeFromBiPropSet
  cases w.biPropSet_ x with
  | none => rfl
  | some k =>
    simp only
    split
    · exact store_other _ _ h
    · rfl

theorem phaseA_vec_sublist (ms : List Nat) (w : World) (k : Nat) :
    ((phaseA w ms).vec k).Sublist (w.vec k) := by
  induction ms generalizing w with
  | nil => exact List.Sublist.refl _
  | cons a ms ih =>
    have he := foldl_decrementOne_edges (w.dependents_ a) w
    have h1 := removeNode_vec_sublist ((w.dependents_ a).foldl decrementOne w) a k
    rw [he.2.2.1] at h1
    exact (ih _).trans h1

theorem phaseA_handle_other (ms : List Nat) (w : World) {y : Nat} (h : y ∉ ms) :
    (phaseA w ms).biPropSet_ y = w.biPropSet_ y := by
  induction ms generalizing w with
  | nil => rfl
  | cons a ms ih =>
    have he := foldl_decrementOne_edges (w.dependents_ a) w
    have hya : y ≠ a := fun e => h (e ▸ List.mem_cons_self _ _)
    have h1 := removeNode_handle_other ((w.dependents_ a).foldl decrementOne w) hya
    rw [he.2.1] at h1
    exact (ih _ fun hy => h (List.mem_cons_of_mem _ hy)).trans h1

/-- Phase A erases every cleared node from a sequence that a surviving node
holds through the same handle. -/
theorem phaseA_detach {others : List Nat} {m h : Nat} (hm : m ∈ others) :
    ∀ (ms : List Nat) (w : World), GroupInv w others → (∀ x ∈ ms, x ∉ others) → ms.Nodup →
      w.biPropSet_ m = some h →
      ∀ n ∈ ms, w.biPropSet_ n = some h → n ∉ (phaseA w ms).vec h := by
  intro ms
  induction ms with
  | nil => intro w _ _ _ _ n hn; simp at hn
  | cons a ms ih =>
    intro w hinv hdisj hnd hmh n hn hnh
    obtain ⟨ha, hnd'⟩ := List.nodup_cons.1 hnd
    have he := foldl_decrementOne_edges (w.dependents_ a) w
    have hma : m ≠ a := by rintro rfl; exact hdisj m (List.mem_cons_self _ _) hm
    have hinv0 : GroupInv ((w.dependents_ a).foldl decrementOne w) others :=
      groupInv_congr he.2.1 he.2.2.1 he.2.2.2 (fun _ hx => hx) hinv
    have hinv1 := groupInv_removeNode (hdisj a (List.mem_cons_self _ _)) hinv0
    have hmh1 : (SubgraphT.removeNodeFromBiPropSet
        ((w.dependents_ a).foldl decrementOne w) a).biPropSet_ m = some h := by
      rw [removeNode_handle_other _ hma, he.2.1]; exact hmh
    rcases List.mem_cons.1 hn with hna | hna
    · subst hna
      obtain ⟨_, hsorted, hmem⟩ := hinv m hm h hmh
      have hstep : (SubgraphT.removeNodeFromBiPropSet
          ((w.dependents_ n).foldl decrementOne w) n).vec h = (w.vec h).erase n := by
        unfold SubgraphT.removeNodeFromBiPropSet
        rw [he.2.1, hnh]
        simp only [he.2.2.1]
        have hne : (w.vec h).erase n ≠ [] := by
          intro hnil
          have := (List.mem_erase_of_ne hma).2 hmem
          rw [hnil] at this
          simp at this
        simp only [hne, if_false, store_same]
      intro hin
      have := (phaseA_vec_sublist ms _ h).subset hin
      rw [hstep] at this
      exact (List.Nodup.not_mem_erase hsorted.nodup) this
    · have hnea : n ≠ a := by rintro rfl; exact ha hna
      have hnh1 : (SubgraphT.removeNodeFromBiPropSet
          ((w.dependents_ a).foldl decrementOne w) a).biPropSet_ n = some h := by
        rw [removeNode_handle_other _ hnea, he.2.1]; exact hnh
      exact ih _ hinv1 (fun x hx => hdisj x (List.mem_cons_of_mem _ hx)) hnd' hmh1 n hna hnh1

/-- In a reachable state, a node that survives `clear()` keeps its handle, and
its sequence no longer contains any cleared node that held the same handle. -/
theorem clear_detaches_shared_handle {g s : Nat} {w w1 : World} (hr : Reachable g w)
    (hs : s ∈ w.subgraphs_ g) (hclear : SubgraphT.clear w s = some w1) :
    ∀ t ∈ w.subgraphs_ g, t ≠ s → ∀ m ∈ w.nodes_ t, ∀ h, w.biPropSet_ m = some h →
      w1.biPropSet_ m = some h ∧
        ∀ n ∈ w.nodes_ s, w.biPropSet_ n = some h → n ∉ w1.vec h := by
  intro t ht hts m hm h hmh
  obtain ⟨hwf, hinv⟩ := reachable_inv hr
  obtain ⟨w2, h2, hspec⟩ := clear_spec hwf hinv hs
  rw [hclear] at h2
  cases h2
  have sp := split_of_wellFormed hwf hs
  have hmo : m ∈ scanned w.nodes_ s (w.subgraphs_ g) := mem_scanned.2 ⟨t, ht, hts, hm⟩
  have hms : m ∉ w.nodes_ s := fun hh => sp.disj m hh hmo
  have hothers : GroupInv w (scanned w.nodes_ s (w.subgraphs_ g)) :=
    fun n hn => reachable_groupInv hr n ((sp.mem n).2 (Or.inr hn))
  refine ⟨?_, fun n hn hnh => ?_⟩
  · rw [hspec.biPropSet_, phaseA_handle_other _ _ hms]
    exact hmh
  · rw [hspec.vec]
    exact phaseA_detach hmo (w.nodes_ s) w hothers (fun x hx => sp.disj x hx) sp.nodupS hmh
      n hn hnh

/-! ## The claims -/

/-- C1. In a well-formed graph state satisfying the edge/count invariant,
`S.clear()` returns and afterwards no dependents list of a node of another
subgraph holds a reference to a node that was in `S` before the call. -/
theorem clear_purges_references (w : World) (g s : Nat) (hwf : WellFormed w g)
    (hinv : CountInv w g) (hs : s ∈ w.subgraphs_ g) :
    ∃ w1, SubgraphT.clear w s = some w1 ∧
      ∀ t ∈ w1.subgraphs_ g, t ≠ s → ∀ m ∈ w1.nodes_ t, ∀ d ∈ w1.dependents_ m,
        d ∉ w.nodes_ s := by
  obtain ⟨w1, hclear, hspec⟩ := clear_spec hwf hinv hs
  refine ⟨w1, hclear, fun t ht hts m hm d hd hds => ?_⟩
  rw [hspec.subgraphs_] at ht
  rw [hspec.nodes_other hts] at hm
  have hperm := hspec.purged m (mem_scanned.2 ⟨t, ht, hts, hm⟩)
  have := (List.mem_filter.1 (hperm.mem_iff.1 hd)).2
  simp at this
  exact this hds

theorem clear_purges_references_witness :
    ∃ w1, SubgraphT.clear scenario 20 = some w1 ∧
      ∀ t ∈ w1.subgraphs_ 0, t ≠ 20 → ∀ m ∈ w1.nodes_ t, ∀ d ∈ w1.dependents_ m,
        d ∉ scenario.nodes_ 20 :=
  clear_purges_references scenario 0 20 scenario_wellFormed scenario_countInv (by decide)

/-- C2. In a well-formed graph state satisfying the edge/count invariant,
after `S.clear()` the counter of every node `m` of every other subgraph is its
value before the call minus the number of occurrences of `m` in the dependents
lists of the nodes of `S` (and that number does not exceed the old value). -/
theorem clear_decrements_counts (w : World) (g s : Nat) (hwf : WellFormed w g)
    (hinv : CountInv w g) (hs : s ∈ w.subgraphs_ g) :
    ∃ w1, SubgraphT.clear w s = some w1 ∧
      ∀ t ∈ w1.subgraphs_ g, t ≠ s → ∀ m ∈ w1.nodes_ t,
        (refsOf w.dependents_ (w.nodes_ s)).count m ≤ w.numPredecessors_ m ∧
        w1.numPredecessors_ m
          = w.numPredecessors_ m - (refsOf w.dependents_ (w.nodes_ s)).count m := by
  obtain ⟨w1, hclear, hspec⟩ := clear_spec hwf hinv hs
  refine ⟨w1, hclear, fun t ht hts m hm => ?_⟩
  rw [hspec.subgraphs_] at ht
  rw [hspec.nodes_other hts] at hm
  have sp := split_of_wellFormed hwf hs
  have hms : m ∉ w.nodes_ s := fun h => sp.disj m h (mem_scanned.2 ⟨t, ht, hts, hm⟩)
  have := hspec.counts m hms
  omega

theorem clear_decrements_counts_witness :
    ∃ w1, SubgraphT.clear scenario 10 = some w1 ∧ w1.numPredecessors_ 3 = 0 := by
  obtain ⟨w1, hclear, h⟩ :=
    clear_decrements_counts scenario 0 10 scenario_wellFormed scenario_countInv (by decide)
  refine ⟨w1, hclear, ?_⟩
  have h20 : (20 : Nat) ∈ w1.subgraphs_ 0 := by
    have hc : SubgraphT.clear scenario 10 = some w1 := hclear
    have : (SubgraphT.clear scenario 10).map (fun w => w.subgraphs_ 0) = some [10, 20] := by
      decide
    rw [hc] at this
    simp at this
    simp [this]
  have h3 : (3 : Nat) ∈ w1.nodes_ 20 := by
    have : (SubgraphT.clear scenario 10).map (fun w => w.nodes_ 20) = some [3] := by decide
    rw [hclear] at this
    simp at this
    simp [this]
  have := (h 20 h20 (by decide) 3 h3).2
  rw [this]
  decide

/-- C3. Edge/count consistency is an invariant of the reachable states: in
every state reachable from an empty graph by `addSubgraph`, node creation,
`addDependency`, `addPropagationDependency` and `clear()`, the counter of
every node of the graph is the number of occurrences of that node in the
dependents lists of the nodes of the graph. -/
theorem reachable_edge_count_consistency (g : Nat) (w : World) (h : Reachable g w) :
    ∀ n ∈ allNodes w g,
      w.numPredecessors_ n = (refsOf w.dependents_ (allNodes w g)).count n :=
  fun n hn => ((reachable_inv h).2 n hn).1

theorem reachable_edge_count_consistency_witness :
    Reachable 0 scenario ∧
      scenario.numPredecessors_ 3
        = (refsOf scenario.dependents_ (allNodes scenario 0)).count 3 :=
  ⟨scenario_reachable,
    reachable_edge_count_consistency 0 scenario scenario_reachable 3 (by decide)⟩

/-- C4. `addDependency(self, predecessor)` appends one reference to `self` at
the end of `predecessor.dependents` and raises `self.predecessorCount` by one,
leaving every other counter and list alone; a second call for the same pair
appends a second reference and raises the counter by two in all;
`addPropagationDependency` has the same effect on counters and dependents
lists. The counter is a `size_t` with room for the two increments. -/
theorem addDependency_effect (w : World) (self predecessor : Nat)
    (hroom : w.numPredecessors_ self + 2 < sizeMod) :
    (Node.dependsOnOneNode w self predecessor).dependents_ predecessor
        = w.dependents_ predecessor ++ [self] ∧
      (Node.dependsOnOneNode w self predecessor).numPredecessors_ self
        = w.numPredecessors_ self + 1 ∧
      (∀ n, n ≠ self →
        (Node.dependsOnOneNode w self predecessor).numPredecessors_ n = w.numPredecessors_ n) ∧
      (∀ n, n ≠ predecessor →
        (Node.dependsOnOneNode w self predecessor).dependents_ n = w.dependents_ n) ∧
      (Node.dependsOnOneNode (Node.dependsOnOneNode w self predecessor) self
          predecessor).dependents_ predecessor = w.dependents_ predecessor ++ [self, self] ∧
      (Node.dependsOnOneNode (Node.dependsOnOneNode w self predecessor) self
          predecessor).numPredecessors_ self = w.numPredecessors_ self + 2 ∧
      (BiPropNode.biPropDependsOnOneNode w self predecessor).numPredecessors_
        = (Node.dependsOnOneNode w self predecessor).numPredecessors_ ∧
      (BiPropNode.biPropDependsOnOneNode w self predecessor).dependents_
        = (Node.dependsOnOneNode w self predecessor).dependents_ := by
  have h1 : sizeInc (w.numPredecessors_ self) = w.numPredecessors_ self + 1 :=
    sizeInc_lt (by omega)
  have h2 : sizeInc (w.numPredecessors_ self + 1) = w.numPredecessors_ self + 2 :=
    sizeInc_lt (by omega)
  obtain ⟨hc, he⟩ := biPropDependsOnOneNode_edges w self predecessor
  refine ⟨by simp [Node.dependsOnOneNode], by simp [Node.dependsOnOneNode, h1],
    fun n hn => by simp [Node.dependsOnOneNode, store_other _ _ hn],
    fun n hn => by simp [Node.dependsOnOneNode, store_other _ _ hn],
    by simp [Node.dependsOnOneNode], by simp [Node.dependsOnOneNode, h1, h2], hc,
    he.dependents_⟩

theorem addDependency_effect_witness :
    (Node.dependsOnOneNode scenario 3 1).dependents_ 1 = scenario.dependents_ 1 ++ [3] ∧
      (Node.dependsOnOneNode scenario 3 1).numPredecessors_ 3
        = scenario.numPredecessors_ 3 + 1 ∧
      (∀ n, n ≠ 3 →
        (Node.dependsOnOneNode scenario 3 1).numPredecessors_ n = scenario.numPredecessors_ n) ∧
      (∀ n, n ≠ 1 →
        (Node.dependsOnOneNode scenario 3 1).dependents_ n = scenario.dependents_ n) ∧
      (Node.dependsOnOneNode (Node.dependsOnOneNode scenario 3 1) 3 1).dependents_ 1
        = scenario.dependents_ 1 ++ [3, 3] ∧
      (Node.dependsOnOneNode (Node.dependsOnOneNode scenario 3 1) 3 1).numPredecessors_ 3
        = scenario.numPredecessors_ 3 + 2 ∧
      (BiPropNode.biPropDependsOnOneNode scenario 3 1).numPredecessors_
        = (Node.dependsOnOneNode scenario 3 1).numPredecessors_ ∧
      (BiPropNode.biPropDependsOnOneNode scenario 3 1).dependents_
        = (Node.dependsOnOneNode scenario 3 1).dependents_ :=
  addDependency_effect scenario 3 1 (by decide)

/-- C5 (defect in the code). After `n1.addPropagationDependency(n2)`,
`n3.addPropagationDependency(n4)` and `n1.addPropagationDependency(n3)` on four
ungrouped nodes, nodes 4 and 1 are connected by a chain of propagation edges
but hold different handles: the merge of the two existing groups repoints only
node 3, and node 4 keeps the stale sequence `[3, 4]`. -/
theorem merge_leaves_stale_handle :
    PropReachable [(1, 3), (3, 4), (1, 2)] mergedGroups ∧
      Connected [(1, 3), (3, 4), (1, 2)] 4 1 ∧
      mergedGroups.biPropSet_ 1 = some 0 ∧ mergedGroups.biPropSet_ 2 = some 0 ∧
      mergedGroups.biPropSet_ 3 = some 0 ∧ mergedGroups.biPropSet_ 4 = some 1 ∧
      mergedGroups.vec 0 = [1, 2, 3, 4] ∧ mergedGroups.vec 1 = [3, 4] := by
  refine ⟨?_, ?_, by decide, by decide, by decide, by decide, by decide, by decide⟩
  · exact PropReachable.call _ _ 1 3 (PropReachable.call _ _ 3 4
      (PropReachable.call _ _ 1 2 (PropReachable.start emptyWorld fun _ => rfl)))
  · exact Relation.EqvGen.trans 4 3 1
      (Relation.EqvGen.symm 3 4 (Relation.EqvGen.rel 3 4 (by decide)))
      (Relation.EqvGen.symm 1 3 (Relation.EqvGen.rel 1 3 (by decide)))

/-- C6. In every reachable state, the group sequence a node of the graph
refers to through a non-null handle is strictly increasing in the identity
order and contains that node exactly once. -/
theorem reachable_groups_sorted (g : Nat) (w : World) (h : Reachable g w) :
    ∀ n ∈ allNodes w g, ∀ k, w.biPropSet_ n = some k →
      (w.vec k).Sorted (· < ·) ∧ (w.vec k).count n = 1 := by
  intro n hn k hk
  obtain ⟨_, h2, h3⟩ := reachable_groupInv h n hn k hk
  exact ⟨h2, List.count_eq_one_of_mem h2.nodup h3⟩

theorem reachable_groups_sorted_witness :
    Reachable 0 groupScenario ∧ groupScenario.biPropSet_ 3 = some 0 ∧
      (groupScenario.vec 0).Sorted (· < ·) ∧ (groupScenario.vec 0).count 3 = 1 :=
  ⟨groupScenario_reachable, by decide,
    reachable_groups_sorted 0 groupScenario groupScenario_reachable 3 (by decide) 0 (by decide)⟩

/-- C7. When the groups of `self` and `predecessor` (if present) are strictly
sorted and contain their owner, after `addPropagationDependency(self,
predecessor)` both nodes hold one handle, whose sequence is strictly sorted and
has as members exactly `self`, `predecessor` and the members of their previous
groups. -/
theorem addPropagationDependency_merges (w : World) (self predecessor : Nat)
    (hs : GroupOk w self) (hp : GroupOk w predecessor) :
    ∃ h, (BiPropNode.biPropDependsOnOneNode w self predecessor).biPropSet_ self = some h ∧
      (BiPropNode.biPropDependsOnOneNode w self predecessor).biPropSet_ predecessor = some h ∧
      ((BiPropNode.biPropDependsOnOneNode w self predecessor).vec h).Sorted (· < ·) ∧
      ∀ x, x ∈ (BiPropNode.biPropDependsOnOneNode w self predecessor).vec h ↔
        x = self ∨ x = predecessor ∨ x ∈ groupOf w self ∨ x ∈ groupOf w predecessor :=
  biProp_merged w self predecessor hs hp

theorem addPropagationDependency_merges_witness :
    ∃ h, (BiPropNode.biPropDependsOnOneNode twoGroups 1 3).biPropSet_ 1 = some h ∧
      (BiPropNode.biPropDependsOnOneNode twoGroups 1 3).biPropSet_ 3 = some h ∧
      ((BiPropNode.biPropDependsOnOneNode twoGroups 1 3).vec h).Sorted (· < ·) ∧
      ∀ x, x ∈ (BiPropNode.biPropDependsOnOneNode twoGroups 1 3).vec h ↔
        x = 1 ∨ x = 3 ∨ x ∈ groupOf twoGroups 1 ∨ x ∈ groupOf twoGroups 3 :=
  addPropagationDependency_merges twoGroups 1 3 twoGroups_groupOk_one twoGroups_groupOk_three

/-- C8. For three distinct, initially ungrouped nodes `x`, `y`, `z` and any two
`addPropagationDependency` calls that connect them (`a` to `b`, then `c` to
`d`, two different pairs of the three nodes in either direction), afterwards
`x`, `y` and `z` hold the same handle and its sequence is the strictly sorted
listing of the three nodes. -/
theorem three_nodes_share_group (w : World) (x y z a b c d : Nat)
    (_hxy : x ≠ y) (_hxz : x ≠ z) (_hyz : y ≠ z)
    (hx : w.biPropSet_ x = none) (hy : w.biPropSet_ y = none) (hz : w.biPropSet_ z = none)
    (ha : a ∈ [x, y, z]) (hb : b ∈ [x, y, z]) (hab : a ≠ b)
    (hc : c ∈ [x, y, z]) (hd : d ∈ [x, y, z]) (hcd : c ≠ d)
    (hnew : ¬ ((c = a ∧ d = b) ∨ (c = b ∧ d = a))) :
    ∃ h,
      (BiPropNode.biPropDependsOnOneNode (BiPropNode.biPropDependsOnOneNode w a b) c d).biPropSet_ x
        = some h ∧
      (BiPropNode.biPropDependsOnOneNode (BiPropNode.biPropDependsOnOneNode w a b) c d).biPropSet_ y
        = some h ∧
      (BiPropNode.biPropDependsOnOneNode (BiPropNode.biPropDependsOnOneNode w a b) c d).biPropSet_ z
        = some h ∧
      ((BiPropNode.biPropDependsOnOneNode (BiPropNode.biPropDependsOnOneNode w a b) c d).vec
        h).Sorted (· < ·) ∧
      ((BiPropNode.biPropDependsOnOneNode (BiPropNode.biPropDependsOnOneNode w a b) c d).vec
        h).length = 3 ∧
      ∀ v, v ∈ (BiPropNode.biPropDependsOnOneNode (BiPropNode.biPropDependsOnOneNode w a b) c
        d).vec h ↔ v = x ∨ v = y ∨ v = z := by
  simp only [List.mem_cons, List.mem_singleton, List.not_mem_nil, or_false] at ha hb hc hd
  have hnone : ∀ n, n = x ∨ n = y ∨ n = z → w.biPropSet_ n = none := by
    rintro n (h | h | h) <;> subst h <;> assumption
  have hsplit := pairs_of_three ha hb hab hc hd hcd hnew
  obtain ⟨t, ht, ka, kb, kt, kvec⟩ :=
    three_nodes_aux w a b c d (hnone a ha) (hnone b hb) (hnone c hc) (hnone d hd) hsplit
  have hta : t ≠ a := by
    rcases ht with ⟨h, h1, _⟩ | ⟨h, h1, _⟩ <;> rw [h] <;> exact h1
  have htb : t ≠ b := by
    rcases ht with ⟨h, _, h1⟩ | ⟨h, _, h1⟩ <;> rw [h] <;> exact h1
  have htxyz : t = x ∨ t = y ∨ t = z := by
    rcases ht with ⟨h, _, _⟩ | ⟨h, _, _⟩ <;> rw [h] <;> assumption
  have hcover := fun n => @cover_of_three x y z a b t n ha hb htxyz hab hta htb
  have hbp : ∀ n, n = x ∨ n = y ∨ n = z →
      (BiPropNode.biPropDependsOnOneNode (BiPropNode.biPropDependsOnOneNode w a b) c
        d).biPropSet_ n = some w.nextVec := by
    intro n hn
    rcases (hcover n).1 hn with h | h | h <;> subst h <;> assumption
  refine ⟨w.nextVec, hbp x (Or.inl rfl), hbp y (Or.inr (Or.inl rfl)),
    hbp z (Or.inr (Or.inr rfl)), ?_, ?_, fun v => ?_⟩
  · rw [kvec]
    exact sorted_set_insert _ _ (sorted_set_insert _ _ (sorted_set_insert _ _ List.sorted_nil))
  · rw [kvec, length_set_insert_of_not_mem, length_set_insert_of_not_mem, set_insert_nil]
    · rfl
    · rw [set_insert_nil]; simpa using Ne.symm hab
    · simp only [mem_set_insert, List.not_mem_nil, or_false, not_or]
      exact ⟨htb, hta⟩
  · rw [kvec]
    simp only [mem_set_insert, List.not_mem_nil, or_false]
    exact (hcover v).symm

theorem three_nodes_share_group_witness :
    ∃ h,
      (BiPropNode.biPropDependsOnOneNode (BiPropNode.biPropDependsOnOneNode emptyWorld 2 1) 3
        2).biPropSet_ 1 = some h ∧
      (BiPropNode.biPropDependsOnOneNode (BiPropNode.biPropDependsOnOneNode emptyWorld 2 1) 3
        2).biPropSet_ 2 = some h ∧
      (BiPropNode.biPropDependsOnOneNode (BiPropNode.biPropDependsOnOneNode emptyWorld 2 1) 3
        2).biPropSet_ 3 = some h ∧
      ((BiPropNode.biPropDependsOnOneNode (BiPropNode.biPropDependsOnOneNode emptyWorld 2 1) 3
        2).vec h).Sorted (· < ·) ∧
      ((BiPropNode.biPropDependsOnOneNode (BiPropNode.biPropDependsOnOneNode emptyWorld 2 1) 3
        2).vec h).length = 3 ∧
      ∀ v, v ∈ (BiPropNode.biPropDependsOnOneNode (BiPropNode.biPropDependsOnOneNode emptyWorld
        2 1) 3 2).vec h ↔ v = 1 ∨ v = 2 ∨ v = 3 :=
  three_nodes_share_group emptyWorld 1 2 3 2 1 3 2 (by decide) (by decide) (by decide) rfl rfl
    rfl (by decide) (by decide) (by decide) (by decide) (by decide) (by decide) (by decide)

/-- C9. When `self` and `predecessor` already hold the same group handle,
`addPropagationDependency(self, predecessor)` leaves every group sequence and
every handle unchanged; so does the union `set_union` computes with both
arguments aliasing that one sequence. -/
theorem addPropagationDependency_idempotent (w : World) (self predecessor h : Nat)
    (hs : w.biPropSet_ self = some h) (hp : w.biPropSet_ predecessor = some h) :
    (BiPropNode.biPropDependsOnOneNode w self predecessor).biPropSet_ = w.biPropSet_ ∧
      (BiPropNode.biPropDependsOnOneNode w self predecessor).vec = w.vec ∧
      (set_union w h h).vec = w.vec := by
  obtain ⟨h1, h2, _⟩ := biProp_both hp hs
  refine ⟨funext fun n => ?_, funext fun k => ?_, funext fun k => ?_⟩
  · rw [h1]
    split
    · next e => rw [e, hp]
    · rfl
  · rw [h2]
    split
    · next e => rw [e]; simp [stdSetUnion_nil_right]
    · rfl
  · by_cases e : k = h
    · simp [set_union, store, e, stdSetUnion_nil_right]
    · simp [set_union, store, e]

theorem addPropagationDependency_idempotent_witness :
    (BiPropNode.biPropDependsOnOneNode twoGroups 4 3).biPropSet_ = twoGroups.biPropSet_ ∧
      (BiPropNode.biPropDependsOnOneNode twoGroups 4 3).vec = twoGroups.vec ∧
      (set_union twoGroups 1 1).vec = twoGroups.vec :=
  addPropagationDependency_idempotent twoGroups 4 3 1 (by decide) (by decide)

/-- C10. After move construction or move assignment from graph `other` into a
different graph object `this`, the destination holds the source's subgraphs
in the same order, node contents are untouched, every one of those subgraphs
has `graph_` equal to the destination, and `removePredecessorDependencies` on
any of them scans the destination's subgraph list. -/
theorem move_fixes_back_references (w : World) (this other : Nat) (hne : this ≠ other) :
    ((GraphT.moveConstruct w this other).subgraphs_ this = w.subgraphs_ other ∧
      NodesSame w (GraphT.moveConstruct w this other) ∧
      ∀ s ∈ (GraphT.moveConstruct w this other).subgraphs_ this,
        (GraphT.moveConstruct w this other).graph_ s = this ∧
        ∀ n, SubgraphT.removePredecessorDependencies (GraphT.moveConstruct w this other) s n
          = purgeSubgraphs s (GraphT.moveConstruct w this other)
              ((GraphT.moveConstruct w this other).subgraphs_ this) n) ∧
    ((GraphT.moveAssign w this other).subgraphs_ this = w.subgraphs_ other ∧
      NodesSame w (GraphT.moveAssign w this other) ∧
      ∀ s ∈ (GraphT.moveAssign w this other).subgraphs_ this,
        (GraphT.moveAssign w this other).graph_ s = this ∧
        ∀ n, SubgraphT.removePredecessorDependencies (GraphT.moveAssign w this other) s n
          = purgeSubgraphs s (GraphT.moveAssign w this other)
              ((GraphT.moveAssign w this other).subgraphs_ this) n) := by
  have hsame : GraphT.moveAssign w this other = GraphT.moveConstruct w this other := rfl
  rw [hsame]
  obtain ⟨h1, h2, h3⟩ := moveConstruct_spec w this other hne
  have key : ∀ s ∈ (GraphT.moveConstruct w this other).subgraphs_ this,
      (GraphT.moveConstruct w this other).graph_ s = this ∧
      ∀ n, SubgraphT.removePredecessorDependencies (GraphT.moveConstruct w this other) s n
        = purgeSubgraphs s (GraphT.moveConstruct w this other)
            ((GraphT.moveConstruct w this other).subgraphs_ this) n := by
    intro s hs
    refine ⟨h3 s hs, fun n => ?_⟩
    unfold SubgraphT.removePredecessorDependencies
    rw [h3 s hs]
  exact ⟨⟨h1, h2, key⟩, ⟨h1, h2, key⟩⟩

theorem move_fixes_back_references_witness :
    ((GraphT.moveConstruct scenario 7 0).subgraphs_ 7 = scenario.subgraphs_ 0 ∧
      NodesSame scenario (GraphT.moveConstruct scenario 7 0) ∧
      ∀ s ∈ (GraphT.moveConstruct scenario 7 0).subgraphs_ 7,
        (GraphT.moveConstruct scenario 7 0).graph_ s = 7 ∧
        ∀ n, SubgraphT.removePredecessorDependencies (GraphT.moveConstruct scenario 7 0) s n
          = purgeSubgraphs s (GraphT.moveConstruct scenario 7 0)
              ((GraphT.moveConstruct scenario 7 0).subgraphs_ 7) n) ∧
    ((GraphT.moveAssign scenario 7 0).subgraphs_ 7 = scenario.subgraphs_ 0 ∧
      NodesSame scenario (GraphT.moveAssign scenario 7 0) ∧
      ∀ s ∈ (GraphT.moveAssign scenario 7 0).subgraphs_ 7,
        (GraphT.moveAssign scenario 7 0).graph_ s = 7 ∧
        ∀ n, SubgraphT.removePredecessorDependencies (GraphT.moveAssign scenario 7 0) s n
          = purgeSubgraphs s (GraphT.moveAssign scenario 7 0)
              ((GraphT.moveAssign scenario 7 0).subgraphs_ 7) n) :=
  move_fixes_back_references scenario 7 0 (by decide)

/-- C11. `addSubgraph()` on graph `this`, the deque giving the new element an
address no existing subgraph of the graph has: the subgraph list grows by one
with the new subgraph last, the new subgraph has no nodes and points back at
`this`, the returned pointer is the new subgraph, every subgraph that existed
keeps its nodes and back-reference (and its place in the list), and no node
is touched. -/
theorem addSubgraph_effect (w : World) (this addr : Nat) (hfresh : addr ∉ w.subgraphs_ this) :
    ((GraphT.addSubgraph w this addr).1.subgraphs_ this).length
        = (w.subgraphs_ this).length + 1 ∧
      (GraphT.addSubgraph w this addr).1.subgraphs_ this = w.subgraphs_ this ++ [addr] ∧
      (GraphT.addSubgraph w this addr).1.nodes_ addr = [] ∧
      (GraphT.addSubgraph w this addr).1.graph_ addr = this ∧
      (GraphT.addSubgraph w this addr).2 = addr ∧
      ((GraphT.addSubgraph w this addr).1.subgraphs_ this).getLast? = some addr ∧
      (∀ s ∈ w.subgraphs_ this,
        (GraphT.addSubgraph w this addr).1.nodes_ s = w.nodes_ s ∧
        (GraphT.addSubgraph w this addr).1.graph_ s = w.graph_ s) ∧
      (∀ i, i < (w.subgraphs_ this).length →
        ((GraphT.addSubgraph w this addr).1.subgraphs_ this)[i]? = (w.subgraphs_ this)[i]?) ∧
      (GraphT.addSubgraph w this addr).1.numPredecessors_ = w.numPredecessors_ ∧
      (GraphT.addSubgraph w this addr).1.dependents_ = w.dependents_ ∧
      (GraphT.addSubgraph w this addr).1.biPropSet_ = w.biPropSet_ ∧
      (GraphT.addSubgraph w this addr).1.vec = w.vec := by
  have hsub : (GraphT.addSubgraph w this addr).1.subgraphs_ this = w.subgraphs_ this ++ [addr] := by
    simp [GraphT.addSubgraph]
  refine ⟨by rw [hsub]; simp, hsub, by simp [GraphT.addSubgraph], by simp [GraphT.addSubgraph],
    by simp [GraphT.addSubgraph], by rw [hsub]; simp, fun s hs => ?_, fun i hi => ?_,
    rfl, rfl, rfl, rfl⟩
  · have hne : s ≠ addr := by rintro rfl; exact hfresh hs
    exact ⟨store_other _ _ hne, store_other _ _ hne⟩
  · rw [hsub, List.getElem?_append_left hi]

theorem addSubgraph_effect_witness :
    ((GraphT.addSubgraph scenario 0 30).1.subgraphs_ 0).length
        = (scenario.subgraphs_ 0).length + 1 ∧
      (GraphT.addSubgraph scenario 0 30).1.subgraphs_ 0 = scenario.subgraphs_ 0 ++ [30] ∧
      (GraphT.addSubgraph scenario 0 30).1.nodes_ 30 = [] ∧
      (GraphT.addSubgraph scenario 0 30).1.graph_ 30 = 0 ∧
      (GraphT.addSubgraph scenario 0 30).2 = 30 ∧
      ((GraphT.addSubgraph scenario 0 30).1.subgraphs_ 0).getLast? = some 30 ∧
      (∀ s ∈ scenario.subgraphs_ 0,
        (GraphT.addSubgraph scenario 0 30).1.nodes_ s = scenario.nodes_ s ∧
        (GraphT.addSubgraph scenario 0 30).1.graph_ s = scenario.graph_ s) ∧
      (∀ i, i < (scenario.subgraphs_ 0).length →
        ((GraphT.addSubgraph scenario 0 30).1.subgraphs_ 0)[i]? = (scenario.subgraphs_ 0)[i]?) ∧
      (GraphT.addSubgraph scenario 0 30).1.numPredecessors_ = scenario.numPredecessors_ ∧
      (GraphT.addSubgraph scenario 0 30).1.dependents_ = scenario.dependents_ ∧
      (GraphT.addSubgraph scenario 0 30).1.biPropSet_ = scenario.biPropSet_ ∧
      (GraphT.addSubgraph scenario 0 30).1.vec = scenario.vec :=
  addSubgraph_effect scenario 0 30 (by decide)

/-- C12. Under the edge/count invariant, phase C as `clear()` runs it on the
heap and total left by phases A and B (skipped at zero, stopped when the
counter reaches zero) and the full unconditional scan of every other subgraph
both return, and return the same heap: every dependents list of every node is
exactly the same, order included. -/
theorem early_exit_equivalence (w : World) (g s : Nat) (hwf : WellFormed w g)
    (hinv : CountInv w g) (hs : s ∈ w.subgraphs_ g) :
    ∃ w3,
      phaseC (SubgraphT.markNodesWithPredicessors (SubgraphT.decrementDependentCounters w s) s).1
          s (SubgraphT.markNodesWithPredicessors (SubgraphT.decrementDependentCounters w s) s).2
        = some w3 ∧
      removePredecessorDependenciesFull
          (SubgraphT.markNodesWithPredicessors (SubgraphT.decrementDependentCounters w s) s).1 s
        = some w3 := by
  have sp := split_of_wellFormed hwf hs
  obtain ⟨_, hp, hplt⟩ := marked_inv hwf hinv hs
  obtain ⟨hdeps, hnodes, hgraph, hsubs⟩ := marked_edges w s
  unfold phaseC removePredecessorDependenciesFull SubgraphT.removePredecessorDependencies
  rw [hgraph, hsubs, hwf.owner s hs]
  generalize SubgraphT.markNodesWithPredicessors (SubgraphT.decrementDependentCounters w s) s
    = mk at hp hplt hdeps hnodes
  obtain ⟨wB, p⟩ := mk
  simp only at hp hplt hdeps hnodes ⊢
  by_cases hp0 : p = 0
  · refine ⟨wB, by simp [hp0], ?_⟩
    apply purgeSubgraphsFull_clean
    rw [hnodes, hdeps, ← hp, hp0]
  · obtain ⟨w3, h1, h2⟩ := purgeSubgraphs_full_agree s (w.subgraphs_ g) wB p
      (by rw [hnodes]; exact sp.nodupO) (by omega) hplt
      (by rw [hnodes, hdeps, ← hp])
    exact ⟨w3, by simp [hp0, h1], h2⟩

theorem early_exit_equivalence_witness :
    ∃ w3,
      phaseC
          (SubgraphT.markNodesWithPredicessors
            (SubgraphT.decrementDependentCounters scenario 20) 20).1 20
          (SubgraphT.markNodesWithPredicessors
            (SubgraphT.decrementDependentCounters scenario 20) 20).2 = some w3 ∧
      removePredecessorDependenciesFull
          (SubgraphT.markNodesWithPredicessors
            (SubgraphT.decrementDependentCounters scenario 20) 20).1 20 = some w3 :=
  early_exit_equivalence scenario 0 20 scenario_wellFormed scenario_countInv (by decide)

/-- C13. Under the edge/count invariant, the total returned by
`markNodesWithPredicessors` after `decrementDependentCounters` on `S` is the
number of references to nodes of `S` held by the nodes of the other subgraphs;
it is zero exactly when no such reference exists; and the nodes of `S` marked
with the sentinel are exactly those referenced from another subgraph. -/
theorem pending_is_exact (w : World) (g s : Nat) (hwf : WellFormed w g) (hinv : CountInv w g)
    (hs : s ∈ w.subgraphs_ g) :
    (SubgraphT.markNodesWithPredicessors (SubgraphT.decrementDependentCounters w s) s).2
        = (refsOf w.dependents_ (scanned w.nodes_ s (w.subgraphs_ g))).countP
            (fun d => decide (d ∈ w.nodes_ s)) ∧
      ((SubgraphT.markNodesWithPredicessors (SubgraphT.decrementDependentCounters w s) s).2 = 0 ↔
        ∀ d ∈ refsOf w.dependents_ (scanned w.nodes_ s (w.subgraphs_ g)), d ∉ w.nodes_ s) ∧
      ∀ n ∈ w.nodes_ s,
        ((SubgraphT.markNodesWithPredicessors
            (SubgraphT.decrementDependentCounters w s) s).1.numPredecessors_ n = kToDelete ↔
          n ∈ refsOf w.dependents_ (scanned w.nodes_ s (w.subgraphs_ g))) := by
  have sp := split_of_wellFormed hwf hs
  obtain ⟨hdoom, hp, _⟩ := marked_inv hwf hinv hs
  have hcount : (SubgraphT.markNodesWithPredicessors
      (SubgraphT.decrementDependentCounters w s) s).2
      = (refsOf w.dependents_ (scanned w.nodes_ s (w.subgraphs_ g))).countP
          (fun d => decide (d ∈ w.nodes_ s)) := by
    rw [hp]
    apply List.countP_congr
    intro x hx
    rw [hdoom x hx]
  refine ⟨hcount, ?_, fun n hn => ?_⟩
  · rw [hcount, List.countP_eq_zero]
    simp
  · rw [marked_eq, foldl_markOne_count _ sp.nodupS]
    have hA := (phaseA_inv hwf hinv hs).2 n ((sp.mem n).2 (Or.inl hn))
    simp only [hn, true_and]
    by_cases h0 : (phaseA w (w.nodes_ s)).numPredecessors_ n = 0
    · have hnot : n ∉ refsOf w.dependents_ (scanned w.nodes_ s (w.subgraphs_ g)) := by
        rw [← List.count_eq_zero]
        omega
      simp only [h0, ne_eq, not_true_eq_false, if_false]
      constructor
      · intro h; exact absurd h (by unfold kToDelete; omega)
      · intro h; exact absurd h hnot
    · have hin : n ∈ refsOf w.dependents_ (scanned w.nodes_ s (w.subgraphs_ g)) := by
        apply List.count_pos_iff.1
        omega
      simp [h0, hin]

theorem pending_is_exact_witness :
    (SubgraphT.markNodesWithPredicessors (SubgraphT.decrementDependentCounters scenario 10) 10).2
        = (refsOf scenario.dependents_ (scanned scenario.nodes_ 10 (scenario.subgraphs_ 0))).countP
            (fun d => decide (d ∈ scenario.nodes_ 10)) ∧
      ((SubgraphT.markNodesWithPredicessors
          (SubgraphT.decrementDependentCounters scenario 10) 10).2 = 0 ↔
        ∀ d ∈ refsOf scenario.dependents_ (scanned scenario.nodes_ 10 (scenario.subgraphs_ 0)),
          d ∉ scenario.nodes_ 10) ∧
      ∀ n ∈ scenario.nodes_ 10,
        ((SubgraphT.markNodesWithPredicessors
            (SubgraphT.decrementDependentCounters scenario 10) 10).1.numPredecessors_ n
              = kToDelete ↔
          n ∈ refsOf scenario.dependents_ (scanned scenario.nodes_ 10 (scenario.subgraphs_ 0))) :=
  pending_is_exact scenario 0 10 scenario_wellFormed scenario_countInv (by decide)

/-- C14 as stated fails. With `n1` in the group `[1, 2]` (handle 0) and `n3` in
the group `[3, 4]` (handle 1), after `n1.addPropagationDependency(n3)` the
handle of self (`n1`) is not the one the predecessor (`n3`) held, and the
sequence the predecessor's handle referred to is not the union. -/
theorem merge_into_predecessor_counterexample :
    twoGroups.biPropSet_ 1 = some 0 ∧ twoGroups.biPropSet_ 3 = some 1 ∧
      (BiPropNode.biPropDependsOnOneNode twoGroups 1 3).biPropSet_ 1 ≠ some 1 ∧
      (BiPropNode.biPropDependsOnOneNode twoGroups 1 3).vec 1 = [3, 4] ∧
      ¬ (∀ x, x ∈ twoGroups.vec 0 ∨ x ∈ twoGroups.vec 1 →
        x ∈ (BiPropNode.biPropDependsOnOneNode twoGroups 1 3).vec 1) := by
  refine ⟨by decide, by decide, by decide, by decide, fun h => ?_⟩
  have := h 1 (Or.inl (by decide))
  revert this
  decide

/-- C14, amended. When both `self` and `predecessor` have groups with strictly
sorted sequences, `addPropagationDependency(self, predecessor)` computes the
sorted union of the two sequences into the storage of `self` (the sequence the
handle of `self` referred to before the call is the one mutated and kept) and
repoints the handle of `predecessor` to that instance. -/
theorem merge_into_self (w : World) (self predecessor ht hn : Nat)
    (hs : w.biPropSet_ self = some ht) (hp : w.biPropSet_ predecessor = some hn)
    (hsorted : (w.vec ht).Sorted (· < ·)) (hpsorted : (w.vec hn).Sorted (· < ·)) :
    (BiPropNode.biPropDependsOnOneNode w self predecessor).biPropSet_ self = some ht ∧
      (BiPropNode.biPropDependsOnOneNode w self predecessor).biPropSet_ predecessor = some ht ∧
      ((BiPropNode.biPropDependsOnOneNode w self predecessor).vec ht).Sorted (· < ·) ∧
      ∀ x, x ∈ (BiPropNode.biPropDependsOnOneNode w self predecessor).vec ht ↔
        x ∈ w.vec ht ∨ x ∈ w.vec hn := by
  obtain ⟨h1, h2, _⟩ := biProp_both hp hs
  refine ⟨?_, by simp [h1], ?_, fun x => ?_⟩
  · rw [h1]; split
    · rfl
    · exact hs
  · rw [h2]
    simp only [if_true]
    apply sorted_stdSetUnion _ _ hsorted
    split
    · exact List.sorted_nil
    · exact hpsorted
  · rw [h2]
    simp only [if_true, mem_stdSetUnion]
    by_cases hh : hn = ht
    · subst hh
      simp
    · simp [hh]

theorem merge_into_self_witness :
    (BiPropNode.biPropDependsOnOneNode twoGroups 1 3).biPropSet_ 1 = some 0 ∧
      (BiPropNode.biPropDependsOnOneNode twoGroups 1 3).biPropSet_ 3 = some 0 ∧
      ((BiPropNode.biPropDependsOnOneNode twoGroups 1 3).vec 0).Sorted (· < ·) ∧
      ∀ x, x ∈ (BiPropNode.biPropDependsOnOneNode twoGroups 1 3).vec 0 ↔
        x ∈ twoGroups.vec 0 ∨ x ∈ twoGroups.vec 1 :=
  merge_into_self twoGroups 1 3 0 1 (by decide) (by decide) (by decide) (by decide)

/-- C15 (defect in the code, the one of C5). In the reachable state
`staleScenario` node 3, alone in subgraph 20, holds handle 0 with the sequence
`[1, 2, 3, 4]`, so node 4 is another member of its group; but node 4 itself
still holds handle 1 from before the merge. After `clear()` on subgraph 20,
node 4 survives and the sequence it observes through its own handle, `[3, 4]`,
still contains the cleared node 3; only the sequence of handle 0 lost it. -/
theorem clear_leaves_stale_member :
    Reachable 0 staleScenario ∧ staleScenario.nodes_ 20 = [3] ∧
      staleScenario.biPropSet_ 3 = some 0 ∧ staleScenario.vec 0 = [1, 2, 3, 4] ∧
      staleScenario.biPropSet_ 4 = some 1 ∧
      (SubgraphT.clear staleScenario 20).map
          (fun w1 => (w1.nodes_ 10, w1.nodes_ 20, w1.biPropSet_ 4, w1.vec 1, w1.vec 0))
        = some ([1, 2, 4], [], some 1, [3, 4], [1, 2, 4]) :=
  ⟨staleScenario_reachable, by decide, by decide, by decide, by decide, by decide⟩

/-- C16. For a strictly sorted sequence `s` and a node `x`: when `x` occurs in
`s`, `set_insert(s, x)` leaves `s` unchanged; otherwise the result is strictly
sorted, its members are those of `s` plus `x`, it is one longer and keeps the
old elements in their order. Hence inserting `x` a second time changes
nothing. -/
theorem set_insert_sorted_insert (s : List Nat) (x : Nat) (hs : s.Sorted (· < ·)) :
    (x ∈ s → set_insert s x = s) ∧
      (x ∉ s →
        (set_insert s x).Sorted (· < ·) ∧
        (∀ y, y ∈ set_insert s x ↔ y = x ∨ y ∈ s) ∧
        (set_insert s x).length = s.length + 1 ∧
        s.Sublist (set_insert s x)) ∧
      set_insert (set_insert s x) x = set_insert s x :=
  ⟨fun hx => set_insert_of_mem hs hx,
    fun hx => ⟨sorted_set_insert x s hs, fun y => mem_set_insert x y s,
      length_set_insert_of_not_mem hx, sublist_set_insert s x⟩,
    set_insert_of_mem (sorted_set_insert x s hs) ((mem_set_insert x x s).2 (Or.inl rfl))⟩

theorem set_insert_sorted_insert_witness :
    ((4 : Nat) ∈ [1, 3, 5] → set_insert [1, 3, 5] 4 = [1, 3, 5]) ∧
      ((4 : Nat) ∉ [1, 3, 5] →
        (set_insert [1, 3, 5] 4).Sorted (· < ·) ∧
        (∀ y, y ∈ set_insert [1, 3, 5] 4 ↔ y = 4 ∨ y ∈ [1, 3, 5]) ∧
        (set_insert [1, 3, 5] 4).length = [1, 3, 5].length + 1 ∧
        [1, 3, 5].Sublist (set_insert [1, 3, 5] 4)) ∧
      set_insert (set_insert [1, 3, 5] 4) 4 = set_insert [1, 3, 5] 4 :=
  set_insert_sorted_insert [1, 3, 5] 4 (by decide)

/-- C17. Under the edge/count invariant, after `S.clear()` the dependents list
of every node `m` of another subgraph is a permutation of its list before the
call with exactly the references to nodes of `S` filtered out (equal as
multisets: nothing else is lost or duplicated), and a list that held no
reference into `S` is unchanged, order included. -/
theorem clear_frame (w : World) (g s : Nat) (hwf : WellFormed w g) (hinv : CountInv w g)
    (hs : s ∈ w.subgraphs_ g) :
    ∃ w1, SubgraphT.clear w s = some w1 ∧
      ∀ t ∈ w1.subgraphs_ g, t ≠ s → ∀ m ∈ w1.nodes_ t,
        (w1.dependents_ m).Perm
          ((w.dependents_ m).filter fun d => decide (d ∉ w.nodes_ s)) ∧
        ((∀ d ∈ w.dependents_ m, d ∉ w.nodes_ s) → w1.dependents_ m = w.dependents_ m) := by
  obtain ⟨w1, hclear, hspec⟩ := clear_spec hwf hinv hs
  refine ⟨w1, hclear, fun t ht hts m hm => ?_⟩
  rw [hspec.subgraphs_] at ht
  rw [hspec.nodes_other hts] at hm
  have hmem : m ∈ scanned w.nodes_ s (w.subgraphs_ g) := mem_scanned.2 ⟨t, ht, hts, hm⟩
  refine ⟨hspec.purged m hmem, fun hnone => ?_⟩
  obtain ⟨hdoom, _, _⟩ := marked_inv hwf hinv hs
  obtain ⟨hdeps, _, _, _⟩ := marked_edges w s
  have hun := clear_unfold hwf hs
  rw [hclear] at hun
  generalize SubgraphT.markNodesWithPredicessors (SubgraphT.decrementDependentCounters w s) s
    = mk at hdoom hdeps hun
  obtain ⟨wB, p⟩ := mk
  simp only at hdoom hdeps hun
  have hclean : ∀ x ∈ wB.dependents_ m, doomed wB.numPredecessors_ x = false := by
    intro x hx
    rw [hdeps] at hx
    rw [hdoom x (mem_refsOf.2 ⟨m, hmem, hx⟩)]
    simpa using hnone x hx
  by_cases hp : p = 0
  · simp only [hp, ne_eq, not_true_eq_false, if_false, Option.map_some'] at hun
    cases hun
    show wB.dependents_ m = w.dependents_ m
    rw [hdeps]
  · simp only [hp, ne_eq, not_false_eq_true, if_true] at hun
    cases h3 : purgeSubgraphs s wB (w.subgraphs_ g) p with
    | none => simp [h3] at hun
    | some w3 =>
      simp only [h3, Option.map_some'] at hun
      cases hun
      show w3.dependents_ m = w.dependents_ m
      rw [purgeSubgraphs_identical s _ _ _ _ h3 m hclean, hdeps]

theorem clear_frame_witness :
    ∃ w1, SubgraphT.clear scenario 20 = some w1 ∧
      ∀ t ∈ w1.subgraphs_ 0, t ≠ 20 → ∀ m ∈ w1.nodes_ t,
        (w1.dependents_ m).Perm
          ((scenario.dependents_ m).filter fun d => decide (d ∉ scenario.nodes_ 20)) ∧
        ((∀ d ∈ scenario.dependents_ m, d ∉ scenario.nodes_ 20) →
          w1.dependents_ m = scenario.dependents_ m) :=
  clear_frame scenario 0 20 scenario_wellFormed scenario_countInv (by decide)

/-- C18. Under the edge/count invariant, every decrement performed by
`decrementDependentCounters` during `S.clear()` is applied to a counter that is
at least 1 at that moment and does not produce the sentinel; and after
`clear()` no node of any subgraph of the graph has a counter equal to
`kToDelete`. -/
theorem clear_no_underflow (w : World) (g s : Nat) (hwf : WellFormed w g) (hinv : CountInv w g)
    (hs : s ∈ w.subgraphs_ g) :
    countersSafe w (w.nodes_ s) ∧
      ∃ w1, SubgraphT.clear w s = some w1 ∧
        ∀ t ∈ w1.subgraphs_ g, ∀ m ∈ w1.nodes_ t, w1.numPredecessors_ m ≠ kToDelete := by
  have sp := split_of_wellFormed hwf hs
  refine ⟨countersSafe_of _ _ ?_, ?_⟩
  · intro x hx
    have hx' := sp.closedS x hx
    have h1 := (hinv x hx').1
    have h2 := sp.count x
    have h3 := List.count_le_length x (refsOf w.dependents_ (allNodes w g))
    have h4 := hwf.fits
    have h5 := kToDelete_lt
    exact ⟨by omega, by omega⟩
  · obtain ⟨w1, hclear, hspec⟩ := clear_spec hwf hinv hs
    obtain ⟨_, hinv1⟩ := inv_clear hwf hinv hs hspec
    refine ⟨w1, hclear, fun t ht m hm => (hinv1 m ?_).2⟩
    exact List.mem_flatMap.2 ⟨t, ht, hm⟩

theorem clear_no_underflow_witness :
    countersSafe scenario (scenario.nodes_ 10) ∧
      ∃ w1, SubgraphT.clear scenario 10 = some w1 ∧
        ∀ t ∈ w1.subgraphs_ 0, ∀ m ∈ w1.nodes_ t, w1.numPredecessors_ m ≠ kToDelete :=
  clear_no_underflow scenario 0 10 scenario_wellFormed scenario_countInv (by decide)

/-- C19. In a state where the groups of `a` and `b` (if present) are strictly
sorted and contain their owner, the sequence `a` and `b` observe through their
handles after `a.addPropagationDependency(b)` is the same sequence as the one
they observe after `b.addPropagationDependency(a)` from the same state. -/
theorem merge_symmetric (w : World) (a b : Nat) (ha : GroupOk w a) (hb : GroupOk w b) :
    groupOf (BiPropNode.biPropDependsOnOneNode w a b) a
        = groupOf (BiPropNode.biPropDependsOnOneNode w b a) a ∧
      groupOf (BiPropNode.biPropDependsOnOneNode w a b) b
        = groupOf (BiPropNode.biPropDependsOnOneNode w b a) b ∧
      groupOf (BiPropNode.biPropDependsOnOneNode w a b) a
        = groupOf (BiPropNode.biPropDependsOnOneNode w a b) b ∧
      groupOf (BiPropNode.biPropDependsOnOneNode w b a) a
        = groupOf (BiPropNode.biPropDependsOnOneNode w b a) b := by
  obtain ⟨h, h1, h2, h3, h4⟩ := biProp_merged w a b ha hb
  obtain ⟨k, k1, k2, k3, k4⟩ := biProp_merged w b a hb ha
  have heq : (BiPropNode.biPropDependsOnOneNode w a b).vec h
      = (BiPropNode.biPropDependsOnOneNode w b a).vec k := by
    apply sorted_ext h3 k3
    intro x
    rw [h4, k4]
    tauto
  rw [groupOf_of_handle h1, groupOf_of_handle h2, groupOf_of_handle k1, groupOf_of_handle k2]
  exact ⟨heq, heq, rfl, rfl⟩

theorem merge_symmetric_witness :
    groupOf (BiPropNode.biPropDependsOnOneNode twoGroups 1 3) 1
        = groupOf (BiPropNode.biPropDependsOnOneNode twoGroups 3 1) 1 ∧
      groupOf (BiPropNode.biPropDependsOnOneNode twoGroups 1 3) 3
        = groupOf (BiPropNode.biPropDependsOnOneNode twoGroups 3 1) 3 ∧
      groupOf (BiPropNode.biPropDependsOnOneNode twoGroups 1 3) 1
        = groupOf (BiPropNode.biPropDependsOnOneNode twoGroups 1 3) 3 ∧
      groupOf (BiPropNode.biPropDependsOnOneNode twoGroups 3 1) 1
        = groupOf (BiPropNode.biPropDependsOnOneNode twoGroups 3 1) 3 :=
  merge_symmetric twoGroups 1 3 twoGroups_groupOk_one twoGroups_groupOk_three

/-- C20. The loop of lines 92-103 on any dependents vector, any marking of
nodes as doomed and any `size_t` counter that is at least 1: with fuel
`dependents.size()` (one unit per iteration, as `num - i` drops by one each
time) it returns a result, so no subscript was out of range, and more fuel
gives the same result; the resized vector is no longer than the original; and
the counter ends at its start value minus the number of removed references,
without wrapping. -/
theorem eraseLoop_total (w : World) (dependents : List Nat) (n : Nat)
    (hn1 : 1 ≤ n) (hn2 : n < sizeMod) :
    ∃ l n1 returned,
      (∀ extra, eraseLoop w (dependents.length + extra) dependents dependents.length 0 n
        = some (l, n1, returned)) ∧
      l.length ≤ dependents.length ∧
      n1 ≤ n ∧
      l.countP (doomed w.numPredecessors_) + (n - n1)
        = dependents.countP (doomed w.numPredecessors_) ∧
      (returned = true ↔ n1 = 0) := by
  obtain ⟨⟨l, n1, r⟩, hres, hspec⟩ := eraseLoop_spec w dependents.length dependents
    dependents.length 0 n (Nat.zero_le _) (Nat.le_refl _) (by omega) hn1 hn2 (by simp)
  rw [List.take_length] at hspec
  exact ⟨l, n1, r, fun extra => eraseLoop_fuel_le w _ _ _ _ _ _ extra hres,
    eraseLoop_length w _ _ _ _ _ _ (Nat.le_refl _) hres, hspec.le, hspec.removed,
    hspec.returned⟩

theorem eraseLoop_total_witness :
    ∃ l n1 returned,
      (∀ extra, eraseLoop markedWorld ([5, 1, 5, 2, 5].length + extra) [5, 1, 5, 2, 5]
        [5, 1, 5, 2, 5].length 0 3 = some (l, n1, returned)) ∧
      l.length ≤ [5, 1, 5, 2, 5].length ∧
      n1 ≤ 3 ∧
      l.countP (doomed markedWorld.numPredecessors_) + (3 - n1)
        = [5, 1, 5, 2, 5].countP (doomed markedWorld.numPredecessors_) ∧
      (returned = true ↔ n1 = 0) :=
  eraseLoop_total markedWorld [5, 1, 5, 2, 5] 3 (by decide) (by decide)

end dispenso
